import Mathlib

set_option autoImplicit false

/-!
Shallow embedding of the Dancing Links (DLX) core of the repository:
the matrix data structure with its `cover`/`uncover` primitives
(`crates/dancing_links_matrix/src/matrix.rs`), the two-phase builder
(`crates/dancing_links_matrix/src/builders.rs`, proto-matrix phase),
the `build`-time priority queue population
(`crates/dancing_links_matrix/src/builders.rs` together with
`crates/dancing_links_matrix/src/queue.rs`), and the iterative
Algorithm X solver (`crates/dancing_links_matrix/src/solver.rs`).

Item names are represented by natural numbers (the Rust code is generic
in the item type `T`; only decidable equality of names is used by the
embedded operations).  Slab/vector storage is represented by Lean lists
indexed by position: the Rust code only ever inserts at the next vacant
key, so keys are dense and coincide with list positions.  The unbounded
`while`/ring-traversal loops of the source are embedded with an explicit
fuel argument that is provably sufficient on well-formed states.
-/

namespace DancingLinks

/-- `CellRow` from `cells.rs`: a cell is either a header cell or belongs to a
(1-based) data row. -/
inductive CellRow where
  | header
  | data (r : Nat)
deriving DecidableEq, Repr

/-- `HeaderName`/`ColumnName` from `cells.rs`: the sentinel first column or a
named column. -/
inductive HeaderName where
  | first
  | other (n : Nat)
deriving DecidableEq, Repr

/-- A matrix cell (`Cell` in the slab iteration, `ProtoCell`/`MatrixCell` in
the arena iteration): four neighbour links, the owning column, and the row. -/
structure MCell where
  index : Nat
  up : Nat
  down : Nat
  left : Nat
  right : Nat
  header : Nat
  row : CellRow
deriving DecidableEq, Repr

/-- A column record (`HeaderCell` in the slab iteration, `ProtoColumn` /
`ColumnInfo` in the arena iteration).  The arena iteration stores the
`primary` flag on the column; the slab iteration encodes primariness only
through the top ring, and its operations never read this field. -/
structure MColumn where
  index : Nat
  name : HeaderName
  size : Nat
  cell : Nat
  primary : Bool
deriving DecidableEq, Repr

/-- The matrix state (`DancingLinksMatrix`): the sentinel header key, the row
and column counts, the column records and the cells. -/
structure DL where
  headerKey : Nat
  rows : Nat
  columns : Nat
  headers : List MColumn
  cells : List MCell
deriving DecidableEq, Repr

def defCell : MCell := ⟨0, 0, 0, 0, 0, 0, CellRow.header⟩

def defColumn : MColumn := ⟨0, HeaderName.first, 0, 0, false⟩

/-- `DancingLinksMatrix::cell` (slab lookup by key = position). -/
def DL.cellAt (m : DL) (k : Nat) : MCell := m.cells.getD k defCell

/-- `DancingLinksMatrix::header` (slab lookup by key = position). -/
def DL.headerAt (m : DL) (k : Nat) : MColumn := m.headers.getD k defColumn

def DL.setCell (m : DL) (k : Nat) (c : MCell) : DL :=
  { m with cells := m.cells.set k c }

def DL.setHeader (m : DL) (k : Nat) (c : MColumn) : DL :=
  { m with headers := m.headers.set k c }

/-- `link_right`/`link_horizontal`: `cells[a].right := b; cells[b].left := a`
(two sequential writes, exactly as in the source). -/
def DL.linkRight (m : DL) (a b : Nat) : DL :=
  let m1 := m.setCell a { m.cellAt a with right := b }
  m1.setCell b { m1.cellAt b with left := a }

/-- `link_down`/`link_vertical`: `cells[a].down := b; cells[b].up := a`. -/
def DL.linkDown (m : DL) (a b : Nat) : DL :=
  let m1 := m.setCell a { m.cellAt a with down := b }
  m1.setCell b { m1.cellAt b with up := a }

/-! ### Ring traversal

`CellIterator`/`HeaderCellIterator` step from the current element and stop
when the walk returns to its start; the start itself is yielded first iff
`include_start`.  The unbounded loop is embedded with fuel; on well-formed
states a fuel of the number of cells (resp. columns) is sufficient. -/

/-- One fuel-bounded walk: repeatedly apply `step`, collecting elements until
the walk returns to `start` (the start is not collected). -/
def walkFrom (step : Nat → Nat) (start : Nat) : Nat → Nat → List Nat
  | 0, _ => []
  | fuel + 1, cur =>
    let nxt := step cur
    if nxt = start then [] else nxt :: walkFrom step start fuel nxt

/-- The step of `CellIterator`: follow the given link of the current cell. -/
def cellStep (m : DL) (getter : MCell → Nat) : Nat → Nat :=
  fun k => getter (m.cellAt k)

/-- `iterate_cells`, returning the keys of the visited cells. -/
def DL.iterateCells (m : DL) (start : Nat) (getter : MCell → Nat)
    (includeStart : Bool) : List Nat :=
  (if includeStart then [start] else [])
    ++ walkFrom (cellStep m getter) start m.cells.length start

/-- The step of `HeaderCellIterator`: from a header key, follow the given link
of the header's cell and return the owning header of the reached cell. -/
def headerStep (m : DL) (getter : MCell → Nat) : Nat → Nat :=
  fun h => (m.cellAt (getter (m.cellAt (m.headerAt h).cell))).header

/-- `iterate_headers`, returning the keys of the visited headers. -/
def DL.iterateHeaders (m : DL) (start : Nat) (getter : MCell → Nat)
    (includeStart : Bool) : List Nat :=
  (if includeStart then [start] else [])
    ++ walkFrom (headerStep m getter) start m.headers.length start

/-! ### Paths along a link function

`PathF f a l b` says: starting at `a` and stepping with `f`, the walk visits
exactly the elements of `l` in order and then reaches `b`.  A circular ring
whose elements are `x :: xs` is `PathF f x xs x`. -/

def PathF (f : Nat → Nat) : Nat → List Nat → Nat → Prop
  | a, [], b => f a = b
  | a, x :: xs, b => f a = x ∧ PathF f x xs b

theorem pathF_append {f : Nat → Nat} {a m c : Nat} {p q : List Nat}
    (h1 : PathF f a p m) (h2 : PathF f m q c) :
    PathF f a (p ++ m :: q) c := by
  induction p generalizing a with
  | nil => exact ⟨h1, h2⟩
  | cons x xs ih => exact ⟨h1.1, ih h1.2⟩

theorem pathF_split {f : Nat → Nat} {a m c : Nat} {p q : List Nat}
    (h : PathF f a (p ++ m :: q) c) :
    PathF f a p m ∧ PathF f m q c := by
  induction p generalizing a with
  | nil => exact ⟨h.1, h.2⟩
  | cons x xs ih =>
    obtain ⟨h1, h2⟩ := h
    obtain ⟨ih1, ih2⟩ := ih h2
    exact ⟨⟨h1, ih1⟩, ih2⟩

theorem pathF_reverse {f g : Nat → Nat} {a b : Nat} {l : List Nat}
    (h : PathF f a l b) (hg : ∀ x, x = a ∨ x ∈ l → g (f x) = x) :
    PathF g b l.reverse a := by
  induction l generalizing a with
  | nil =>
    have := hg a (Or.inl rfl)
    rw [h] at this
    exact this
  | cons x xs ih =>
    obtain ⟨h1, h2⟩ := h
    have tail : PathF g b xs.reverse x :=
      ih h2 (fun y hy => hg y (by
        rcases hy with hy | hy
        · exact Or.inr (hy ▸ List.mem_cons_self x xs)
        · exact Or.inr (List.mem_cons_of_mem x hy)))
    have last : PathF g x [] a := by
      show g x = a
      have := hg a (Or.inl rfl)
      rw [h1] at this
      exact this
    have := pathF_append tail last
    simpa using this

/-- Rotating a ring: if the ring starting at `h` visits `t` and the combined
cycle list `h :: t` decomposes as `l1 ++ x :: l2`, then the ring starting at
`x` visits `l2 ++ l1`. -/
theorem pathF_rotate {f : Nat → Nat} {h x : Nat} {t l1 l2 : List Nat}
    (hr : PathF f h t h) (hsplit : h :: t = l1 ++ x :: l2) :
    PathF f x (l2 ++ l1) x := by
  cases l1 with
  | nil =>
    simp only [List.nil_append] at hsplit
    obtain ⟨rfl, rfl⟩ : h = x ∧ t = l2 := by
      constructor
      · exact (List.cons.injEq _ _ _ _ ▸ hsplit).1
      · exact (List.cons.injEq _ _ _ _ ▸ hsplit).2
    simpa using hr
  | cons y l1' =>
    have hy : h = y ∧ t = l1' ++ x :: l2 := by
      constructor
      · exact (List.cons.injEq _ _ _ _ ▸ hsplit).1
      · exact (List.cons.injEq _ _ _ _ ▸ hsplit).2
    obtain ⟨rfl, rfl⟩ := hy
    obtain ⟨p1, p2⟩ := pathF_split hr
    exact pathF_append p2 p1

/-- The fuel-bounded walk recovers the ring list: if the walk from `s` visits
`l` and returns to `s`, with `s` not among `l`, and the fuel exceeds the
length of `l`, then `walkFrom` returns exactly `l`. -/
theorem walkFrom_spec {f : Nat → Nat} {s : Nat} :
    ∀ (l : List Nat) (fuel a : Nat), PathF f a l s → s ∉ l →
      l.length < fuel → walkFrom f s fuel a = l := by
  intro l
  induction l with
  | nil =>
    intro fuel a h _ hf
    have h' : f a = s := h
    match fuel, hf with
    | fuel + 1, _ => simp [walkFrom, h']
  | cons x xs ih =>
    intro fuel a h hs hf
    match fuel, hf with
    | fuel + 1, hf =>
      obtain ⟨h1, h2⟩ := h
      have hxs : s ∉ xs := fun hc => hs (List.mem_cons_of_mem x hc)
      have hxne : x ≠ s := fun hc => hs (hc ▸ List.mem_cons_self x xs)
      simp only [walkFrom, h1, if_neg hxne]
      rw [ih fuel x h2 hxs (Nat.lt_of_succ_lt_succ hf)]

/-! ### Builder (column phase)

`MatrixColBuilder::end_columns` (identical in the slab and proto iterations):
create the sentinel first column and its header cell, then one column and one
header cell per spec; thread the primary header cells into one left/right ring
with the sentinel.  Header keys and header-cell keys coincide (asserted in the
source).  The proto iteration passes `primary = true` for the sentinel. -/

/-- `ColumnSpec` from `matrix.rs`. -/
structure ColumnSpec where
  name : Nat
  primary : Bool
deriving DecidableEq, Repr

/-- `add_cell`: insert a fresh cell, all four links pointing to itself. -/
def DL.addCell (m : DL) (header : Nat) (row : CellRow) : DL × Nat :=
  let k := m.cells.length
  ({ m with cells := m.cells ++ [⟨k, k, k, k, k, header, row⟩] }, k)

/-- `add_header`/`ProtoMatrix::add_column`: insert a fresh header cell and the
column record owning it (size 0). -/
def DL.addColumn (m : DL) (name : HeaderName) (primary : Bool) : DL × Nat :=
  let ci := m.headers.length
  let (m1, cellKey) := m.addCell ci CellRow.header
  ({ m1 with headers := m1.headers ++ [⟨ci, name, 0, cellKey, primary⟩] }, cellKey)

/-- One iteration of the `end_columns` loop: add the column; when it is
primary, thread its header cell to the right of the previous ring cell. -/
def endStep (acc : DL × Nat) (spec : ColumnSpec) : DL × Nat :=
  let r := acc.1.addColumn (HeaderName.other spec.name) spec.primary
  if spec.primary then (r.1.linkRight acc.2 r.2, r.2) else (r.1, acc.2)

/-- The loop body of `end_columns` threading primary headers into the ring. -/
def endColumnsCore (specs : List ColumnSpec) : DL :=
  let m0 : DL := ⟨0, 0, specs.length, [], []⟩
  let (m1, firstCell) := m0.addColumn HeaderName.first true
  let (m2, prev) := specs.foldl endStep (m1, firstCell)
  m2.linkRight prev firstCell

/-- `end_columns`: panics (`none`) when no columns were added. -/
def endColumns (specs : List ColumnSpec) : Option DL :=
  if specs.isEmpty then none else some (endColumnsCore specs)

/-! ### Builder (row phase) -/

/-- The loop of `MatrixRowBuilder::_add_sorted_row`: for each column index,
append a fresh data cell, thread it into the row's left/right chain, bump the
column size, and insert the cell at the bottom of the column's up/down ring.
Returns `none` when a column index is out of range (index-out-of-bounds panic
at `mx.columns[col_index]`) or when the row is empty (`cur_index.unwrap()`
panics). -/
def addSortedRowLoop (rowNum : Nat) :
    List Nat → DL → Option Nat → Option Nat → Option (DL × Nat × Nat)
  | [], m, cur, start =>
    match cur, start with
    | some c, some s => some (m, c, s)
    | _, _ => none
  | colIndex :: rest, m, prev, start =>
    let newCell := m.cells.length
    let m1 : DL := { m with
      cells := m.cells ++
        [⟨newCell, newCell, newCell, newCell, newCell, colIndex, CellRow.data rowNum⟩] }
    let m2 := match prev with
      | some p => m1.linkRight p newCell
      | none => m1
    let start2 := match prev with
      | some _ => start
      | none => some newCell
    if colIndex < m2.headers.length then
      let m3 := m2.setHeader colIndex
        { m2.headerAt colIndex with size := (m2.headerAt colIndex).size + 1 }
      let last := (m3.cellAt colIndex).up
      let m4 := m3.linkDown newCell colIndex
      let m5 := m4.linkDown last newCell
      addSortedRowLoop rowNum rest m5 (some newCell) start2
    else none

/-- `_add_sorted_row` / `add_sorted_row_index`. -/
def addSortedRowIds (m : DL) (row : List Nat) : Option DL :=
  (addSortedRowLoop (m.rows + 1) row m none none).map fun r =>
    { r.1.linkRight r.2.1 r.2.2 with rows := r.1.rows + 1 }

/-- `add_row_index`: sort the indices, then `_add_sorted_row`.  (The source
uses `sort_unstable`; on totally ordered keys any sort yields the same list.) -/
def addRowIndex (m : DL) (row : List Nat) : Option DL :=
  addSortedRowIds m (row.insertionSort (· ≤ ·))

/-- The forward scan of `add_sorted_row`: look for a column named `v` in the
remaining columns, consuming every column up to and including the match. -/
def findColumnFrom : List MColumn → Nat → Option (Nat × List MColumn)
  | [], _ => none
  | c :: cs, v =>
    match c.name with
    | HeaderName.other n => if n = v then some (c.index, cs) else findColumnFrom cs v
    | HeaderName.first => findColumnFrom cs v

/-- The resolution loop of `add_sorted_row`: a single iterator over the
columns is shared by all items of the row (`col_iter.by_ref()`), so the scan
is never restarted; a missing match is the `"Column not found"` panic. -/
def resolveRow : List MColumn → List Nat → Option (List Nat)
  | _, [] => some []
  | cols, v :: vs =>
    match findColumnFrom cols v with
    | none => none
    | some (idx, rest) => (resolveRow rest vs).map (idx :: ·)

/-- `add_sorted_row` (by item value). -/
def addSortedRow (m : DL) (row : List Nat) : Option DL :=
  match resolveRow m.headers row with
  | none => none
  | some ids => addSortedRowIds m ids

/-- `add_row` (by item value): sort the values, then `add_sorted_row`. -/
def addRow (m : DL) (row : List Nat) : Option DL :=
  addSortedRow m (row.insertionSort (· ≤ ·))

/-- Build a matrix from a column schema and a list of by-index rows
(`MatrixBuilder` chain: `end_columns` then one `add_sorted_row_index` per
row, then `build`). -/
def buildAll (specs : List ColumnSpec) (rows : List (List Nat)) : Option DL :=
  (endColumns specs).bind fun m0 => rows.foldlM addSortedRowIds m0

/-! ### `build()` and the priority queue

`MatrixRowBuilder::build` populates a `ColumnPriorityQueue` with every
primary, non-sentinel column (in column order).  The queue is keyed by
`column_priority = (-(size as isize), index)`; only its contents matter to
the claims below.  The `cover`/`uncover` of the cited `matrix.rs` do not
mention the queue, so the full-state operations leave it unchanged. -/

/-- Queue contents produced by `build()`: primary `Other` columns, in order. -/
def buildQueue (m : DL) : List Nat :=
  (m.headers.filter fun c =>
    (match c.name with
      | HeaderName.other _ => true
      | HeaderName.first => false) && c.primary).map (·.index)

/-- `column_priority` from `queue.rs`: `(-(size as isize), index)`. -/
def columnPriority (c : MColumn) : Int × Nat := (-(c.size : Int), c.index)

/-- The matrix together with the queue `build()` created. -/
structure Built where
  matrix : DL
  queue : List Nat
deriving DecidableEq, Repr

def build (m : DL) : Built := ⟨m, buildQueue m⟩

/-! ### Cover / uncover (`matrix.rs`) -/

/-- One vertical unlink from the mutation loop of `cover`:
`cell_d.up = cell_u; cell_u.down = cell_d; header(cell).size -= 1`. -/
def unlinkVert (m : DL) (j : Nat) : DL :=
  let cell := m.cellAt j
  let d := cell.down
  let u := cell.up
  let h := cell.header
  let m1 := m.setCell d { m.cellAt d with up := u }
  let m2 := m1.setCell u { m1.cellAt u with down := d }
  m2.setHeader h { m2.headerAt h with size := (m2.headerAt h).size - 1 }

/-- One vertical relink from the mutation loop of `uncover`:
`cell_d.up = cell; cell_u.down = cell; header(cell).size += 1`. -/
def relinkVert (m : DL) (j : Nat) : DL :=
  let cell := m.cellAt j
  let d := cell.down
  let u := cell.up
  let ci := cell.index
  let h := cell.header
  let m1 := m.setCell d { m.cellAt d with up := ci }
  let m2 := m1.setCell u { m1.cellAt u with down := ci }
  m2.setHeader h { m2.headerAt h with size := (m2.headerAt h).size + 1 }

/-- `DancingLinksMatrix::cover`: unlink the header cell from its left/right
ring, then collect every cell of every row intersecting the column (walking
down, then right) and unlink each vertically. -/
def cover (m : DL) (key : Nat) : DL :=
  let headerCellIndex := (m.headerAt key).cell
  let headerCell := m.cellAt headerCellIndex
  let hr := headerCell.right
  let hl := headerCell.left
  let m1 := m.setCell hr { m.cellAt hr with left := hl }
  let m2 := m1.setCell hl { m1.cellAt hl with right := hr }
  let v := (m2.iterateCells headerCellIndex (·.down) false).flatMap
    (fun i => m2.iterateCells i (·.right) false)
  v.foldl unlinkVert m2

/-- `DancingLinksMatrix::uncover`: collect every cell walking up, then left,
relink each vertically, then relink the header cell into its left/right
ring. -/
def uncover (m : DL) (key : Nat) : DL :=
  let headerCellIndex := (m.headerAt key).cell
  let v := (m.iterateCells headerCellIndex (·.up) false).flatMap
    (fun i => m.iterateCells i (·.left) false)
  let m1 := v.foldl relinkVert m
  let headerCell := m1.cellAt headerCellIndex
  let cr := headerCell.right
  let cl := headerCell.left
  let m2 := m1.setCell cr { m1.cellAt cr with left := headerCellIndex }
  m2.setCell cl { m2.cellAt cl with right := headerCellIndex }

/-- The full-state `cover`: the cited `cover` performs no queue operation. -/
def Built.cover (b : Built) (key : Nat) : Built :=
  ⟨DancingLinks.cover b.matrix key, b.queue⟩

/-- The full-state `uncover`: the cited `uncover` performs no queue
operation. -/
def Built.uncover (b : Built) (key : Nat) : Built :=
  ⟨DancingLinks.uncover b.matrix key, b.queue⟩

/-! ### Column choice (`min_column`) -/

/-- Rust's `Iterator::min_by_key`: the first element attaining the minimum. -/
def firstMinBy (f : MColumn → Nat) : List MColumn → Option MColumn
  | [] => none
  | x :: xs => some (xs.foldl (fun b a => if f a < f b then a else b) x)

/-- `min_column`: minimum-size header among the headers reachable to the
right of the sentinel (the sentinel itself is excluded by
`include_start = false`). -/
def DL.minColumn (m : DL) : Option MColumn :=
  firstMinBy (·.size)
    ((m.iterateHeaders m.headerKey (·.right) false).map m.headerAt)

/-! ### Row introspection (`iter_rows`) -/

/-- `HashSet::insert` on a list kept without duplicates. -/
def insertName (acc : List Nat) (n : Nat) : List Nat :=
  if n ∈ acc then acc else acc ++ [n]

/-- One `RowIterator::next` call, operating on the remaining suffix of the
cell slab: scan forward, skipping header cells, collecting the column names
of consecutive data cells of one row; stop at a data cell of a different row.
Returns `none` for the panic on a data cell owned by the sentinel column. -/
def nextGroup (m : DL) :
    List MCell → Option Nat → List Nat → Bool →
      Option (Option (List Nat) × List MCell)
  | [], _, acc, found => some (if found then (some acc, []) else (none, []))
  | c :: cs, curRow, acc, found =>
    match c.row with
    | CellRow.header => nextGroup m cs curRow acc found
    | CellRow.data r =>
      match curRow with
      | some r0 =>
        if r ≠ r0 then some (some acc, c :: cs)
        else
          match (m.headerAt c.header).name with
          | HeaderName.first => none
          | HeaderName.other n => nextGroup m cs curRow (insertName acc n) true
      | none =>
        match (m.headerAt c.header).name with
        | HeaderName.first => none
        | HeaderName.other n => nextGroup m cs (some r) (insertName acc n) true

/-- Iterating `RowIterator` to exhaustion (fuel-bounded; each yielded group
consumes at least one cell of the suffix). -/
def iterRowsAux (m : DL) : Nat → List MCell → Option (List (List Nat))
  | 0, _ => none
  | fuel + 1, suffix =>
    if suffix = [] then some []
    else
      match nextGroup m suffix none [] false with
      | none => none
      | some (none, _) => some []
      | some (some g, rest) => (iterRowsAux m fuel rest).map (g :: ·)

/-- `iter_rows`, collected to a list of name sets (each set represented by a
duplicate-free list). -/
def DL.iterRows (m : DL) : Option (List (List Nat)) :=
  iterRowsAux m (m.cells.length + 1) m.cells

/-! ### Iterative Algorithm X solver (`solver.rs`) -/

/-- `StackElem`: the root marker or an active frame. -/
inductive StackElem where
  | root
  | iteration (k : Nat) (currentRow : Nat) (startRow : Nat)
deriving DecidableEq, Repr

/-- `StackElem::k`. -/
def StackElem.k : StackElem → Nat
  | StackElem.root => 0
  | StackElem.iteration k _ _ => k

/-- `Solution { solution_map }`: a finite map from row number to the item
names covered by that row.  The Rust `HashMap` is represented by the
association list enumerated in ascending depth order. -/
structure Solution where
  solutionMap : List (Nat × List Nat)
deriving DecidableEq, Repr

/-- The name list collected for one selected row cell: walk right from the
stored cell (including it), collecting the owning columns' `Other` names. -/
def rowCellNames (m : DL) (rowCell : Nat) : List Nat :=
  (m.iterateCells rowCell (·.right) true).filterMap fun r =>
    match (m.headerAt (m.cellAt r).header).name with
    | HeaderName.other n => some n
    | HeaderName.first => none

/-- `create_sol`: entries of the solution dictionary with depth `< k`, mapped
to (row number, covered names). -/
def createSol (m : DL) (k : Nat) (dict : List (Nat × Nat)) : Solution :=
  ⟨(List.range k).filterMap fun i =>
    (dict.lookup i).bind fun rowCell =>
      match (m.cellAt rowCell).row with
      | CellRow.data r => some (r, rowCellNames m rowCell)
      | CellRow.header => none⟩

/-- `add_to_sol`: `sol_dict.insert(k, next_row)` (insert-or-replace; the
association list is consulted first-match-first). -/
def addToSol (dict : List (Nat × Nat)) (k : Nat) (nextRow : Nat) :
    List (Nat × Nat) :=
  (k, nextRow) :: dict

/-- `cover_row`: collect the owning columns of the cells right of `row`, then
cover each. -/
def coverRow (m : DL) (row : Nat) : DL :=
  (((m.iterateCells row (·.right) false).map
    fun v => (m.cellAt v).header)).foldl cover m

/-- `uncover_row`: collect the owning columns of the cells left of `row`,
then uncover each. -/
def uncoverRow (m : DL) (row : Nat) : DL :=
  (((m.iterateCells row (·.left) false).map
    fun v => (m.cellAt v).header)).foldl uncover m

/-- One matrix together with one `while` iteration of
`IterativeAlgorithmXSolver::solve`, fuel-bounded.  The chooser argument
stands for the `choose_min` selection (`min_column` when `choose_min`; the
feature-gated `random_column` is a non-deterministic chooser of a ring
element).  `none` models fuel exhaustion or the `unwrap` panic. -/
def solveLoop (chooser : DL → Option MColumn) (returnFirst : Bool) :
    Nat → List StackElem → List (Nat × Nat) → DL → Bool →
      Option (List Solution)
  | 0, _, _, _, _ => none
  | fuel + 1, stack, dict, m, advance =>
    match stack with
    | [] => some []
    | elem :: rest =>
      let k := elem.k
      let headerCellKey := (m.headerAt m.headerKey).cell
      let headerCell := m.cellAt headerCellKey
      let ringEmpty := headerCell.right = headerCell.index
      let advance2 := advance || ringEmpty
      let res :=
        match elem, advance2 with
        | StackElem.root, true => solveLoop chooser returnFirst fuel rest dict m advance2
        | StackElem.iteration ki cur start, true =>
          let m1 := uncoverRow m cur
          let nxt := (m1.cellAt cur).down
          if nxt = start then
            let col := (m1.cellAt nxt).header
            solveLoop chooser returnFirst fuel rest dict (uncover m1 col) true
          else
            let dict2 := addToSol dict (ki - 1) nxt
            let m2 := coverRow m1 nxt
            solveLoop chooser returnFirst fuel
              (StackElem.iteration ki nxt start :: rest) dict2 m2 false
        | _, _ =>
          match chooser m with
          | none => none
          | some startCol =>
            if startCol.size = 0 then
              solveLoop chooser returnFirst fuel (elem :: rest) dict m true
            else
              let colCell := startCol.cell
              let col := startCol.index
              let m1 := cover m col
              let nxt := (m1.cellAt colCell).down
              let dict2 := addToSol dict k nxt
              let m2 := coverRow m1 nxt
              solveLoop chooser returnFirst fuel
                (StackElem.iteration (k + 1) nxt colCell :: elem :: rest) dict2 m2 false
      if ringEmpty then
        if returnFirst then some [createSol m k dict]
        else res.map (createSol m k dict :: ·)
      else res

/-- `IterativeAlgorithmXSolver::solve` with the `choose_min` chooser. -/
def solve (m : DL) (returnFirst : Bool) (fuel : Nat) : Option (List Solution) :=
  solveLoop DL.minColumn returnFirst fuel [StackElem.root] [] m false

/-! ### The by-value lookup is a single forward scan -/

/-- The non-sentinel column names, in declaration order. -/
def otherNames (cols : List MColumn) : List Nat :=
  cols.filterMap fun c =>
    match c.name with
    | HeaderName.other n => some n
    | HeaderName.first => none

theorem resolveRow_isSome_iff (cols : List MColumn) (row : List Nat) :
    (resolveRow cols row).isSome ↔ row.Sublist (otherNames cols) := by
  induction cols generalizing row with
  | nil =>
    cases row with
    | nil => simp [resolveRow, otherNames]
    | cons v vs => simp [resolveRow, findColumnFrom, otherNames]
  | cons c cs ih =>
    cases row with
    | nil => simp [resolveRow]
    | cons v vs =>
      rcases hn : c.name with _ | n
      · have hfind : findColumnFrom (c :: cs) v = findColumnFrom cs v := by
          simp [findColumnFrom, hn]
        have hother : otherNames (c :: cs) = otherNames cs := by
          simp [otherNames, hn]
        rw [hother, ← ih (v :: vs)]
        simp only [resolveRow, hfind]
      · have hother : otherNames (c :: cs) = n :: otherNames cs := by
          simp [otherNames, hn]
        by_cases hv : n = v
        · subst hv
          have hfind : findColumnFrom (c :: cs) n = some (c.index, cs) := by
            simp [findColumnFrom, hn]
          rw [hother]
          simp only [resolveRow, hfind]
          constructor
          · intro h
            have : (resolveRow cs vs).isSome := by
              cases hres : resolveRow cs vs with
              | none => simp [hres] at h
              | some l => simp
            exact List.Sublist.cons₂ n ((ih vs).mp this)
          · intro h
            have hsub : vs.Sublist (otherNames cs) := by
              cases h with
              | cons _ h' => exact (List.sublist_cons_self n vs).trans h'
              | cons₂ _ h' => exact h'
            have := (ih vs).mpr hsub
            cases hres : resolveRow cs vs with
            | none => rw [hres] at this; simp at this
            | some l => simp [hres]
        · have hfind : findColumnFrom (c :: cs) v = findColumnFrom cs v := by
            simp [findColumnFrom, hn, hv]
          have step : resolveRow (c :: cs) (v :: vs) = resolveRow cs (v :: vs) := by
            simp only [resolveRow, hfind]
          rw [hother, step, ih (v :: vs)]
          constructor
          · intro h
            exact List.Sublist.cons n h
          · intro h
            cases h with
            | cons _ h' => exact h'
            | cons₂ _ h' => exact absurd rfl hv

/-- C9: for every builder state whose columns resolve the row's items only
out of declaration order (the items are not a subsequence of the declared
non-sentinel column names), the single shared forward scan of
`add_sorted_row` fails and the build panics ("Column not found"), even when
every item names an existing column. -/
theorem addSortedRow_out_of_order_panics (m : DL) (row : List Nat)
    (_hexists : ∀ v ∈ row, v ∈ otherNames m.headers)
    (horder : ¬ row.Sublist (otherNames m.headers)) :
    addSortedRow m row = none := by
  have : ¬ (resolveRow m.headers row).isSome := fun h =>
    horder ((resolveRow_isSome_iff m.headers row).mp h)
  cases hres : resolveRow m.headers row with
  | none => simp [addSortedRow, hres]
  | some l => rw [hres] at this; simp at this

/-- Witness for C9: columns 1, 2 declared in this order; the row `[2, 1]`
names only existing columns but not in declaration order, and the build
fails. -/
theorem addSortedRow_out_of_order_panics_witness :
    addSortedRow (endColumnsCore [⟨1, true⟩, ⟨2, true⟩]) [2, 1] = none := by
  apply addSortedRow_out_of_order_panics
  · decide
  · decide

/-- C10: adding an empty row through any of the four row-phase entry points
panics (the `cur_index.unwrap()` of `_add_sorted_row` unwraps `None`); the
empty row is never silently accepted. -/
theorem empty_row_panics (m : DL) :
    addSortedRowIds m [] = none ∧ addRowIndex m [] = none ∧
      addSortedRow m [] = none ∧ addRow m [] = none := by
  refine ⟨rfl, rfl, ?_, ?_⟩ <;> simp [addRow, addSortedRow, resolveRow,
    addSortedRowIds, addSortedRowLoop, List.insertionSort]

/-- Witness for C10 at a concrete builder state. -/
theorem empty_row_panics_witness :
    addSortedRowIds (endColumnsCore [⟨1, true⟩]) [] = none ∧
      addRowIndex (endColumnsCore [⟨1, true⟩]) [] = none ∧
      addSortedRow (endColumnsCore [⟨1, true⟩]) [] = none ∧
      addRow (endColumnsCore [⟨1, true⟩]) [] = none :=
  empty_row_panics (endColumnsCore [⟨1, true⟩])

/-- C5: the failing input.  With a single declared column (valid ids are
`1..=1`), a by-index row `[0]` is outside the documented range yet is
accepted: the build succeeds (the cell is attached to the sentinel column,
whose size becomes 1), contradicting the claim that every out-of-range id
fails the build.  An id above the range (here `2`) does panic
(index out of bounds).  The `// TODO check if ind is valid` in
`_add_sorted_row` marks the missing check. -/
theorem add_row_index_zero_accepted :
    (addRowIndex (endColumnsCore [⟨1, true⟩]) [0]).isSome = true ∧
      ((addRowIndex (endColumnsCore [⟨1, true⟩]) [0]).map
        fun m => (m.headerAt 0).size) = some 1 ∧
      addRowIndex (endColumnsCore [⟨1, true⟩]) [2] = none := by
  decide

/-! ### State-access lemmas -/

theorem DL.cellAt_setCell_self (m : DL) (k : Nat) (c : MCell)
    (h : k < m.cells.length) : (m.setCell k c).cellAt k = c := by
  simp [DL.setCell, DL.cellAt, List.getD, List.getElem?_set_self', h]

theorem DL.cellAt_setCell_ne (m : DL) {j k : Nat} (c : MCell)
    (h : j ≠ k) : (m.setCell k c).cellAt j = m.cellAt j := by
  simp [DL.setCell, DL.cellAt, List.getD, List.getElem?_set_ne (Ne.symm h)]

theorem DL.headerAt_setCell (m : DL) (j k : Nat) (c : MCell) :
    (m.setCell k c).headerAt j = m.headerAt j := rfl

theorem DL.cellAt_setHeader (m : DL) (j k : Nat) (c : MColumn) :
    (m.setHeader k c).cellAt j = m.cellAt j := rfl

theorem DL.headerAt_setHeader_self (m : DL) (k : Nat) (c : MColumn)
    (h : k < m.headers.length) : (m.setHeader k c).headerAt k = c := by
  simp [DL.setHeader, DL.headerAt, List.getD, List.getElem?_set_self', h]

theorem DL.headerAt_setHeader_ne (m : DL) {j k : Nat} (c : MColumn)
    (h : j ≠ k) : (m.setHeader k c).headerAt j = m.headerAt j := by
  simp [DL.setHeader, DL.headerAt, List.getD, List.getElem?_set_ne (Ne.symm h)]

theorem DL.cells_length_setCell (m : DL) (k : Nat) (c : MCell) :
    (m.setCell k c).cells.length = m.cells.length := by
  simp [DL.setCell]

theorem DL.headers_length_setHeader (m : DL) (k : Nat) (c : MColumn) :
    (m.setHeader k c).headers.length = m.headers.length := by
  simp [DL.setHeader]

/-! ### Primary column indices of a schema -/

/-- The 1-based indices of the primary specs, starting at `i`. -/
def primIndicesFrom : Nat → List ColumnSpec → List Nat
  | _, [] => []
  | i, s :: rest =>
    if s.primary then i :: primIndicesFrom (i + 1) rest
    else primIndicesFrom (i + 1) rest

/-- The 1-based indices of the primary columns of a schema. -/
def primIndices (specs : List ColumnSpec) : List Nat := primIndicesFrom 1 specs

theorem primIndicesFrom_bounds {i : Nat} {specs : List ColumnSpec} :
    ∀ x ∈ primIndicesFrom i specs, i ≤ x ∧ x < i + specs.length := by
  induction specs generalizing i with
  | nil => simp [primIndicesFrom]
  | cons s rest ih =>
    intro x hx
    by_cases hp : s.primary
    · simp only [primIndicesFrom, if_pos hp, List.mem_cons] at hx
      rcases hx with rfl | hx
      · simp
      · have := ih x hx
        simp only [List.length_cons]
        omega
    · simp only [primIndicesFrom, if_neg hp] at hx
      have := ih x hx
      simp only [List.length_cons]
      omega

theorem primIndicesFrom_sorted {i : Nat} {specs : List ColumnSpec} :
    List.Pairwise (· < ·) (primIndicesFrom i specs) := by
  induction specs generalizing i with
  | nil => simp [primIndicesFrom]
  | cons s rest ih =>
    by_cases hp : s.primary
    · simp only [primIndicesFrom, if_pos hp]
      refine List.Pairwise.cons ?_ ih
      intro x hx
      exact Nat.lt_of_lt_of_le (Nat.lt_succ_self i) (primIndicesFrom_bounds x hx).1
    · simp only [primIndicesFrom, if_neg hp]
      exact ih

theorem primIndices_pos {specs : List ColumnSpec} :
    ∀ x ∈ primIndices specs, 1 ≤ x ∧ x ≤ specs.length := by
  intro x hx
  have := primIndicesFrom_bounds x hx
  omega

theorem primIndices_nodup {specs : List ColumnSpec} :
    (primIndices specs).Nodup :=
  (primIndicesFrom_sorted).imp Nat.ne_of_lt

theorem primIndicesFrom_append {i : Nat} {l1 l2 : List ColumnSpec} :
    primIndicesFrom i (l1 ++ l2) =
      primIndicesFrom i l1 ++ primIndicesFrom (i + l1.length) l2 := by
  induction l1 generalizing i with
  | nil => simp [primIndicesFrom]
  | cons s rest ih =>
    by_cases hp : s.primary <;>
      simp [primIndicesFrom, hp, ih, Nat.add_assoc, Nat.add_comm 1 rest.length]

/-! ### Characterisation of the column phase -/

/-- The name record of column `i` of a schema (0 is the sentinel). -/
def colName (specs : List ColumnSpec) : Nat → HeaderName
  | 0 => HeaderName.first
  | i + 1 => HeaderName.other ((specs.getD i ⟨0, false⟩).name)

/-- The primary flag of column `i` (the proto builder marks the sentinel
primary). -/
def colPrimary (specs : List ColumnSpec) : Nat → Bool
  | 0 => true
  | i + 1 => (specs.getD i ⟨0, false⟩).primary

def rightF (m : DL) : Nat → Nat := fun j => (m.cellAt j).right

def leftF (m : DL) : Nat → Nat := fun j => (m.cellAt j).left

def downF (m : DL) : Nat → Nat := fun j => (m.cellAt j).down

def upF (m : DL) : Nat → Nat := fun j => (m.cellAt j).up

/-- An open doubly-linked chain along the left/right links. -/
def LinkChain (m : DL) : Nat → List Nat → Prop
  | _, [] => True
  | a, b :: rest =>
    (m.cellAt a).right = b ∧ (m.cellAt b).left = a ∧ LinkChain m b rest

/-- Everything the column phase establishes about the built state. -/
structure ColPhase (specs : List ColumnSpec) (m : DL) : Prop where
  hdrLen : m.headers.length = specs.length + 1
  cellLen : m.cells.length = specs.length + 1
  rows0 : m.rows = 0
  colCount : m.columns = specs.length
  hkey : m.headerKey = 0
  hdr : ∀ i, i ≤ specs.length →
    m.headerAt i = ⟨i, colName specs i, 0, i, colPrimary specs i⟩
  cellIdx : ∀ i, i ≤ specs.length → (m.cellAt i).index = i ∧
    (m.cellAt i).header = i ∧ (m.cellAt i).row = CellRow.header
  cellVert : ∀ i, i ≤ specs.length →
    (m.cellAt i).up = i ∧ (m.cellAt i).down = i
  ringR : PathF (rightF m) 0 (primIndices specs) 0
  ringL : PathF (leftF m) 0 (primIndices specs).reverse 0
  secSelf : ∀ i, i ≤ specs.length → i ∉ 0 :: primIndices specs →
    (m.cellAt i).left = i ∧ (m.cellAt i).right = i
  hdrQueue : buildQueue m = primIndices specs

/-! ### Link-operation lemmas -/

theorem DL.linkRight_headers (m : DL) (a b : Nat) :
    (m.linkRight a b).headers = m.headers := rfl

theorem DL.linkRight_rows (m : DL) (a b : Nat) :
    (m.linkRight a b).rows = m.rows := rfl

theorem DL.linkRight_columns (m : DL) (a b : Nat) :
    (m.linkRight a b).columns = m.columns := rfl

theorem DL.linkRight_headerKey (m : DL) (a b : Nat) :
    (m.linkRight a b).headerKey = m.headerKey := rfl

theorem DL.linkRight_cells_length (m : DL) (a b : Nat) :
    (m.linkRight a b).cells.length = m.cells.length := by
  simp [DL.linkRight, DL.setCell]

theorem DL.linkRight_cellAt_ne (m : DL) {a b j : Nat} (ha : j ≠ a)
    (hb : j ≠ b) : (m.linkRight a b).cellAt j = m.cellAt j := by
  unfold DL.linkRight
  rw [DL.cellAt_setCell_ne _ _ hb, DL.cellAt_setCell_ne _ _ ha]

theorem DL.linkRight_cellAt_fst (m : DL) {a b : Nat} (hab : a ≠ b)
    (ha : a < m.cells.length) :
    (m.linkRight a b).cellAt a = { m.cellAt a with right := b } := by
  unfold DL.linkRight
  rw [DL.cellAt_setCell_ne _ _ hab, DL.cellAt_setCell_self _ _ _ ha]

theorem DL.linkRight_cellAt_snd (m : DL) {a b : Nat} (hab : a ≠ b)
    (hb : b < m.cells.length) :
    (m.linkRight a b).cellAt b = { m.cellAt b with left := a } := by
  unfold DL.linkRight
  rw [DL.cellAt_setCell_self _ _ _ (by simpa [DL.setCell] using hb),
    DL.cellAt_setCell_ne _ _ (Ne.symm hab)]

theorem DL.linkRight_cellAt_self (m : DL) {a : Nat} (ha : a < m.cells.length) :
    (m.linkRight a a).cellAt a = { m.cellAt a with right := a, left := a } := by
  unfold DL.linkRight
  rw [DL.cellAt_setCell_self _ _ _ (by simpa [DL.setCell] using ha),
    DL.cellAt_setCell_self _ _ _ ha]

theorem DL.linkDown_headers (m : DL) (a b : Nat) :
    (m.linkDown a b).headers = m.headers := rfl

theorem DL.linkDown_rows (m : DL) (a b : Nat) :
    (m.linkDown a b).rows = m.rows := rfl

theorem DL.linkDown_columns (m : DL) (a b : Nat) :
    (m.linkDown a b).columns = m.columns := rfl

theorem DL.linkDown_headerKey (m : DL) (a b : Nat) :
    (m.linkDown a b).headerKey = m.headerKey := rfl

theorem DL.linkDown_cells_length (m : DL) (a b : Nat) :
    (m.linkDown a b).cells.length = m.cells.length := by
  simp [DL.linkDown, DL.setCell]

theorem DL.linkDown_cellAt_ne (m : DL) {a b j : Nat} (ha : j ≠ a)
    (hb : j ≠ b) : (m.linkDown a b).cellAt j = m.cellAt j := by
  unfold DL.linkDown
  rw [DL.cellAt_setCell_ne _ _ hb, DL.cellAt_setCell_ne _ _ ha]

theorem DL.linkDown_cellAt_fst (m : DL) {a b : Nat} (hab : a ≠ b)
    (ha : a < m.cells.length) :
    (m.linkDown a b).cellAt a = { m.cellAt a with down := b } := by
  unfold DL.linkDown
  rw [DL.cellAt_setCell_ne _ _ hab, DL.cellAt_setCell_self _ _ _ ha]

theorem DL.linkDown_cellAt_snd (m : DL) {a b : Nat} (hab : a ≠ b)
    (hb : b < m.cells.length) :
    (m.linkDown a b).cellAt b = { m.cellAt b with up := a } := by
  unfold DL.linkDown
  rw [DL.cellAt_setCell_self _ _ _ (by simpa [DL.setCell] using hb),
    DL.cellAt_setCell_ne _ _ (Ne.symm hab)]

theorem DL.linkDown_cellAt_self (m : DL) {a : Nat} (ha : a < m.cells.length) :
    (m.linkDown a a).cellAt a = { m.cellAt a with down := a, up := a } := by
  unfold DL.linkDown
  rw [DL.cellAt_setCell_self _ _ _ (by simpa [DL.setCell] using ha),
    DL.cellAt_setCell_self _ _ _ ha]

theorem DL.linkRight_headerAt (m : DL) (a b j : Nat) :
    (m.linkRight a b).headerAt j = m.headerAt j := rfl

theorem DL.linkDown_headerAt (m : DL) (a b j : Nat) :
    (m.linkDown a b).headerAt j = m.headerAt j := rfl

theorem getD_append_lt {α : Type} (l1 l2 : List α) (d : α) (i : Nat)
    (h : i < l1.length) : (l1 ++ l2).getD i d = l1.getD i d := by
  simp [List.getD, List.getElem?_append_left h]

theorem getD_concat_self {α : Type} (l : List α) (d c : α) :
    (l ++ [c]).getD l.length d = c := by
  simp [List.getD, List.getElem?_append_right (Nat.le_refl l.length)]

/-! ### `add_column` access lemmas -/

theorem DL.addColumn_cells (m : DL) (name : HeaderName) (primary : Bool) :
    ((m.addColumn name primary).1).cells = m.cells ++
      [⟨m.cells.length, m.cells.length, m.cells.length, m.cells.length,
        m.cells.length, m.headers.length, CellRow.header⟩] := rfl

theorem DL.addColumn_headers (m : DL) (name : HeaderName) (primary : Bool) :
    ((m.addColumn name primary).1).headers = m.headers ++
      [⟨m.headers.length, name, 0, m.cells.length, primary⟩] := rfl

theorem DL.addColumn_snd (m : DL) (name : HeaderName) (primary : Bool) :
    (m.addColumn name primary).2 = m.cells.length := rfl

theorem DL.addColumn_rows (m : DL) (name : HeaderName) (primary : Bool) :
    ((m.addColumn name primary).1).rows = m.rows := rfl

theorem DL.addColumn_columns (m : DL) (name : HeaderName) (primary : Bool) :
    ((m.addColumn name primary).1).columns = m.columns := rfl

theorem DL.addColumn_headerKey (m : DL) (name : HeaderName) (primary : Bool) :
    ((m.addColumn name primary).1).headerKey = m.headerKey := rfl

theorem DL.addColumn_cellAt_lt (m : DL) (name : HeaderName) (primary : Bool)
    {i : Nat} (h : i < m.cells.length) :
    ((m.addColumn name primary).1).cellAt i = m.cellAt i := by
  simp only [DL.cellAt, DL.addColumn_cells]
  exact getD_append_lt _ _ _ _ h

theorem DL.addColumn_cellAt_new (m : DL) (name : HeaderName) (primary : Bool) :
    ((m.addColumn name primary).1).cellAt m.cells.length =
      ⟨m.cells.length, m.cells.length, m.cells.length, m.cells.length,
        m.cells.length, m.headers.length, CellRow.header⟩ := by
  simp only [DL.cellAt, DL.addColumn_cells]
  exact getD_concat_self _ _ _

theorem DL.addColumn_headerAt_lt (m : DL) (name : HeaderName) (primary : Bool)
    {i : Nat} (h : i < m.headers.length) :
    ((m.addColumn name primary).1).headerAt i = m.headerAt i := by
  simp only [DL.headerAt, DL.addColumn_headers]
  exact getD_append_lt _ _ _ _ h

theorem DL.addColumn_headerAt_new (m : DL) (name : HeaderName) (primary : Bool) :
    ((m.addColumn name primary).1).headerAt m.headers.length =
      ⟨m.headers.length, name, 0, m.cells.length, primary⟩ := by
  simp only [DL.headerAt, DL.addColumn_headers]
  exact getD_concat_self _ _ _

/-! ### Chain lemmas -/

/-- The last element of `a :: l`. -/
def lastOf (a : Nat) : List Nat → Nat
  | [] => a
  | b :: rest => lastOf b rest

theorem lastOf_mem : ∀ (l : List Nat) (a : Nat), l ≠ [] → lastOf a l ∈ l := by
  intro l
  induction l with
  | nil => simp
  | cons b rest ih =>
    intro a _
    cases rest with
    | nil => simp [lastOf]
    | cons c cs =>
      have h1 : lastOf a (b :: c :: cs) = lastOf b (c :: cs) := rfl
      rw [h1]
      exact List.mem_cons_of_mem b (ih b (by simp))

theorem linkChain_append {m mp : DL} {k : Nat} :
    ∀ (l : List Nat) (a : Nat), LinkChain m a l → a ∉ l → l.Nodup →
      (mp.cellAt (lastOf a l)).right = k →
      (mp.cellAt k).left = lastOf a l →
      (∀ x ∈ a :: l, x ≠ lastOf a l → (mp.cellAt x).right = (m.cellAt x).right) →
      (∀ x ∈ l, (mp.cellAt x).left = (m.cellAt x).left) →
      LinkChain mp a (l ++ [k]) := by
  intro l
  induction l with
  | nil =>
    intro a _ _ _ hr hl _ _
    exact ⟨hr, hl, trivial⟩
  | cons b rest ih =>
    intro a hc ha hnd hr hl hrights hlefts
    obtain ⟨hab, hba, hrest⟩ := hc
    have hlast : lastOf a (b :: rest) = lastOf b rest := rfl
    have hane : a ≠ lastOf a (b :: rest) := by
      intro hcon
      exact ha (hcon ▸ lastOf_mem (b :: rest) a (by simp))
    refine ⟨?_, ?_, ?_⟩
    · rw [hrights a (List.mem_cons_self a _) hane, hab]
    · rw [hlefts b (List.mem_cons_self b _), hba]
    · have hknd : rest.Nodup := (List.nodup_cons.mp hnd).2
      have hbnotin : b ∉ rest := (List.nodup_cons.mp hnd).1
      refine ih b hrest hbnotin hknd ?_ ?_ ?_ ?_
      · rw [← hlast]; exact hr
      · rw [← hlast]; exact hl
      · intro x hx hxne
        exact hrights x (List.mem_cons_of_mem a hx) (by rw [hlast]; exact hxne)
      · intro x hx
        exact hlefts x (List.mem_cons_of_mem b hx)

theorem linkChain_to_pathF {m : DL} {f : Nat → Nat} {z : Nat} :
    ∀ (l : List Nat) (a : Nat), LinkChain m a l → a ∉ l → l.Nodup →
      (∀ x ∈ a :: l, x ≠ lastOf a l → f x = (m.cellAt x).right) →
      f (lastOf a l) = z → PathF f a l z := by
  intro l
  induction l with
  | nil =>
    intro a _ _ _ _ hz
    exact hz
  | cons b rest ih =>
    intro a hc ha hnd hmid hz
    obtain ⟨hab, hba, hrest⟩ := hc
    have hlast : lastOf a (b :: rest) = lastOf b rest := rfl
    have hane : a ≠ lastOf a (b :: rest) := by
      intro hcon
      exact ha (hcon ▸ lastOf_mem (b :: rest) a (by simp))
    refine ⟨?_, ?_⟩
    · rw [hmid a (List.mem_cons_self a _) hane, hab]
    · refine ih b hrest (List.nodup_cons.mp hnd).1 (List.nodup_cons.mp hnd).2 ?_ ?_
      · intro x hx hxne
        exact hmid x (List.mem_cons_of_mem a hx) (by rw [hlast]; exact hxne)
      · rw [← hlast]; exact hz

/-- In a doubly-linked open chain, the left link of each right-successor
points back, for every node other than the last. -/
theorem linkChain_inv {m : DL} :
    ∀ (l : List Nat) (a : Nat), LinkChain m a l →
      ∀ x ∈ a :: l, x ≠ lastOf a l →
        (m.cellAt ((m.cellAt x).right)).left = x := by
  intro l
  induction l with
  | nil =>
    intro a _ x hx hxne
    rcases List.mem_singleton.mp hx with rfl
    exact absurd rfl hxne
  | cons b rest ih =>
    intro a hc x hx hxne
    obtain ⟨hab, hba, hrest⟩ := hc
    have hlast : lastOf a (b :: rest) = lastOf b rest := rfl
    rw [hlast] at hxne
    rcases List.mem_cons.mp hx with rfl | hx2
    · rw [hab, hba]
    · exact ih b hrest x hx2 hxne

/-! ### The `end_columns` invariant -/

theorem lastOf_append_singleton (a k : Nat) :
    ∀ l : List Nat, lastOf a (l ++ [k]) = k := by
  intro l
  induction l generalizing a with
  | nil => rfl
  | cons b rest ih => exact ih b

theorem linkChain_congr {m mp : DL} :
    ∀ (l : List Nat) (a : Nat), LinkChain m a l →
      (∀ x ∈ a :: l, mp.cellAt x = m.cellAt x) → LinkChain mp a l := by
  intro l
  induction l with
  | nil => intro a _ _; trivial
  | cons b rest ih =>
    intro a hc hcongr
    obtain ⟨hab, hba, hrest⟩ := hc
    refine ⟨?_, ?_, ?_⟩
    · rw [hcongr a (List.mem_cons_self a _)]; exact hab
    · rw [hcongr b (List.mem_cons_of_mem a (List.mem_cons_self b _))]; exact hba
    · exact ih b hrest fun x hx =>
        hcongr x (List.mem_cons_of_mem a hx)

theorem linkChain_succ_mem {m : DL} :
    ∀ (l : List Nat) (a : Nat), LinkChain m a l →
      ∀ x ∈ a :: l, x ≠ lastOf a l → (m.cellAt x).right ∈ l := by
  intro l
  induction l with
  | nil =>
    intro a _ x hx hxne
    rcases List.mem_singleton.mp hx with rfl
    exact absurd rfl hxne
  | cons b rest ih =>
    intro a hc x hx hxne
    obtain ⟨hab, hba, hrest⟩ := hc
    have hlast : lastOf a (b :: rest) = lastOf b rest := rfl
    rw [hlast] at hxne
    rcases List.mem_cons.mp hx with rfl | hx2
    · rw [hab]; exact List.mem_cons_self b rest
    · exact List.mem_cons_of_mem b (ih b hrest x hx2 hxne)

theorem colName_append (pre : List ColumnSpec) (s : ColumnSpec) {i : Nat}
    (h : i ≤ pre.length) : colName (pre ++ [s]) i = colName pre i := by
  cases i with
  | zero => rfl
  | succ j =>
    simp only [colName]
    rw [getD_append_lt _ _ _ _ (by omega)]

theorem colPrimary_append (pre : List ColumnSpec) (s : ColumnSpec) {i : Nat}
    (h : i ≤ pre.length) : colPrimary (pre ++ [s]) i = colPrimary pre i := by
  cases i with
  | zero => rfl
  | succ j =>
    simp only [colPrimary]
    rw [getD_append_lt _ _ _ _ (by omega)]

theorem colName_append_new (pre : List ColumnSpec) (s : ColumnSpec) :
    colName (pre ++ [s]) (pre.length + 1) = HeaderName.other s.name := by
  simp only [colName]
  rw [getD_concat_self]

theorem colPrimary_append_new (pre : List ColumnSpec) (s : ColumnSpec) :
    colPrimary (pre ++ [s]) (pre.length + 1) = s.primary := by
  simp only [colPrimary]
  rw [getD_concat_self]

theorem primIndices_append (pre : List ColumnSpec) (s : ColumnSpec) :
    primIndices (pre ++ [s]) =
      primIndices pre ++ (if s.primary then [pre.length + 1] else []) := by
  unfold primIndices
  rw [primIndicesFrom_append]
  by_cases hp : s.primary <;>
    simp [primIndicesFrom, hp, Nat.add_comm 1 pre.length]

/-- Invariant of the `end_columns` loop after processing the prefix `pre` of
the schema; `n` is the full schema length stored in the `columns` field. -/
structure Mid (n : Nat) (pre : List ColumnSpec) (m : DL) (prev : Nat) : Prop where
  hdrLen : m.headers.length = pre.length + 1
  cellLen : m.cells.length = pre.length + 1
  rows0 : m.rows = 0
  colCount : m.columns = n
  hkey : m.headerKey = 0
  hdr : ∀ i, i ≤ pre.length →
    m.headerAt i = ⟨i, colName pre i, 0, i, colPrimary pre i⟩
  cellIdx : ∀ i, i ≤ pre.length → (m.cellAt i).index = i ∧
    (m.cellAt i).header = i ∧ (m.cellAt i).row = CellRow.header
  cellVert : ∀ i, i ≤ pre.length →
    (m.cellAt i).up = i ∧ (m.cellAt i).down = i
  chain : LinkChain m 0 (primIndices pre)
  prevEq : prev = lastOf 0 (primIndices pre)
  prevR : (m.cellAt prev).right = prev
  zeroL : (m.cellAt 0).left = 0
  secSelf : ∀ i, i ≤ pre.length → i ∉ 0 :: primIndices pre →
    (m.cellAt i).left = i ∧ (m.cellAt i).right = i
  hdrQueue : buildQueue m = primIndices pre

theorem mid_base (n : Nat) :
    Mid n [] ((DL.mk 0 0 n [] []).addColumn HeaderName.first true).1 0 := by
  refine ⟨rfl, rfl, rfl, rfl, rfl, ?_, ?_, ?_, trivial, rfl, rfl, rfl, ?_, ?_⟩
  · intro i hi
    have hi0 : i = 0 := by simpa using hi
    subst hi0
    rfl
  · intro i hi
    have hi0 : i = 0 := by simpa using hi
    subst hi0
    exact ⟨rfl, rfl, rfl⟩
  · intro i hi
    have hi0 : i = 0 := by simpa using hi
    subst hi0
    exact ⟨rfl, rfl⟩
  · intro i hi hmem
    have hi0 : i = 0 := by simpa using hi
    subst hi0
    exact absurd (List.mem_cons_self 0 _) hmem
  · rfl

theorem mid_step {n : Nat} {pre : List ColumnSpec} {m : DL} {prev : Nat}
    (h : Mid n pre m prev) (s : ColumnSpec) :
    Mid n (pre ++ [s]) (endStep (m, prev) s).1 (endStep (m, prev) s).2 := by
  obtain ⟨nm, sp⟩ := s
  have hkc : m.cells.length = pre.length + 1 := h.cellLen
  have hkh : m.headers.length = pre.length + 1 := h.hdrLen
  have hprevmem : prev ∈ 0 :: primIndices pre := by
    rw [h.prevEq]
    cases hp : primIndices pre with
    | nil => simp [lastOf]
    | cons b rest =>
      exact List.mem_cons_of_mem 0 (hp ▸ lastOf_mem (b :: rest) 0 (by simp))
  have hprevle : prev ≤ pre.length := by
    rcases List.mem_cons.mp hprevmem with rfl | hmem
    · exact Nat.zero_le _
    · exact (primIndices_pos prev hmem).2
  have hprevlt : prev < m.cells.length := by omega
  have hprevnek : prev ≠ pre.length + 1 := by omega
  have hprimsub : ∀ x ∈ primIndices pre, x ≤ pre.length ∧ 1 ≤ x :=
    fun x hx => ⟨(primIndices_pos x hx).2, (primIndices_pos x hx).1⟩
  have hknotinp : pre.length + 1 ∉ primIndices pre := fun hx => by
    have := (hprimsub _ hx).1
    omega
  have hm2cells : ((m.addColumn (HeaderName.other nm) sp).1).cells.length
      = pre.length + 2 := by
    rw [DL.addColumn_cells]
    simp [hkc]
  have hm2hdrs : ((m.addColumn (HeaderName.other nm) sp).1).headers.length
      = pre.length + 2 := by
    rw [DL.addColumn_headers]
    simp [hkh]
  have hcellkey : (m.addColumn (HeaderName.other nm) sp).2 = pre.length + 1 := by
    rw [DL.addColumn_snd, hkc]
  have hcellold : ∀ i, i ≤ pre.length →
      ((m.addColumn (HeaderName.other nm) sp).1).cellAt i = m.cellAt i := by
    intro i hi
    exact DL.addColumn_cellAt_lt m _ _ (by omega)
  have hcellnew : ((m.addColumn (HeaderName.other nm) sp).1).cellAt
      (pre.length + 1) = ⟨pre.length + 1, pre.length + 1, pre.length + 1,
        pre.length + 1, pre.length + 1, pre.length + 1, CellRow.header⟩ := by
    have := DL.addColumn_cellAt_new m (HeaderName.other nm) sp
    rw [hkc, hkh] at this
    exact this
  have hhdrold : ∀ i, i ≤ pre.length →
      ((m.addColumn (HeaderName.other nm) sp).1).headerAt i = m.headerAt i := by
    intro i hi
    exact DL.addColumn_headerAt_lt m _ _ (by omega)
  have hhdrnew : ((m.addColumn (HeaderName.other nm) sp).1).headerAt
      (pre.length + 1) = ⟨pre.length + 1, HeaderName.other nm, 0,
        pre.length + 1, sp⟩ := by
    have := DL.addColumn_headerAt_new m (HeaderName.other nm) sp
    rw [hkc, hkh] at this
    exact this
  cases sp with
  | true =>
    set m2 := (m.addColumn (HeaderName.other nm) true).1 with hm2def
    have hstep : endStep (m, prev) ⟨nm, true⟩ =
        (m2.linkRight prev (pre.length + 1), pre.length + 1) := by
      simp [endStep, hcellkey, ← hm2def]
    rw [hstep]
    set m3 := m2.linkRight prev (pre.length + 1) with hm3def
    have hprevlt2 : prev < m2.cells.length := by omega
    have hklt2 : pre.length + 1 < m2.cells.length := by omega
    have hc3prev : m3.cellAt prev = { m2.cellAt prev with right := pre.length + 1 } :=
      DL.linkRight_cellAt_fst m2 hprevnek hprevlt2
    have hc3k : m3.cellAt (pre.length + 1) =
        { m2.cellAt (pre.length + 1) with left := prev } :=
      DL.linkRight_cellAt_snd m2 hprevnek hklt2
    have hc3other : ∀ j, j ≠ prev → j ≠ pre.length + 1 →
        m3.cellAt j = m2.cellAt j :=
      fun j h1 h2 => DL.linkRight_cellAt_ne m2 h1 h2
    have hprims : primIndices (pre ++ [⟨nm, true⟩]) =
        primIndices pre ++ [pre.length + 1] := by
      rw [primIndices_append]
      rfl
    have hhdrsapp : m2.headers = m.headers ++
        [⟨pre.length + 1, HeaderName.other nm, 0, pre.length + 1, true⟩] := by
      rw [hm2def, DL.addColumn_headers, hkh, hkc]
    refine ⟨?_, ?_, ?_, ?_, ?_, ?_, ?_, ?_, ?_, ?_, ?_, ?_, ?_, ?_⟩
    · rw [hm3def, DL.linkRight_headers]
      simpa using hm2hdrs
    · rw [hm3def, DL.linkRight_cells_length]
      simpa using hm2cells
    · rw [hm3def, DL.linkRight_rows, hm2def, DL.addColumn_rows]; exact h.rows0
    · rw [hm3def, DL.linkRight_columns, hm2def, DL.addColumn_columns]
      exact h.colCount
    · rw [hm3def, DL.linkRight_headerKey, hm2def, DL.addColumn_headerKey]
      exact h.hkey
    · intro i hi
      rw [hm3def, DL.linkRight_headerAt]
      rcases Nat.lt_or_ge i (pre.length + 1) with hik | hik
      · have hile : i ≤ pre.length := by omega
        rw [hm2def] at *
        rw [hhdrold i hile, h.hdr i hile,
          colName_append pre _ hile, colPrimary_append pre _ hile]
      · have hie : i = pre.length + 1 := by
          simp only [List.length_append, List.length_cons, List.length_nil] at hi
          omega
        subst hie
        rw [hm2def] at *
        rw [hhdrnew, colName_append_new, colPrimary_append_new]
    · intro i hi
      simp only [List.length_append, List.length_cons, List.length_nil] at hi
      by_cases hik : i = pre.length + 1
      · subst hik
        rw [hc3k, hcellnew]
        exact ⟨rfl, rfl, rfl⟩
      · by_cases hiprev : i = prev
        · subst hiprev
          rw [hc3prev, hcellold i hprevle]
          have := h.cellIdx i hprevle
          exact ⟨this.1, this.2.1, this.2.2⟩
        · have hile : i ≤ pre.length := by omega
          rw [hc3other i hiprev hik, hcellold i hile]
          exact h.cellIdx i hile
    · intro i hi
      simp only [List.length_append, List.length_cons, List.length_nil] at hi
      by_cases hik : i = pre.length + 1
      · subst hik
        rw [hc3k, hcellnew]
        exact ⟨rfl, rfl⟩
      · by_cases hiprev : i = prev
        · subst hiprev
          rw [hc3prev, hcellold i hprevle]
          exact h.cellVert i hprevle
        · have hile : i ≤ pre.length := by omega
          rw [hc3other i hiprev hik, hcellold i hile]
          exact h.cellVert i hile
    · rw [hprims]
      refine linkChain_append (primIndices pre) 0 h.chain ?_ primIndices_nodup
        ?_ ?_ ?_ ?_
      · intro hx
        have := (hprimsub 0 hx).2
        omega
      · rw [← h.prevEq, hc3prev]
      · rw [hc3k, ← h.prevEq]
      · intro x hx hxne
        rw [← h.prevEq] at hxne
        have hxle : x ≤ pre.length := by
          rcases List.mem_cons.mp hx with rfl | hmem
          · exact Nat.zero_le _
          · exact (hprimsub x hmem).1
        rw [hc3other x hxne (by omega), hcellold x hxle]
      · intro x hx
        have hxle : x ≤ pre.length := (hprimsub x hx).1
        by_cases hxprev : x = prev
        · subst hxprev
          rw [hc3prev, hcellold x hxle]
        · rw [hc3other x hxprev (by omega), hcellold x hxle]
    · rw [hprims, lastOf_append_singleton]
    · rw [hc3k, hcellnew]
    · by_cases h0prev : (0 : Nat) = prev
      · rw [← h0prev] at hc3prev
        rw [hc3prev, hcellold 0 (Nat.zero_le _)]
        exact h.zeroL
      · rw [hc3other 0 (fun hc => h0prev hc) (by omega),
          hcellold 0 (Nat.zero_le _)]
        exact h.zeroL
    · intro i hi hmem
      simp only [List.length_append, List.length_cons, List.length_nil] at hi
      rw [hprims] at hmem
      have hik : i ≠ pre.length + 1 := fun hc => hmem (by
        rw [hc]
        exact List.mem_cons_of_mem 0
          (List.mem_append_right _ (List.mem_singleton_self _)))
      have hmem2 : i ∉ 0 :: primIndices pre := fun hc => by
        rcases List.mem_cons.mp hc with rfl | hc2
        · exact hmem (List.mem_cons_self 0 _)
        · exact hmem (List.mem_cons_of_mem 0 (List.mem_append_left _ hc2))
      have hiprev : i ≠ prev := fun hc => hmem2 (hc ▸ hprevmem)
      have hile : i ≤ pre.length := by omega
      rw [hc3other i hiprev hik, hcellold i hile]
      exact h.secSelf i hile hmem2
    · rw [hprims]
      have hq3 : buildQueue m3 = buildQueue m2 := rfl
      rw [hq3]
      show ((m2.headers.filter _).map _) = _
      rw [hhdrsapp, List.filter_append, List.map_append]
      have hq : buildQueue m = primIndices pre := h.hdrQueue
      unfold buildQueue at hq
      rw [hq]
      simp
  | false =>
    set m2 := (m.addColumn (HeaderName.other nm) false).1 with hm2def
    have hstep : endStep (m, prev) ⟨nm, false⟩ = (m2, prev) := by
      simp [endStep, ← hm2def]
    rw [hstep]
    have hprims : primIndices (pre ++ [⟨nm, false⟩]) = primIndices pre := by
      rw [primIndices_append]
      simp
    have hhdrsapp : m2.headers = m.headers ++
        [⟨pre.length + 1, HeaderName.other nm, 0, pre.length + 1, false⟩] := by
      rw [hm2def, DL.addColumn_headers, hkh, hkc]
    refine ⟨?_, ?_, ?_, ?_, ?_, ?_, ?_, ?_, ?_, ?_, ?_, ?_, ?_, ?_⟩
    · simpa using hm2hdrs
    · simpa using hm2cells
    · rw [hm2def, DL.addColumn_rows]; exact h.rows0
    · rw [hm2def, DL.addColumn_columns]; exact h.colCount
    · rw [hm2def, DL.addColumn_headerKey]; exact h.hkey
    · intro i hi
      rcases Nat.lt_or_ge i (pre.length + 1) with hik | hik
      · have hile : i ≤ pre.length := by omega
        rw [hm2def] at *
        rw [hhdrold i hile, h.hdr i hile,
          colName_append pre _ hile, colPrimary_append pre _ hile]
      · have hie : i = pre.length + 1 := by
          simp only [List.length_append, List.length_cons, List.length_nil] at hi
          omega
        subst hie
        rw [hm2def] at *
        rw [hhdrnew, colName_append_new, colPrimary_append_new]
    · intro i hi
      simp only [List.length_append, List.length_cons, List.length_nil] at hi
      by_cases hik : i = pre.length + 1
      · subst hik
        rw [hcellnew]
        exact ⟨rfl, rfl, rfl⟩
      · have hile : i ≤ pre.length := by omega
        rw [hcellold i hile]
        exact h.cellIdx i hile
    · intro i hi
      simp only [List.length_append, List.length_cons, List.length_nil] at hi
      by_cases hik : i = pre.length + 1
      · subst hik
        rw [hcellnew]
        exact ⟨rfl, rfl⟩
      · have hile : i ≤ pre.length := by omega
        rw [hcellold i hile]
        exact h.cellVert i hile
    · rw [hprims]
      refine linkChain_congr (primIndices pre) 0 h.chain ?_
      intro x hx
      have hxle : x ≤ pre.length := by
        rcases List.mem_cons.mp hx with rfl | hmem
        · exact Nat.zero_le _
        · exact (hprimsub x hmem).1
      exact hcellold x hxle
    · rw [hprims]; exact h.prevEq
    · rw [hcellold prev hprevle]; exact h.prevR
    · rw [hcellold 0 (Nat.zero_le _)]; exact h.zeroL
    · intro i hi hmem
      simp only [List.length_append, List.length_cons, List.length_nil] at hi
      rw [hprims] at hmem
      by_cases hik : i = pre.length + 1
      · subst hik
        rw [hcellnew]
        exact ⟨rfl, rfl⟩
      · have hile : i ≤ pre.length := by omega
        rw [hcellold i hile]
        exact h.secSelf i hile hmem
    · rw [hprims]
      show ((m2.headers.filter _).map _) = _
      rw [hhdrsapp, List.filter_append, List.map_append]
      have hq : buildQueue m = primIndices pre := h.hdrQueue
      unfold buildQueue at hq
      rw [hq]
      simp

theorem mid_foldl {n : Nat} :
    ∀ (rest pre : List ColumnSpec) {m : DL} {prev : Nat}, Mid n pre m prev →
      Mid n (pre ++ rest) (rest.foldl endStep (m, prev)).1
        (rest.foldl endStep (m, prev)).2 := by
  intro rest
  induction rest with
  | nil =>
    intro pre m prev h
    simpa using h
  | cons s rest2 ih =>
    intro pre m prev h
    have h2 := mid_step h s
    have h3 := ih (pre ++ [s]) h2
    rw [List.append_assoc] at h3
    simpa using h3

theorem endColumnsCore_colPhase (specs : List ColumnSpec) :
    ColPhase specs (endColumnsCore specs) := by
  have hmid0 := mid_foldl (n := specs.length) specs [] (mid_base specs.length)
  simp only [List.nil_append] at hmid0
  set P := specs.foldl endStep
    (((DL.mk 0 0 specs.length [] []).addColumn HeaderName.first true).1, 0)
    with hPdef
  have hmid : Mid specs.length specs P.1 P.2 := hmid0
  have hcore : endColumnsCore specs = P.1.linkRight P.2 0 := rfl
  have hkc : P.1.cells.length = specs.length + 1 := hmid.cellLen
  have hprevmem : P.2 ∈ 0 :: primIndices specs := by
    rw [hmid.prevEq]
    cases hp : primIndices specs with
    | nil => simp [lastOf]
    | cons b rest =>
      exact List.mem_cons_of_mem 0 (hp ▸ lastOf_mem (b :: rest) 0 (by simp))
  have hprevle : P.2 ≤ specs.length := by
    rcases List.mem_cons.mp hprevmem with hmem | hmem
    · omega
    · exact (primIndices_pos _ hmem).2
  have hprevlt : P.2 < P.1.cells.length := by omega
  have h0lt : 0 < P.1.cells.length := by omega
  have hprims0 : (0 : Nat) ∉ primIndices specs := fun hx => by
    have := (primIndices_pos 0 hx).1
    omega
  set m4 := P.1.linkRight P.2 0 with hm4def
  have hlastv : lastOf 0 (primIndices specs) = P.2 := hmid.prevEq.symm
  -- cell access in the closed state
  have hr_right : (m4.cellAt P.2).right = 0 := by
    by_cases hz : P.2 = 0
    · rw [hz, hm4def, hz, DL.linkRight_cellAt_self P.1 h0lt]
    · rw [hm4def, DL.linkRight_cellAt_fst P.1 hz hprevlt]
  have hl_left : (m4.cellAt 0).left = P.2 := by
    by_cases hz : P.2 = 0
    · rw [hm4def, hz, DL.linkRight_cellAt_self P.1 h0lt]
    · rw [hm4def, DL.linkRight_cellAt_snd P.1 hz h0lt]
  have hother : ∀ j, j ≠ P.2 → j ≠ 0 → m4.cellAt j = P.1.cellAt j := by
    intro j h1 h2
    rw [hm4def]
    exact DL.linkRight_cellAt_ne P.1 h1 h2
  have hright_pres : ∀ j, j ≠ P.2 → (m4.cellAt j).right = (P.1.cellAt j).right := by
    intro j h1
    by_cases hz : j = 0
    · rw [hm4def, hz, DL.linkRight_cellAt_snd P.1
        (show P.2 ≠ (0 : Nat) from fun hc => h1 (hz.trans hc.symm)) h0lt]
    · rw [hother j h1 hz]
  have hleft_pres : ∀ j, j ≠ 0 → (m4.cellAt j).left = (P.1.cellAt j).left := by
    intro j h1
    by_cases hz : j = P.2
    · rw [hm4def, hz,
        DL.linkRight_cellAt_fst P.1 (fun hc => h1 (hz.trans hc)) hprevlt]
    · rw [hother j hz h1]
  have hvert_pres : ∀ j, (m4.cellAt j).up = (P.1.cellAt j).up ∧
      (m4.cellAt j).down = (P.1.cellAt j).down ∧
      (m4.cellAt j).index = (P.1.cellAt j).index ∧
      (m4.cellAt j).header = (P.1.cellAt j).header ∧
      (m4.cellAt j).row = (P.1.cellAt j).row := by
    intro j
    by_cases hz2 : j = 0
    · by_cases hz : P.2 = 0
      · rw [hm4def, hz2, hz, DL.linkRight_cellAt_self P.1 h0lt]
        exact ⟨rfl, rfl, rfl, rfl, rfl⟩
      · rw [hm4def, hz2, DL.linkRight_cellAt_snd P.1 hz h0lt]
        exact ⟨rfl, rfl, rfl, rfl, rfl⟩
    · by_cases hz : j = P.2
      · rw [hm4def, hz,
          DL.linkRight_cellAt_fst P.1 (fun hc => hz2 (hz.trans hc)) hprevlt]
        exact ⟨rfl, rfl, rfl, rfl, rfl⟩
      · rw [hother j hz hz2]
        exact ⟨rfl, rfl, rfl, rfl, rfl⟩
  rw [hcore]
  refine ⟨?_, ?_, ?_, ?_, ?_, ?_, ?_, ?_, ?_, ?_, ?_, ?_⟩
  · rw [hm4def, DL.linkRight_headers]; exact hmid.hdrLen
  · rw [hm4def, DL.linkRight_cells_length]; exact hmid.cellLen
  · rw [hm4def, DL.linkRight_rows]; exact hmid.rows0
  · rw [hm4def, DL.linkRight_columns]; exact hmid.colCount
  · rw [hm4def, DL.linkRight_headerKey]; exact hmid.hkey
  · intro i hi
    rw [hm4def, DL.linkRight_headerAt]
    exact hmid.hdr i hi
  · intro i hi
    obtain ⟨_, _, h3, h4, h5⟩ := hvert_pres i
    rw [h3, h4, h5]
    exact hmid.cellIdx i hi
  · intro i hi
    obtain ⟨h1, h2, _, _, _⟩ := hvert_pres i
    rw [h1, h2]
    exact hmid.cellVert i hi
  · -- the closed top ring, rightward
    refine linkChain_to_pathF (primIndices specs) 0 hmid.chain hprims0
      primIndices_nodup ?_ ?_
    · intro x hx hxne
      rw [hlastv] at hxne
      exact hright_pres x hxne
    · rw [hlastv]
      exact hr_right
  · -- the closed top ring, leftward, via inversion
    have hringR : PathF (rightF m4) 0 (primIndices specs) 0 := by
      refine linkChain_to_pathF (primIndices specs) 0 hmid.chain hprims0
        primIndices_nodup ?_ ?_
      · intro x hx hxne
        rw [hlastv] at hxne
        exact hright_pres x hxne
      · rw [hlastv]
        exact hr_right
    refine pathF_reverse hringR ?_
    intro x hx
    have hxmem : x ∈ 0 :: primIndices specs := by
      rcases hx with rfl | hx
      · exact List.mem_cons_self 0 _
      · exact List.mem_cons_of_mem 0 hx
    by_cases hxprev : x = P.2
    · show (m4.cellAt ((m4.cellAt x).right)).left = x
      rw [hxprev, hr_right, hl_left]
    · show (m4.cellAt ((m4.cellAt x).right)).left = x
      rw [hright_pres x hxprev]
      have hnxt : (P.1.cellAt x).right ∈ primIndices specs :=
        linkChain_succ_mem (primIndices specs) 0 hmid.chain x hxmem
          (by rw [hlastv]; exact hxprev)
      have hnxt0 : (P.1.cellAt x).right ≠ 0 := fun hc => by
        rw [hc] at hnxt
        exact hprims0 hnxt
      rw [hleft_pres _ hnxt0]
      exact linkChain_inv (primIndices specs) 0 hmid.chain x hxmem
        (by rw [hlastv]; exact hxprev)
  · intro i hi hmem
    have hi0 : i ≠ 0 := fun hc => hmem (by
      rw [hc]
      exact List.mem_cons_self 0 _)
    have hiprev : i ≠ P.2 := fun hc => hmem (by
      rw [hc]
      exact hprevmem)
    rw [hother i hiprev hi0]
    exact hmid.secSelf i hi hmem
  · have hq4 : buildQueue m4 = buildQueue P.1 := rfl
    rw [hq4]
    exact hmid.hdrQueue

/-! ### Row-phase preservation

`_add_sorted_row` touches old cells only through `link_vertical` (their
`up`/`down` fields) and old columns only through the size increment; the
horizontal structure and identity of all pre-existing cells, and every
non-size column attribute, survive the whole row phase. -/

/-- The row-phase-invariant projection of a cell. -/
def cellHor (c : MCell) : Nat × Nat × Nat × Nat × CellRow :=
  (c.left, c.right, c.header, c.index, c.row)

/-- The row-phase-invariant projection of a column record. -/
def colProj (c : MColumn) : Nat × HeaderName × Nat × Bool :=
  (c.index, c.name, c.cell, c.primary)

theorem DL.setCell_oob (m : DL) {k : Nat} (h : m.cells.length ≤ k)
    (c : MCell) : m.setCell k c = m := by
  simp only [DL.setCell, List.set_eq_of_length_le h]

theorem DL.setHeader_oob (m : DL) {k : Nat} (h : m.headers.length ≤ k)
    (c : MColumn) : m.setHeader k c = m := by
  simp only [DL.setHeader, List.set_eq_of_length_le h]

theorem cellHor_setCell (m : DL) (k : Nat) (c : MCell)
    (hc : cellHor c = cellHor (m.cellAt k)) (j : Nat) :
    cellHor ((m.setCell k c).cellAt j) = cellHor (m.cellAt j) := by
  by_cases hj : j = k
  · subst hj
    by_cases hk : j < m.cells.length
    · rw [DL.cellAt_setCell_self m j c hk, hc]
    · rw [DL.setCell_oob m (Nat.le_of_not_lt hk) c]
  · rw [DL.cellAt_setCell_ne m c hj]

theorem colProj_setHeader (m : DL) (k : Nat) (c : MColumn)
    (hc : colProj c = colProj (m.headerAt k)) (j : Nat) :
    colProj ((m.setHeader k c).headerAt j) = colProj (m.headerAt j) := by
  by_cases hj : j = k
  · subst hj
    by_cases hk : j < m.headers.length
    · rw [DL.headerAt_setHeader_self m j c hk, hc]
    · rw [DL.setHeader_oob m (Nat.le_of_not_lt hk) c]
  · rw [DL.headerAt_setHeader_ne m c hj]

theorem cellHor_linkDown (m : DL) (a b j : Nat) :
    cellHor ((m.linkDown a b).cellAt j) = cellHor (m.cellAt j) := by
  unfold DL.linkDown
  have h1 := cellHor_setCell m a { m.cellAt a with down := b } (by rfl) j
  set m1 := m.setCell a { m.cellAt a with down := b } with hm1
  have h2 := cellHor_setCell m1 b { m1.cellAt b with up := a } (by rfl) j
  rw [h2, h1]

theorem cellHor_linkRight_far (m : DL) {a b : Nat} (j : Nat)
    (hja : j ≠ a) (hjb : j ≠ b) :
    ((m.linkRight a b).cellAt j) = m.cellAt j :=
  DL.linkRight_cellAt_ne m hja hjb

/-- What one `addSortedRowLoop` run preserves: everything about cells below
`bound` except their `up`/`down`, and everything about columns except
`size`. -/
theorem addSortedRowLoop_preserves {t bound : Nat} :
    ∀ (row : List Nat) (m : DL) (prev start : Option Nat)
      (res : DL × Nat × Nat),
      addSortedRowLoop t row m prev start = some res →
      bound ≤ m.cells.length →
      (∀ p, prev = some p → bound ≤ p) →
      (∀ s, start = some s → bound ≤ s) →
      res.1.rows = m.rows ∧ res.1.columns = m.columns ∧
        res.1.headerKey = m.headerKey ∧
        res.1.headers.length = m.headers.length ∧
        res.1.cells.length = m.cells.length + row.length ∧
        (∀ i, colProj (res.1.headerAt i) = colProj (m.headerAt i)) ∧
        (∀ k, k < bound → cellHor (res.1.cellAt k) = cellHor (m.cellAt k)) ∧
        bound ≤ res.2.1 ∧ bound ≤ res.2.2 := by
  intro row
  induction row with
  | nil =>
    intro m prev start res hres hb hprev hstart
    cases prev with
    | none => simp [addSortedRowLoop] at hres
    | some c =>
      cases start with
      | none => simp [addSortedRowLoop] at hres
      | some s =>
        simp only [addSortedRowLoop, Option.some.injEq] at hres
        subst hres
        refine ⟨rfl, rfl, rfl, rfl, by simp, fun i => rfl, fun k _ => rfl,
          hprev c rfl, hstart s rfl⟩
  | cons colIndex rest ih =>
    intro m prev start res hres hb hprev hstart
    simp only [addSortedRowLoop] at hres
    set newCell := m.cells.length with hnc
    set m1 : DL := { m with
      cells := m.cells ++
        [⟨newCell, newCell, newCell, newCell, newCell, colIndex,
          CellRow.data t⟩] } with hm1
    set m2 := (match prev with
      | some p => m1.linkRight p newCell
      | none => m1) with hm2
    set start2 := (match prev with
      | some _ => start
      | none => some newCell) with hstart2
    by_cases hguard : colIndex < m2.headers.length
    · rw [if_pos hguard] at hres
      set m3 := m2.setHeader colIndex
        { m2.headerAt colIndex with
          size := (m2.headerAt colIndex).size + 1 } with hm3
      set last := (m3.cellAt colIndex).up with hlast
      set m4 := m3.linkDown newCell colIndex with hm4
      set m5 := m4.linkDown last newCell with hm5
      have hm1cells : m1.cells.length = m.cells.length + 1 := by
        rw [hm1]; simp
      have hm2cells : m2.cells.length = m.cells.length + 1 := by
        rw [hm2]
        cases prev with
        | none => exact hm1cells
        | some p => rw [DL.linkRight_cells_length]; exact hm1cells
      have hm3cells : m3.cells = m2.cells := rfl
      have hm5cells : m5.cells.length = m.cells.length + 1 := by
        rw [hm5, DL.linkDown_cells_length, hm4, DL.linkDown_cells_length,
          hm3]
        show m2.cells.length = _
        exact hm2cells
      have hm5rows : m5.rows = m.rows := by
        rw [hm5, DL.linkDown_rows, hm4, DL.linkDown_rows, hm3]
        show m2.rows = m.rows
        rw [hm2]
        cases prev with
        | none => rfl
        | some p => rw [DL.linkRight_rows]
      have hm5cols : m5.columns = m.columns := by
        rw [hm5, DL.linkDown_columns, hm4, DL.linkDown_columns, hm3]
        show m2.columns = m.columns
        rw [hm2]
        cases prev with
        | none => rfl
        | some p => rw [DL.linkRight_columns]
      have hm5hk : m5.headerKey = m.headerKey := by
        rw [hm5, DL.linkDown_headerKey, hm4, DL.linkDown_headerKey, hm3]
        show m2.headerKey = m.headerKey
        rw [hm2]
        cases prev with
        | none => rfl
        | some p => rw [DL.linkRight_headerKey]
      have hm5hlen : m5.headers.length = m.headers.length := by
        rw [hm5, DL.linkDown_headers, hm4, DL.linkDown_headers, hm3,
          DL.headers_length_setHeader]
        show m2.headers.length = _
        rw [hm2]
        cases prev with
        | none => rfl
        | some p => rw [DL.linkRight_headers]
      have hm5proj : ∀ i, colProj (m5.headerAt i) = colProj (m.headerAt i) := by
        intro i
        have h54 : m5.headerAt i = m3.headerAt i := by
          rw [hm5, DL.linkDown_headerAt, hm4, DL.linkDown_headerAt]
        rw [h54, hm3]
        have h32 := colProj_setHeader m2 colIndex
          { m2.headerAt colIndex with
            size := (m2.headerAt colIndex).size + 1 } rfl i
        rw [h32]
        rw [hm2]
        cases prev with
        | none => rfl
        | some p =>
          rw [DL.linkRight_headerAt]
          rfl
      have hm5hor : ∀ k, k < bound →
          cellHor (m5.cellAt k) = cellHor (m.cellAt k) := by
        intro k hk
        have h54 : cellHor (m5.cellAt k) = cellHor (m3.cellAt k) := by
          rw [hm5, cellHor_linkDown, hm4, cellHor_linkDown]
        rw [h54, hm3, DL.cellAt_setHeader]
        have h21 : cellHor (m2.cellAt k) = cellHor (m1.cellAt k) := by
          rw [hm2]
          cases prev with
          | none => rfl
          | some p =>
            have hkp : k ≠ p := by
              have := hprev p rfl
              omega
            have hknc : k ≠ newCell := by omega
            rw [cellHor_linkRight_far m1 k hkp hknc]
        rw [h21, hm1]
        show cellHor ((m.cells ++ _).getD k defCell) = _
        rw [getD_append_lt _ _ _ _ (by omega)]
        rfl
      have hihres := ih m5 (some newCell) start2 res hres
        (by omega)
        (fun p hp => by
          cases hp
          omega)
        (fun s hs => by
          rw [hstart2] at hs
          cases prev with
          | none =>
            simp at hs
            omega
          | some p => exact hstart s hs)
      obtain ⟨hr1, hr2, hr3, hr4, hr5, hr6, hr7, hr8, hr9⟩ := hihres
      refine ⟨?_, ?_, ?_, ?_, ?_, ?_, ?_, hr8, hr9⟩
      · rw [hr1, hm5rows]
      · rw [hr2, hm5cols]
      · rw [hr3, hm5hk]
      · rw [hr4, hm5hlen]
      · rw [hr5, hm5cells]
        simp [Nat.add_assoc, Nat.add_comm 1 rest.length]
      · intro i
        rw [hr6 i, hm5proj i]
      · intro k hk
        rw [hr7 k hk, hm5hor k hk]
    · rw [if_neg hguard] at hres
      exact absurd hres (by simp)

theorem addSortedRowIds_preserves {m mf : DL} {row : List Nat}
    (h : addSortedRowIds m row = some mf) (bound : Nat)
    (hb : bound ≤ m.cells.length) :
    mf.rows = m.rows + 1 ∧ mf.columns = m.columns ∧
      mf.headerKey = m.headerKey ∧
      mf.headers.length = m.headers.length ∧
      mf.cells.length = m.cells.length + row.length ∧
      (∀ i, colProj (mf.headerAt i) = colProj (m.headerAt i)) ∧
      (∀ k, k < bound → cellHor (mf.cellAt k) = cellHor (m.cellAt k)) := by
  unfold addSortedRowIds at h
  cases hres : addSortedRowLoop (m.rows + 1) row m none none with
  | none => rw [hres] at h; simp at h
  | some res =>
    rw [hres] at h
    simp only [Option.map_some', Option.some.injEq] at h
    obtain ⟨h1, h2, h3, h4, h5, h6, h7, h8, h9⟩ :=
      addSortedRowLoop_preserves row m none none res hres hb
        (by intro p hp; cases hp) (by intro s hs; cases hs)
    subst h
    set mL := res.1.linkRight res.2.1 res.2.2 with hmL
    refine ⟨?_, ?_, ?_, ?_, ?_, ?_, ?_⟩
    · show mL.rows + 1 = m.rows + 1
      rw [hmL, DL.linkRight_rows, h1]
    · show mL.columns = m.columns
      rw [hmL, DL.linkRight_columns, h2]
    · show mL.headerKey = m.headerKey
      rw [hmL, DL.linkRight_headerKey, h3]
    · show mL.headers.length = m.headers.length
      rw [hmL, DL.linkRight_headers, h4]
    · show mL.cells.length = m.cells.length + row.length
      rw [hmL, DL.linkRight_cells_length, h5]
    · intro i
      show colProj (mL.headerAt i) = colProj (m.headerAt i)
      rw [hmL, DL.linkRight_headerAt]
      exact h6 i
    · intro k hk
      show cellHor (mL.cellAt k) = cellHor (m.cellAt k)
      have hk1 : k ≠ res.2.1 := by omega
      have hk2 : k ≠ res.2.2 := by omega
      rw [hmL, cellHor_linkRight_far res.1 k hk1 hk2]
      exact h7 k hk

theorem rows_foldlM_preserves (bound : Nat) :
    ∀ (rws : List (List Nat)) (m0 mf : DL),
      List.foldlM addSortedRowIds m0 rws = some mf →
      bound ≤ m0.cells.length →
      mf.rows = m0.rows + rws.length ∧ mf.columns = m0.columns ∧
        mf.headerKey = m0.headerKey ∧
        mf.headers.length = m0.headers.length ∧
        mf.cells.length = m0.cells.length + (rws.map List.length).sum ∧
        (∀ i, colProj (mf.headerAt i) = colProj (m0.headerAt i)) ∧
        (∀ k, k < bound → cellHor (mf.cellAt k) = cellHor (m0.cellAt k)) := by
  intro rws
  induction rws with
  | nil =>
    intro m0 mf h hb
    have h2 : m0 = mf := by
      simpa [List.foldlM] using h
    subst h2
    exact ⟨by simp, rfl, rfl, rfl, by simp, fun i => rfl, fun k _ => rfl⟩
  | cons r rest ih =>
    intro m0 mf h hb
    rw [List.foldlM_cons] at h
    cases hstep : addSortedRowIds m0 r with
    | none => rw [hstep] at h; simp at h
    | some m1 =>
      rw [hstep] at h
      simp only [Option.bind_eq_bind, Option.some_bind] at h
      obtain ⟨g1, g2, g3, g4, g5, g6, g7⟩ :=
        addSortedRowIds_preserves hstep bound hb
      obtain ⟨f1, f2, f3, f4, f5, f6, f7⟩ :=
        ih m1 mf h (by omega)
      refine ⟨?_, ?_, ?_, ?_, ?_, ?_, ?_⟩
      · rw [f1, g1]
        simp [Nat.add_assoc, Nat.add_comm 1 rest.length]
      · rw [f2, g2]
      · rw [f3, g3]
      · rw [f4, g4]
      · rw [f5, g5]
        simp [Nat.add_assoc]
      · intro i
        rw [f6 i, g6 i]
      · intro k hk
        rw [f7 k hk, g7 k hk]

/-- The structural facts about a `buildAll` result: counts, column records
(up to size), and the horizontal projection of every header cell agree with
the column-phase state. -/
theorem buildAll_preserves {specs : List ColumnSpec} {rws : List (List Nat)}
    {m : DL} (h : buildAll specs rws = some m) :
    m.columns = specs.length ∧ m.headerKey = 0 ∧ m.rows = rws.length ∧
      m.headers.length = specs.length + 1 ∧
      m.cells.length = specs.length + 1 + (rws.map List.length).sum ∧
      (∀ i, colProj (m.headerAt i) =
        colProj ((endColumnsCore specs).headerAt i)) ∧
      (∀ k, k ≤ specs.length →
        cellHor (m.cellAt k) = cellHor ((endColumnsCore specs).cellAt k)) := by
  unfold buildAll endColumns at h
  by_cases hspec : specs.isEmpty
  · rw [if_pos hspec] at h
    simp at h
  · rw [if_neg hspec] at h
    simp only [Option.some_bind] at h
    have hph := endColumnsCore_colPhase specs
    obtain ⟨f1, f2, f3, f4, f5, f6, f7⟩ :=
      rows_foldlM_preserves (specs.length + 1) rws (endColumnsCore specs) m h
        (by rw [hph.cellLen])
    refine ⟨?_, ?_, ?_, ?_, ?_, f6, ?_⟩
    · rw [f2, hph.colCount]
    · rw [f3, hph.hkey]
    · rw [f1, hph.rows0]
      simp
    · rw [f4, hph.hdrLen]
    · rw [f5, hph.cellLen]
    · intro k hk
      exact f7 k (by omega)

/-! ### Ring traversal through the header iterator -/

theorem pathF_congr {f g : Nat → Nat} {a b : Nat} {l : List Nat}
    (h : PathF f a l b) (hfg : ∀ x, x = a ∨ x ∈ l → g x = f x) :
    PathF g a l b := by
  induction l generalizing a with
  | nil =>
    show g a = b
    rw [hfg a (Or.inl rfl)]
    exact h
  | cons x xs ih =>
    obtain ⟨h1, h2⟩ := h
    refine ⟨?_, ?_⟩
    · rw [hfg a (Or.inl rfl)]
      exact h1
    · exact ih h2 fun y hy => hfg y (by
        rcases hy with hy | hy
        · exact Or.inr (by rw [hy]; exact List.mem_cons_self x xs)
        · exact Or.inr (List.mem_cons_of_mem x hy))

theorem pathF_values {f : Nat → Nat} {a b : Nat} {l : List Nat}
    (h : PathF f a l b) :
    ∀ x, x = a ∨ x ∈ l → f x ∈ l ∨ f x = b := by
  induction l generalizing a with
  | nil =>
    intro x hx
    rcases hx with rfl | hx
    · exact Or.inr h
    · simp at hx
  | cons y ys ih =>
    intro x hx
    obtain ⟨h1, h2⟩ := h
    rcases hx with rfl | hx
    · rw [h1]
      exact Or.inl (List.mem_cons_self y ys)
    · rcases List.mem_cons.mp hx with hxy | hx2
      · rcases ih h2 x (Or.inl hxy) with hm | hm
        · exact Or.inl (List.mem_cons_of_mem y hm)
        · exact Or.inr hm
      · rcases ih h2 x (Or.inr hx2) with hm | hm
        · exact Or.inl (List.mem_cons_of_mem y hm)
        · exact Or.inr hm

theorem primIndicesFrom_length_le {i : Nat} {specs : List ColumnSpec} :
    (primIndicesFrom i specs).length ≤ specs.length := by
  induction specs generalizing i with
  | nil => simp [primIndicesFrom]
  | cons s rest ih =>
    by_cases hp : s.primary <;>
      simp only [primIndicesFrom, hp, if_true, if_false, List.length_cons] <;>
      [exact Nat.succ_le_succ ih; exact Nat.le_succ_of_le ih]

theorem primIndices_eq_nil_iff {specs : List ColumnSpec} :
    primIndices specs = [] ↔ ∀ s ∈ specs, s.primary = false := by
  unfold primIndices
  generalize (1 : Nat) = i
  induction specs generalizing i with
  | nil => simp [primIndicesFrom]
  | cons s rest ih =>
    by_cases hp : s.primary
    · simp [primIndicesFrom, hp]
    · have hred : primIndicesFrom i (s :: rest) = primIndicesFrom (i + 1) rest := by
        simp [primIndicesFrom, hp]
      rw [hred, ih]
      constructor
      · intro h t ht
        rcases List.mem_cons.mp ht with rfl | ht2
        · exact Bool.eq_false_iff.mpr hp
        · exact h t ht2
      · intro h t ht
        exact h t (List.mem_cons_of_mem s ht)

/-- The header iterator, rightward from the sentinel, visits exactly the
ring list whenever the header cells of the ring own themselves and the
right-links trace the ring. -/
theorem iterateHeaders_ring {m : DL} {prims : List Nat}
    (hkey : m.headerKey = 0)
    (hpath : PathF (rightF m) 0 prims 0)
    (hhdrcell : ∀ x, x = 0 ∨ x ∈ prims → (m.headerAt x).cell = x)
    (hcellhdr : ∀ x, x = 0 ∨ x ∈ prims → (m.cellAt x).header = x)
    (h0 : 0 ∉ prims)
    (hfuel : prims.length < m.headers.length) :
    m.iterateHeaders m.headerKey (·.right) false = prims := by
  have hstep : PathF (headerStep m (·.right)) 0 prims 0 := by
    refine pathF_congr hpath ?_
    intro x hx
    show (m.cellAt ((m.cellAt (m.headerAt x).cell).right)).header = rightF m x
    rw [hhdrcell x hx]
    show (m.cellAt ((m.cellAt x).right)).header = (m.cellAt x).right
    have hy := pathF_values hpath x hx
    rcases hy with hy | hy
    · exact hcellhdr _ (Or.inr hy)
    · have hy2 : (m.cellAt x).right = 0 := hy
      rw [hy2]
      exact hcellhdr 0 (Or.inl rfl)
  unfold DL.iterateHeaders
  rw [hkey]
  simp only [Bool.false_eq_true, if_neg (by simp : ¬False), List.nil_append]
  exact walkFrom_spec prims m.headers.length 0 hstep h0 hfuel

/-- The cell iterator along a PathF ring. -/
theorem iterateCells_ring {m : DL} {start : Nat} {l : List Nat}
    (getter : MCell → Nat)
    (hpath : PathF (cellStep m getter) start l start)
    (hs : start ∉ l)
    (hfuel : l.length < m.cells.length) :
    m.iterateCells start getter false = l := by
  unfold DL.iterateCells
  simp only [Bool.false_eq_true, if_neg (by simp : ¬False), List.nil_append]
  exact walkFrom_spec l m.cells.length start hpath hs hfuel

/-! ### The top ring of a built matrix -/

/-- The keys of the headers currently linked into the top ring, rightward
from the sentinel (the sentinel excluded). -/
def topRing (m : DL) : List Nat :=
  m.iterateHeaders m.headerKey (·.right) false

theorem cellHor_parts {c1 c2 : MCell} (h : cellHor c1 = cellHor c2) :
    c1.left = c2.left ∧ c1.right = c2.right ∧ c1.header = c2.header ∧
      c1.index = c2.index ∧ c1.row = c2.row := by
  simpa [cellHor, Prod.ext_iff] using h

theorem colProj_parts {c1 c2 : MColumn} (h : colProj c1 = colProj c2) :
    c1.index = c2.index ∧ c1.name = c2.name ∧ c1.cell = c2.cell ∧
      c1.primary = c2.primary := by
  simpa [colProj, Prod.ext_iff] using h

theorem buildQueue_congr {m1 m2 : DL}
    (hlen : m1.headers.length = m2.headers.length)
    (hproj : ∀ i, colProj (m1.headerAt i) = colProj (m2.headerAt i)) :
    buildQueue m1 = buildQueue m2 := by
  have haux : ∀ (l1 l2 : List MColumn), l1.map colProj = l2.map colProj →
      ((l1.filter fun c =>
        (match c.name with
          | HeaderName.other _ => true
          | HeaderName.first => false) && c.primary).map (·.index)) =
      ((l2.filter fun c =>
        (match c.name with
          | HeaderName.other _ => true
          | HeaderName.first => false) && c.primary).map (·.index)) := by
    intro l1
    induction l1 with
    | nil =>
      intro l2 h
      have : l2 = [] := by
        cases l2 with
        | nil => rfl
        | cons c t => simp at h
      subst this
      rfl
    | cons c t ih =>
      intro l2 h
      cases l2 with
      | nil => simp at h
      | cons c2 t2 =>
        simp only [List.map_cons, List.cons.injEq] at h
        obtain ⟨hc, ht⟩ := h
        obtain ⟨hidx, hname, _, hprim⟩ := colProj_parts hc
        simp only [List.filter_cons, hname, hprim]
        by_cases hcond : ((match c2.name with
          | HeaderName.other _ => true
          | HeaderName.first => false) && c2.primary) = true
        · rw [if_pos hcond, if_pos hcond]
          simp only [List.map_cons, hidx]
          rw [ih t2 ht]
        · rw [if_neg hcond, if_neg hcond]
          exact ih t2 ht
  have hmaps : m1.headers.map colProj = m2.headers.map colProj := by
    refine List.ext_getElem (by simpa using hlen) ?_
    intro i h1 h2
    simp only [List.getElem_map]
    have := hproj i
    rw [DL.headerAt, DL.headerAt, List.getD_eq_getElem?_getD,
      List.getD_eq_getElem?_getD] at this
    simp only [List.length_map] at h1 h2
    rw [List.getElem?_eq_getElem h1, List.getElem?_eq_getElem h2] at this
    simpa using this
  exact haux m1.headers m2.headers hmaps

/-- Structure of the top ring and the queue of any built matrix: the ring
visits exactly the primary columns in ascending order, and the queue holds
exactly the same columns. -/
theorem built_ring {specs : List ColumnSpec} {rws : List (List Nat)}
    {m : DL} (h : buildAll specs rws = some m) :
    PathF (rightF m) 0 (primIndices specs) 0 ∧
      topRing m = primIndices specs ∧
      buildQueue m = primIndices specs := by
  have hph := endColumnsCore_colPhase specs
  obtain ⟨hb1, hb2, hb3, hb4, hb5, hb6, hb7⟩ := buildAll_preserves h
  have hmem_le : ∀ x, x = 0 ∨ x ∈ primIndices specs → x ≤ specs.length := by
    intro x hx
    rcases hx with rfl | hx
    · omega
    · exact (primIndices_pos x hx).2
  have hright : ∀ x, x = 0 ∨ x ∈ primIndices specs →
      rightF m x = rightF (endColumnsCore specs) x := by
    intro x hx
    exact (cellHor_parts (hb7 x (hmem_le x hx))).2.1
  have hpath : PathF (rightF m) 0 (primIndices specs) 0 :=
    pathF_congr hph.ringR hright
  have hhdrcell : ∀ x, x = 0 ∨ x ∈ primIndices specs →
      (m.headerAt x).cell = x := by
    intro x hx
    have := (colProj_parts (hb6 x)).2.2.1
    rw [this, hph.hdr x (hmem_le x hx)]
  have hcellhdr : ∀ x, x = 0 ∨ x ∈ primIndices specs →
      (m.cellAt x).header = x := by
    intro x hx
    have := (cellHor_parts (hb7 x (hmem_le x hx))).2.2.1
    rw [this]
    exact (hph.cellIdx x (hmem_le x hx)).2.1
  have h0 : (0 : Nat) ∉ primIndices specs := fun hx => by
    have := (primIndices_pos 0 hx).1
    omega
  have hfuel : (primIndices specs).length < m.headers.length := by
    rw [hb4]
    have hle : (primIndices specs).length ≤ specs.length :=
      primIndicesFrom_length_le
    omega
  refine ⟨hpath, ?_, ?_⟩
  · unfold topRing
    exact iterateHeaders_ring hb2 hpath hhdrcell hcellhdr h0 hfuel
  · rw [buildQueue_congr (by rw [hb4, hph.hdrLen]) hb6]
    exact hph.hdrQueue

/-- C3 counterexample state: one primary column, one row covering it. -/
def exDL : DL := (buildAll [⟨1, true⟩] [[1]]).getD (DL.mk 0 0 0 [] [])

/-- C3: the claim fails on the code.  After building the one-column,
one-row matrix and covering column 1, the header of column 1 is no longer
linked into the top ring, yet the priority queue still contains column 1:
`cover` (the cited `matrix.rs` lines) performs no queue removal at all, so
"the queue contains exactly the primary columns currently linked into the
top ring" is false in the very first reachable state after a cover. -/
theorem cover_keeps_queue_counterexample :
    buildAll [⟨1, true⟩] [[1]] = some exDL ∧
      ((build exDL).cover 1).queue = [1] ∧
      topRing ((build exDL).cover 1).matrix = [] := by
  refine ⟨by decide, by decide, by decide⟩

/-- C3 (amended): the priority queue is populated by `build()` with exactly
the primary columns, which at that moment are exactly the primary columns
linked into the top ring; `cover` and `uncover` never modify the queue (the
cited `cover` has no queue-removal step), so the queue stays fixed at the
build-time contents through every cover/uncover. -/
theorem queue_fixed_after_build {specs : List ColumnSpec}
    {rws : List (List Nat)} {m : DL} (h : buildAll specs rws = some m) :
    (build m).queue = primIndices specs ∧
      topRing m = primIndices specs ∧
      (∀ c, ((build m).cover c).queue = (build m).queue) ∧
      (∀ c, ((build m).uncover c).queue = (build m).queue) := by
  obtain ⟨_, hring, hq⟩ := built_ring h
  exact ⟨hq, hring, fun c => rfl, fun c => rfl⟩

/-- Witness for the amended C3 at the counterexample instance. -/
theorem queue_fixed_after_build_witness :
    (build exDL).queue = primIndices [⟨1, true⟩] ∧
      topRing exDL = primIndices [⟨1, true⟩] ∧
      (∀ c, ((build exDL).cover c).queue = (build exDL).queue) ∧
      (∀ c, ((build exDL).uncover c).queue = (build exDL).queue) :=
  @queue_fixed_after_build [⟨1, true⟩] [[1]] exDL (by decide)

/-! ### Solving with no rows (C6) -/

theorem foldl_min_size_zero :
    ∀ (l : List MColumn) (x : MColumn), x.size = 0 → (∀ c ∈ l, c.size = 0) →
      (l.foldl (fun b a => if a.size < b.size then a else b) x).size = 0 := by
  intro l
  induction l with
  | nil => intro x hx _; exact hx
  | cons c t ih =>
    intro x hx hl
    simp only [List.foldl_cons]
    have hc : c.size = 0 := hl c (List.mem_cons_self c t)
    have hcond : ¬ c.size < x.size := by omega
    rw [if_neg hcond]
    exact ih x hx fun d hd => hl d (List.mem_cons_of_mem c hd)

theorem firstMinBy_all_zero {l : List MColumn} (hne : l ≠ [])
    (hl : ∀ c ∈ l, c.size = 0) :
    ∃ col, firstMinBy (·.size) l = some col ∧ col.size = 0 := by
  cases l with
  | nil => exact absurd rfl hne
  | cons x t =>
    refine ⟨_, rfl, ?_⟩
    exact foldl_min_size_zero t x (hl x (List.mem_cons_self x t))
      fun c hc => hl c (List.mem_cons_of_mem x hc)

/-- C6: on a schema with no rows added, `solve` (with the `min_column`
chooser; the feature-gated random chooser picks from the same empty-size
ring) emits zero solutions when at least one column is primary, and exactly
one solution, the empty selection, when every column is secondary. -/
theorem solve_empty_rows {specs : List ColumnSpec} {m : DL}
    (h : buildAll specs [] = some m) (rf : Bool) (fuel : Nat) :
    ((∃ s ∈ specs, s.primary = true) → solve m rf (fuel + 3) = some []) ∧
      ((∀ s ∈ specs, s.primary = false) →
        solve m rf (fuel + 3) = some [Solution.mk []]) := by
  have hm : m = endColumnsCore specs := by
    unfold buildAll endColumns at h
    by_cases hspec : specs.isEmpty
    · rw [if_pos hspec] at h
      simp at h
    · rw [if_neg hspec] at h
      simp only [Option.some_bind, List.foldlM] at h
      exact (Option.some.injEq _ _ ▸ h).symm
  subst hm
  have hph := endColumnsCore_colPhase specs
  have hkey : (endColumnsCore specs).headerKey = 0 := hph.hkey
  have hhc : ((endColumnsCore specs).headerAt 0).cell = 0 := by
    rw [hph.hdr 0 (Nat.zero_le _)]
  have hidx : ((endColumnsCore specs).cellAt 0).index = 0 :=
    (hph.cellIdx 0 (Nat.zero_le _)).1
  constructor
  · intro hex
    have hpne : primIndices specs ≠ [] := by
      intro hc
      obtain ⟨s, hs, hsp⟩ := hex
      have := primIndices_eq_nil_iff.mp hc s hs
      rw [this] at hsp
      cases hsp
    cases hprims : primIndices specs with
    | nil => exact absurd hprims hpne
    | cons p t =>
      have hre : ((endColumnsCore specs).cellAt 0).right = p := by
        have := hph.ringR
        rw [hprims] at this
        exact this.1
      have hp0 : p ≠ 0 := by
        have hmem : p ∈ primIndices specs := by
          rw [hprims]
          exact List.mem_cons_self p t
        have h1p : 1 ≤ p := (primIndices_pos p hmem).1
        omega
      have hmem_le : ∀ x, x = 0 ∨ x ∈ primIndices specs →
          x ≤ specs.length := by
        intro x hx
        rcases hx with rfl | hx
        · omega
        · exact (primIndices_pos x hx).2
      have hringEq : (endColumnsCore specs).iterateHeaders
          (endColumnsCore specs).headerKey (·.right) false =
            primIndices specs := by
        refine iterateHeaders_ring hph.hkey hph.ringR ?_ ?_ ?_ ?_
        · intro x hx
          rw [hph.hdr x (hmem_le x hx)]
        · intro x hx
          exact (hph.cellIdx x (hmem_le x hx)).2.1
        · intro hc
          have := (primIndices_pos 0 hc).1
          omega
        · rw [hph.hdrLen]
          have hle : (primIndices specs).length ≤ specs.length :=
            primIndicesFrom_length_le
          omega
      have hminEq : (endColumnsCore specs).minColumn =
          firstMinBy (·.size)
            ((primIndices specs).map (endColumnsCore specs).headerAt) := by
        unfold DL.minColumn
        rw [hringEq]
      obtain ⟨col, hcol, hsz⟩ := firstMinBy_all_zero
        (l := (primIndices specs).map (endColumnsCore specs).headerAt)
        (by rw [hprims]; simp)
        (by
          intro c hc
          obtain ⟨x, hx, rfl⟩ := List.mem_map.mp hc
          rw [hph.hdr x (hmem_le x (Or.inr hx))])
      have hmin : (endColumnsCore specs).minColumn = some col := by
        rw [hminEq, hcol]
      show solveLoop DL.minColumn rf (fuel + 3) [StackElem.root] []
        (endColumnsCore specs) false = some []
      simp [solveLoop, hkey, hhc, hidx, hre, hp0, hmin, hsz, StackElem.k]
  · intro hall
    have hprims : primIndices specs = [] := primIndices_eq_nil_iff.mpr hall
    have hre : ((endColumnsCore specs).cellAt 0).right = 0 := by
      have := hph.ringR
      rw [hprims] at this
      exact this
    show solveLoop DL.minColumn rf (fuel + 3) [StackElem.root] []
      (endColumnsCore specs) false = some [Solution.mk []]
    have h3 : fuel + 3 = (fuel + 1) + 2 := by omega
    rw [h3]
    simp [solveLoop, hkey, hhc, hidx, hre, StackElem.k, createSol]

/-- Witness for C6: a one-primary-column schema yields no solutions; a
one-secondary-column schema yields exactly the empty solution. -/
theorem solve_empty_rows_witness :
    solve (endColumnsCore [⟨1, true⟩]) true 3 = some [] ∧
      solve (endColumnsCore [⟨1, false⟩]) true 3 =
        some [Solution.mk []] :=
  ⟨(@solve_empty_rows [⟨1, true⟩] (endColumnsCore [⟨1, true⟩])
      (by decide) true 0).1 ⟨⟨1, true⟩, by decide, rfl⟩,
    (@solve_empty_rows [⟨1, false⟩] (endColumnsCore [⟨1, false⟩])
      (by decide) true 0).2 (by decide)⟩

/-! ### Cell-slab layout (row/owner projection) -/

/-- The projection of a cell that `RowIterator` reads: its row and owner. -/
def cellRC (c : MCell) : CellRow × Nat := (c.row, c.header)

theorem map_cellRC_setCell (m : DL) (k : Nat) (c : MCell)
    (hc : cellRC c = cellRC (m.cellAt k)) :
    (m.setCell k c).cells.map cellRC = m.cells.map cellRC := by
  refine List.ext_getElem (by simp [DL.setCell]) ?_
  intro i h1 h2
  simp only [List.getElem_map]
  simp only [List.length_map, DL.setCell] at h1 h2
  simp only [DL.setCell]
  by_cases hik : i = k
  · subst hik
    rw [List.getElem_set_self]
    rw [hc, DL.cellAt, List.getD_eq_getElem?_getD,
      List.getElem?_eq_getElem h2]
    rfl
  · rw [List.getElem_set_ne (fun hh => hik hh.symm)]

theorem map_cellRC_linkRight (m : DL) (a b : Nat) :
    (m.linkRight a b).cells.map cellRC = m.cells.map cellRC := by
  have h1 := map_cellRC_setCell m a { m.cellAt a with right := b } rfl
  set m1 := m.setCell a { m.cellAt a with right := b } with hm1
  have h2 := map_cellRC_setCell m1 b { m1.cellAt b with left := a } rfl
  show (m1.setCell b { m1.cellAt b with left := a }).cells.map cellRC =
    m.cells.map cellRC
  rw [h2, h1]

theorem map_cellRC_linkDown (m : DL) (a b : Nat) :
    (m.linkDown a b).cells.map cellRC = m.cells.map cellRC := by
  have h1 := map_cellRC_setCell m a { m.cellAt a with down := b } rfl
  set m1 := m.setCell a { m.cellAt a with down := b } with hm1
  have h2 := map_cellRC_setCell m1 b { m1.cellAt b with up := a } rfl
  show (m1.setCell b { m1.cellAt b with up := a }).cells.map cellRC =
    m.cells.map cellRC
  rw [h2, h1]

theorem addSortedRowLoop_shape {t : Nat} :
    ∀ (row : List Nat) (m : DL) (prev start : Option Nat)
      (res : DL × Nat × Nat),
      addSortedRowLoop t row m prev start = some res →
      res.1.cells.map cellRC =
        m.cells.map cellRC ++ row.map fun id => (CellRow.data t, id) := by
  intro row
  induction row with
  | nil =>
    intro m prev start res hres
    cases prev with
    | none => simp [addSortedRowLoop] at hres
    | some c =>
      cases start with
      | none => simp [addSortedRowLoop] at hres
      | some s =>
        simp only [addSortedRowLoop, Option.some.injEq] at hres
        subst hres
        simp
  | cons colIndex rest ih =>
    intro m prev start res hres
    simp only [addSortedRowLoop] at hres
    set newCell := m.cells.length with hnc
    set m1 : DL := { m with
      cells := m.cells ++
        [⟨newCell, newCell, newCell, newCell, newCell, colIndex,
          CellRow.data t⟩] } with hm1
    set m2 := (match prev with
      | some p => m1.linkRight p newCell
      | none => m1) with hm2
    set start2 := (match prev with
      | some _ => start
      | none => some newCell) with hstart2
    by_cases hguard : colIndex < m2.headers.length
    · rw [if_pos hguard] at hres
      set m3 := m2.setHeader colIndex
        { m2.headerAt colIndex with
          size := (m2.headerAt colIndex).size + 1 } with hm3
      set last := (m3.cellAt colIndex).up with hlast
      set m4 := m3.linkDown newCell colIndex with hm4
      set m5 := m4.linkDown last newCell with hm5
      have hchain := ih m5 (some newCell) start2 res hres
      rw [hchain]
      have h53 : m5.cells.map cellRC = m3.cells.map cellRC := by
        rw [hm5, map_cellRC_linkDown, hm4, map_cellRC_linkDown]
      have h32 : m3.cells.map cellRC = m2.cells.map cellRC := rfl
      have h21 : m2.cells.map cellRC = m1.cells.map cellRC := by
        rw [hm2]
        cases prev with
        | none => rfl
        | some p => rw [map_cellRC_linkRight]
      rw [h53, h32, h21, hm1]
      simp [cellRC]
    · rw [if_neg hguard] at hres
      exact absurd hres (by simp)

theorem addSortedRowIds_shape {m mf : DL} {row : List Nat}
    (h : addSortedRowIds m row = some mf) :
    mf.cells.map cellRC =
      m.cells.map cellRC ++ row.map fun id => (CellRow.data (m.rows + 1), id) := by
  unfold addSortedRowIds at h
  cases hres : addSortedRowLoop (m.rows + 1) row m none none with
  | none => rw [hres] at h; simp at h
  | some res =>
    rw [hres] at h
    simp only [Option.map_some', Option.some.injEq] at h
    subst h
    show (res.1.linkRight res.2.1 res.2.2).cells.map cellRC = _
    rw [map_cellRC_linkRight]
    exact addSortedRowLoop_shape row m none none res hres

/-- The row/owner projection of the data cells appended for a row list,
numbering rows from `t + 1`. -/
def rowsCellRC : Nat → List (List Nat) → List (CellRow × Nat)
  | _, [] => []
  | t, r :: rest =>
    (r.map fun id => (CellRow.data (t + 1), id)) ++ rowsCellRC (t + 1) rest

theorem rows_foldlM_shape :
    ∀ (rws : List (List Nat)) (m0 mf : DL),
      List.foldlM addSortedRowIds m0 rws = some mf →
      mf.cells.map cellRC = m0.cells.map cellRC ++ rowsCellRC m0.rows rws := by
  intro rws
  induction rws with
  | nil =>
    intro m0 mf h
    have h2 : m0 = mf := by simpa [List.foldlM] using h
    subst h2
    simp [rowsCellRC]
  | cons r rest ih =>
    intro m0 mf h
    rw [List.foldlM_cons] at h
    cases hstep : addSortedRowIds m0 r with
    | none => rw [hstep] at h; simp at h
    | some m1 =>
      rw [hstep] at h
      simp only [Option.bind_eq_bind, Option.some_bind] at h
      have hrows1 : m1.rows = m0.rows + 1 :=
        (addSortedRowIds_preserves hstep 0 (Nat.zero_le _)).1
      have := ih m1 mf h
      rw [this, addSortedRowIds_shape hstep, hrows1]
      simp [rowsCellRC]

theorem buildAll_shape {specs : List ColumnSpec} {rws : List (List Nat)}
    {m : DL} (h : buildAll specs rws = some m) :
    m.cells.map cellRC =
      ((List.range (specs.length + 1)).map fun i => (CellRow.header, i)) ++
        rowsCellRC 0 rws := by
  unfold buildAll endColumns at h
  by_cases hspec : specs.isEmpty
  · rw [if_pos hspec] at h
    simp at h
  · rw [if_neg hspec] at h
    simp only [Option.some_bind] at h
    have hph := endColumnsCore_colPhase specs
    have hcore : (endColumnsCore specs).cells.map cellRC =
        (List.range (specs.length + 1)).map fun i => (CellRow.header, i) := by
      refine List.ext_getElem (by simp [hph.cellLen]) ?_
      intro i h1 h2
      have hib : i < (endColumnsCore specs).cells.length := by
        simpa using h1
      simp only [List.getElem_map, List.getElem_range]
      have hcid := hph.cellIdx i (by
        rw [hph.cellLen] at hib
        omega)
      have hgd : (endColumnsCore specs).cells[i] =
          (endColumnsCore specs).cellAt i := by
        rw [DL.cellAt, List.getD_eq_getElem?_getD,
          List.getElem?_eq_getElem hib]
        rfl
      rw [hgd]
      simp [cellRC, hcid.2.1, hcid.2.2]
    have := rows_foldlM_shape rws (endColumnsCore specs) m h
    rw [this, hcore, hph.rows0]

/-! ### Row-iterator grouping -/

/-- The item name a data cell contributes (its owner's `Other` name). -/
def cname (m : DL) (c : MCell) : Nat :=
  match (m.headerAt c.header).name with
  | HeaderName.other n => n
  | HeaderName.first => 0

/-- `HashSet`-style deduplication of a name list, in first-occurrence order. -/
def dedupNames (l : List Nat) : List Nat := l.foldl insertName []

theorem insertName_toFinset (acc : List Nat) (n : Nat) :
    (insertName acc n).toFinset = insert n acc.toFinset := by
  unfold insertName
  by_cases hmem : n ∈ acc
  · rw [if_pos hmem]
    have : n ∈ acc.toFinset := List.mem_toFinset.mpr hmem
    exact (Finset.insert_eq_self.mpr this).symm
  · rw [if_neg hmem]
    apply Finset.ext
    intro x
    simp [or_comm]

theorem foldl_insertName_toFinset :
    ∀ (l acc : List Nat),
      (l.foldl insertName acc).toFinset = acc.toFinset ∪ l.toFinset := by
  intro l
  induction l with
  | nil => intro acc; simp
  | cons n t ih =>
    intro acc
    rw [List.foldl_cons, ih, insertName_toFinset]
    apply Finset.ext
    intro x
    simp

theorem dedupNames_toFinset (l : List Nat) :
    (dedupNames l).toFinset = l.toFinset := by
  unfold dedupNames
  rw [foldl_insertName_toFinset]
  simp

theorem nextGroup_cons_header {m : DL} {c : MCell} {cs : List MCell}
    {curRow : Option Nat} {acc : List Nat} {found : Bool}
    (hc : c.row = CellRow.header) :
    nextGroup m (c :: cs) curRow acc found =
      nextGroup m cs curRow acc found := by
  simp only [nextGroup, hc]

theorem nextGroup_cons_data_none {m : DL} {c : MCell} {cs : List MCell}
    {t : Nat} {acc : List Nat} {found : Bool}
    (hc : c.row = CellRow.data t)
    (hn : (m.headerAt c.header).name = HeaderName.other (cname m c)) :
    nextGroup m (c :: cs) none acc found =
      nextGroup m cs (some t) (insertName acc (cname m c)) true := by
  simp only [nextGroup, hc, hn]

theorem nextGroup_cons_data_same {m : DL} {c : MCell} {cs : List MCell}
    {t : Nat} {acc : List Nat} {found : Bool}
    (hc : c.row = CellRow.data t)
    (hn : (m.headerAt c.header).name = HeaderName.other (cname m c)) :
    nextGroup m (c :: cs) (some t) acc found =
      nextGroup m cs (some t) (insertName acc (cname m c)) true := by
  simp only [nextGroup, hc, hn, ne_eq, not_true_eq_false, if_false,
    ite_false]

theorem nextGroup_cons_data_ne {m : DL} {c : MCell} {cs : List MCell}
    {t t2 : Nat} {acc : List Nat} {found : Bool}
    (hc : c.row = CellRow.data t2) (hne : t2 ≠ t) :
    nextGroup m (c :: cs) (some t) acc found = some (some acc, c :: cs) := by
  simp only [nextGroup, hc, ne_eq]
  rw [if_pos (show ¬ t2 = t from hne)]

theorem nextGroup_skip {m : DL} :
    ∀ (hdrs suffix : List MCell) (curRow : Option Nat) (acc : List Nat)
      (found : Bool), (∀ c ∈ hdrs, c.row = CellRow.header) →
      nextGroup m (hdrs ++ suffix) curRow acc found =
        nextGroup m suffix curRow acc found := by
  intro hdrs
  induction hdrs with
  | nil => intro suffix curRow acc found _; rfl
  | cons c t ih =>
    intro suffix curRow acc found hall
    have hc : c.row = CellRow.header := hall c (List.mem_cons_self c t)
    show nextGroup m (c :: (t ++ suffix)) curRow acc found = _
    rw [nextGroup_cons_header hc]
    exact ih suffix curRow acc found fun d hd => hall d (List.mem_cons_of_mem c hd)

theorem nextGroup_inside {m : DL} {t : Nat} :
    ∀ (g rest : List MCell) (acc : List Nat),
      (∀ c ∈ g, c.row = CellRow.data t ∧
        (m.headerAt c.header).name = HeaderName.other (cname m c)) →
      (rest = [] ∨ ∃ c2 t2 rest2, rest = c2 :: rest2 ∧
        c2.row = CellRow.data t2 ∧ t2 ≠ t) →
      nextGroup m (g ++ rest) (some t) acc true =
        some (some (g.foldl (fun a c => insertName a (cname m c)) acc), rest) := by
  intro g
  induction g with
  | nil =>
    intro rest acc _ hrest
    rcases hrest with rfl | ⟨c2, t2, rest2, rfl, hrow, hne⟩
    · rfl
    · show nextGroup m (c2 :: rest2) (some t) acc true = _
      rw [nextGroup_cons_data_ne hrow hne]
      rfl
  | cons c g2 ih =>
    intro rest acc hall hrest
    have hc := hall c (List.mem_cons_self c g2)
    show nextGroup m (c :: (g2 ++ rest)) (some t) acc true = _
    rw [nextGroup_cons_data_same hc.1 hc.2]
    rw [ih rest (insertName acc (cname m c))
      (fun d hd => hall d (List.mem_cons_of_mem c hd)) hrest]
    rfl

theorem nextGroup_start {m : DL} {t : Nat} (g rest : List MCell)
    (hne : g ≠ [])
    (hall : ∀ c ∈ g, c.row = CellRow.data t ∧
      (m.headerAt c.header).name = HeaderName.other (cname m c))
    (hrest : rest = [] ∨ ∃ c2 t2 rest2, rest = c2 :: rest2 ∧
      c2.row = CellRow.data t2 ∧ t2 ≠ t) :
    nextGroup m (g ++ rest) none [] false =
      some (some (g.foldl (fun a c => insertName a (cname m c)) []), rest) := by
  cases g with
  | nil => exact absurd rfl hne
  | cons c g2 =>
    have hc := hall c (List.mem_cons_self c g2)
    show nextGroup m (c :: (g2 ++ rest)) none [] false = _
    rw [nextGroup_cons_data_none hc.1 hc.2]
    rw [nextGroup_inside g2 rest (insertName [] (cname m c))
      (fun d hd => hall d (List.mem_cons_of_mem c hd)) hrest]
    rfl

theorem cname_eq {m : DL} {c : MCell} {nm : Nat}
    (h : (m.headerAt c.header).name = HeaderName.other nm) :
    cname m c = nm := by
  simp only [cname, h]

theorem rowsCellRC_mem :
    ∀ (t : Nat) (rws : List (List Nat)) (x : CellRow × Nat),
      x ∈ rowsCellRC t rws → ∃ r ∈ rws, x.2 ∈ r := by
  intro t rws
  induction rws generalizing t with
  | nil => intro x hx; simp [rowsCellRC] at hx
  | cons r rest ih =>
    intro x hx
    rw [rowsCellRC] at hx
    rcases List.mem_append.mp hx with h1 | h2
    · obtain ⟨id, hid, heq⟩ := List.mem_map.mp h1
      refine ⟨r, List.mem_cons_self r rest, ?_⟩
      rw [← heq]
      exact hid
    · obtain ⟨r2, hr2, hmem⟩ := ih (t + 1) x h2
      exact ⟨r2, List.mem_cons_of_mem _ hr2, hmem⟩

theorem iterRowsAux_rows {m : DL} (nameF : Nat → Nat) :
    ∀ (rws : List (List Nat)) (t fuel : Nat) (suffix : List MCell),
      suffix.map cellRC = rowsCellRC t rws →
      (∀ r ∈ rws, r ≠ []) →
      (∀ c ∈ suffix, (m.headerAt c.header).name =
        HeaderName.other (nameF c.header)) →
      suffix.length < fuel →
      iterRowsAux m fuel suffix =
        some (rws.map fun r => (r.map nameF).foldl insertName []) := by
  intro rws
  induction rws with
  | nil =>
    intro t fuel suffix hmap _ _ hfuel
    have hs : suffix = [] := List.map_eq_nil_iff.mp (by rw [hmap]; rfl)
    cases fuel with
    | zero => omega
    | succ f =>
      rw [hs]
      simp [iterRowsAux]
  | cons r rest ih =>
    intro t fuel suffix hmap hrows hnames hfuel
    have hrne : r ≠ [] := hrows r (List.mem_cons_self r rest)
    set g := suffix.take r.length with hg
    set srest := suffix.drop r.length with hsrest
    have hsplit : suffix = g ++ srest :=
      (List.take_append_drop r.length suffix).symm
    have hmap2 : suffix.map cellRC =
        (r.map fun id => (CellRow.data (t + 1), id)) ++
          rowsCellRC (t + 1) rest := hmap
    have hlenr : (r.map fun id => (CellRow.data (t + 1), id)).length =
        r.length := by simp
    have hgmap : g.map cellRC = r.map fun id => (CellRow.data (t + 1), id) := by
      rw [hg, List.map_take, hmap2, List.take_left' hlenr]
    have hsrmap : srest.map cellRC = rowsCellRC (t + 1) rest := by
      rw [hsrest, List.map_drop, hmap2, List.drop_left' hlenr]
    have hsubg : ∀ c ∈ g, c ∈ suffix := fun c hc => List.take_subset _ _ hc
    have hgrow : ∀ c ∈ g, c.row = CellRow.data (t + 1) := by
      intro c hc
      have hm : cellRC c ∈ g.map cellRC := List.mem_map.mpr ⟨c, hc, rfl⟩
      rw [hgmap] at hm
      obtain ⟨id, _, heq⟩ := List.mem_map.mp hm
      have h2 := congrArg Prod.fst heq
      simp [cellRC] at h2
      exact h2.symm
    have hgall : ∀ c ∈ g, c.row = CellRow.data (t + 1) ∧
        (m.headerAt c.header).name = HeaderName.other (cname m c) := by
      intro c hc
      have hn := hnames c (hsubg c hc)
      refine ⟨hgrow c hc, ?_⟩
      rw [cname_eq hn]
      exact hn
    have hslen : suffix.length = r.length + (rowsCellRC (t + 1) rest).length := by
      have h3 := congrArg List.length hmap2
      simpa using h3
    have hglen : g.length = r.length := by
      rw [hg, List.length_take]
      omega
    have hrlen : 0 < r.length := List.length_pos.mpr hrne
    have hgne : g ≠ [] := by
      intro hge
      rw [hge] at hglen
      simp at hglen
      omega
    have hrest : srest = [] ∨ ∃ c2 t2 rest2, srest = c2 :: rest2 ∧
        c2.row = CellRow.data t2 ∧ t2 ≠ t + 1 := by
      cases hrc : rest with
      | nil =>
        left
        have h4 : srest.map cellRC = [] := by rw [hsrmap, hrc]; rfl
        exact List.map_eq_nil_iff.mp h4
      | cons r2 rest3 =>
        have hr2ne : r2 ≠ [] := hrows r2 (by
          rw [hrc]
          exact List.mem_cons_of_mem _ (List.mem_cons_self r2 rest3))
        right
        cases hr2c : r2 with
        | nil => exact absurd hr2c hr2ne
        | cons id2 r2t =>
          cases hsc : srest with
          | nil =>
            exfalso
            have h5 := hsrmap
            rw [hsc, hrc, hr2c] at h5
            rw [rowsCellRC] at h5
            simp at h5
          | cons c2 rest2 =>
            refine ⟨c2, t + 2, rest2, rfl, ?_, by omega⟩
            have h5 := hsrmap
            rw [hsc, hrc, hr2c] at h5
            rw [rowsCellRC] at h5
            simp at h5
            obtain ⟨h6, -⟩ := h5
            have h7 := congrArg Prod.fst h6
            show c2.row = CellRow.data (t + 1 + 1)
            simpa [cellRC] using h7
    cases fuel with
    | zero => omega
    | succ f =>
      have hsne : suffix ≠ [] := by
        rw [hsplit]
        intro hcon
        exact hgne (List.append_eq_nil.mp hcon).1
      have hng : nextGroup m suffix none [] false =
          some (some (g.foldl (fun a c => insertName a (cname m c)) []),
            srest) := by
        rw [hsplit]
        exact nextGroup_start g srest hgne hgall hrest
      have hsrlen : srest.length < f := by
        have h8 := congrArg List.length hsplit
        simp only [List.length_append] at h8
        omega
      have hrec : iterRowsAux m f srest =
          some (rest.map fun r2 => (r2.map nameF).foldl insertName []) :=
        ih (t + 1) f srest hsrmap
          (fun r2 h2 => hrows r2 (List.mem_cons_of_mem _ h2))
          (fun c hc => hnames c (List.drop_subset _ _ hc)) hsrlen
      have hghead : g.map (fun c => c.header) = r := by
        have h9 := congrArg (List.map Prod.snd) hgmap
        simpa [List.map_map, cellRC, Function.comp] using h9
      have hGnames : g.map (cname m) = r.map nameF := by
        have h10 : g.map (cname m) = g.map (fun c => nameF c.header) :=
          List.map_congr_left fun c hc => cname_eq (hnames c (hsubg c hc))
        rw [h10, ← hghead, List.map_map]
        rfl
      have hGval : g.foldl (fun a c => insertName a (cname m c)) [] =
          (r.map nameF).foldl insertName [] := by
        rw [← hGnames, List.foldl_map]
      unfold iterRowsAux
      rw [if_neg hsne, hng]
      show (iterRowsAux m f srest).map
          (g.foldl (fun a c => insertName a (cname m c)) [] :: ·) = _
      rw [hrec, hGval]
      rfl

theorem iterRowsAux_skip_headers {m : DL} (hdrs datapart : List MCell)
    (fuel : Nat) (hh : ∀ c ∈ hdrs, c.row = CellRow.header)
    (hne : hdrs ≠ []) :
    iterRowsAux m (fuel + 1) (hdrs ++ datapart) =
      iterRowsAux m (fuel + 1) datapart := by
  have h1 : hdrs ++ datapart ≠ [] := fun hcon =>
    hne (List.append_eq_nil.mp hcon).1
  unfold iterRowsAux
  rw [if_neg h1, nextGroup_skip hdrs datapart none [] false hh]
  by_cases hd : datapart = []
  · subst hd
    rw [if_pos rfl]
    rfl
  · rw [if_neg hd]

/-! ### `iter_rows` round trip (C8) -/

/-- The item name attached to column id `id` (ids are 1-based; the sentinel
is column 0). -/
def specName (specs : List ColumnSpec) (id : Nat) : Nat :=
  (specs.getD (id - 1) ⟨0, false⟩).name

theorem iterRows_eq {specs : List ColumnSpec} {rws : List (List Nat)}
    {m : DL} (h : buildAll specs rws = some m)
    (hrows : ∀ r ∈ rws, r ≠ [])
    (hids : ∀ r ∈ rws, ∀ id ∈ r, 1 ≤ id ∧ id ≤ specs.length) :
    m.iterRows = some (rws.map fun r => dedupNames (r.map (specName specs))) := by
  obtain ⟨hcols, hhk, hmrows, hhlen, hclen, hcolproj, hcellhor⟩ :=
    buildAll_preserves h
  have hshape := buildAll_shape h
  set n := specs.length with hn
  set hdrs := m.cells.take (n + 1) with hhdrs
  set datapart := m.cells.drop (n + 1) with hdp
  have hsplit : m.cells = hdrs ++ datapart :=
    (List.take_append_drop _ _).symm
  have hlenrange :
      ((List.range (n + 1)).map fun i => (CellRow.header, i)).length = n + 1 := by
    simp
  have hhdmap : hdrs.map cellRC =
      (List.range (n + 1)).map fun i => (CellRow.header, i) := by
    rw [hhdrs, List.map_take, hshape, List.take_left' hlenrange]
  have hdpmap : datapart.map cellRC = rowsCellRC 0 rws := by
    rw [hdp, List.map_drop, hshape, List.drop_left' hlenrange]
  have hh : ∀ c ∈ hdrs, c.row = CellRow.header := by
    intro c hc
    have hm : cellRC c ∈ hdrs.map cellRC := List.mem_map.mpr ⟨c, hc, rfl⟩
    rw [hhdmap] at hm
    obtain ⟨i, _, heq⟩ := List.mem_map.mp hm
    have h2 := congrArg Prod.fst heq
    have h3 : CellRow.header = c.row := by simpa [cellRC] using h2
    exact h3.symm
  have hhne : hdrs ≠ [] := by
    intro hcon
    have h2 := congrArg List.length hhdmap
    rw [hcon] at h2
    simp at h2
  have hnameF : ∀ c ∈ datapart, (m.headerAt c.header).name =
      HeaderName.other (specName specs c.header) := by
    intro c hc
    have hm : cellRC c ∈ datapart.map cellRC := List.mem_map.mpr ⟨c, hc, rfl⟩
    rw [hdpmap] at hm
    obtain ⟨r, hr, hid⟩ := rowsCellRC_mem 0 rws (cellRC c) hm
    have hb := hids r hr c.header (by simpa [cellRC] using hid)
    have h4 : (m.headerAt c.header).name =
        ((endColumnsCore specs).headerAt c.header).name :=
      congrArg (fun p => p.2.1) (hcolproj c.header)
    have hph := endColumnsCore_colPhase specs
    have h5 := hph.hdr c.header (by omega)
    rw [h4, h5]
    obtain ⟨j, hj⟩ : ∃ j, c.header = j + 1 := ⟨c.header - 1, by omega⟩
    rw [hj]
    show colName specs (j + 1) = HeaderName.other (specName specs (j + 1))
    simp [colName, specName]
  show iterRowsAux m (m.cells.length + 1) m.cells = _
  conv_lhs => rw [hsplit]
  rw [iterRowsAux_skip_headers hdrs datapart (hdrs ++ datapart).length hh hhne]
  have hdlen : datapart.length < (hdrs ++ datapart).length + 1 := by
    simp only [List.length_append]
    omega
  have hmain := iterRowsAux_rows (specName specs) rws 0
    ((hdrs ++ datapart).length + 1) datapart hdpmap hrows hnameF hdlen
  rw [hmain]
  rfl

/-- C8: for every matrix built from a column schema `specs` and a sequence
of valid rows (nonempty, ids within `1..=specs.length`), `iter_rows()`
yields exactly one name set per added row, in insertion order: the result
is the input row list mapped to duplicate-free name lists, its length is
the number of rows added, and the `j`-th yielded set equals the set of
item names of the `j`-th input row. -/
theorem iter_rows_round_trip {specs : List ColumnSpec}
    {rws : List (List Nat)} {m : DL} (h : buildAll specs rws = some m)
    (hrows : ∀ r ∈ rws, r ≠ [])
    (hids : ∀ r ∈ rws, ∀ id ∈ r, 1 ≤ id ∧ id ≤ specs.length) :
    m.iterRows =
      some (rws.map fun r => dedupNames (r.map (specName specs))) ∧
    (∀ out, m.iterRows = some out →
      out.length = rws.length ∧
      ∀ j, (out.getD j []).toFinset =
        ((rws.getD j []).map (specName specs)).toFinset) := by
  have hmain := iterRows_eq h hrows hids
  refine ⟨hmain, ?_⟩
  intro out hout
  rw [hmain] at hout
  have hout2 := Option.some.inj hout
  subst hout2
  constructor
  · simp
  · intro j
    have h1 : (rws.map fun r => dedupNames (r.map (specName specs))).getD
        j [] = dedupNames ((rws.getD j []).map (specName specs)) := by
      rw [List.getD_eq_getElem?_getD, List.getElem?_map,
        List.getD_eq_getElem?_getD]
      cases rws[j]? with
      | none => rfl
      | some r => rfl
    rw [h1, dedupNames_toFinset]

/-- C8 witness instance: two primary columns named 1 and 2, rows
`[1, 2]` and `[2]`. -/
def exDL8 : DL :=
  (buildAll [⟨1, true⟩, ⟨2, true⟩] [[1, 2], [2]]).getD (DL.mk 0 0 0 [] [])

/-- Witness for C8 at a concrete two-column, two-row build. -/
theorem iter_rows_round_trip_witness :
    exDL8.iterRows = some [[1, 2], [2]] := by
  have h := @iter_rows_round_trip [⟨1, true⟩, ⟨2, true⟩]
    [[1, 2], [2]] exDL8 (by decide) (by decide) (by decide)
  rw [h.1]
  decide

/-! ### Cycle surgery on `PathF` (for cover/uncover) -/

theorem pathF_lastOf {f : Nat → Nat} :
    ∀ {l : List Nat} {a b : Nat}, PathF f a l b → f (lastOf a l) = b := by
  intro l
  induction l with
  | nil => intro a b h; exact h
  | cons x xs ih =>
    intro a b h
    exact ih h.2

/-- Two mutually inverse cycles: stepping forward with `f` and then backward
with `g` returns to the start, for every node of the cycle. -/
theorem pathF_cycle_backlink {f g : Nat → Nat} {h : Nat} {D : List Nat}
    (hd : PathF f h D h) (hu : PathF g h D.reverse h) :
    ∀ x, x = h ∨ x ∈ D → g (f x) = x := by
  intro x hx
  rcases hx with rfl | hx
  · cases D with
    | nil =>
      have h1 : f x = x := hd
      have h2 : g x = x := hu
      rw [h1, h2]
    | cons d D2 =>
      have h1 : f x = d := hd.1
      have h2 : (d :: D2).reverse = D2.reverse ++ [d] := by simp
      rw [h2] at hu
      obtain ⟨-, h3⟩ := pathF_split (p := D2.reverse) (m := d) (q := []) hu
      rw [h1]
      exact h3
  · obtain ⟨xs, ys, rfl⟩ := List.mem_iff_append.mp hx
    obtain ⟨h1, h2⟩ := pathF_split hd
    cases ys with
    | nil =>
      have h3 : f x = h := h2
      have h4 : (xs ++ x :: []).reverse = [] ++ x :: xs.reverse := by simp
      rw [h4] at hu
      obtain ⟨h5, -⟩ := pathF_split (p := []) (m := x) (q := xs.reverse) hu
      rw [h3]
      exact h5
    | cons y ys2 =>
      have h3 : f x = y := h2.1
      have h4 : (xs ++ x :: y :: ys2).reverse =
          (ys2.reverse ++ y :: []) ++ x :: xs.reverse := by simp
      rw [h4] at hu
      obtain ⟨h5, -⟩ :=
        pathF_split (p := ys2.reverse ++ y :: []) (m := x) (q := xs.reverse) hu
      obtain ⟨-, h6⟩ := pathF_split (p := ys2.reverse) (m := y) (q := []) h5
      rw [h3]
      exact h6

/-- Replacing the final step of a path: if `f'` agrees with `f` on the path
nodes except the last one, the path is retargeted to wherever `f'` sends the
last node. -/
theorem pathF_replace_last {f f' : Nat → Nat} :
    ∀ {l : List Nat} {a c : Nat} {b : Nat}, PathF f a l b →
      (a :: l).Nodup →
      (∀ x, x ∈ a :: l → x ≠ lastOf a l → f' x = f x) →
      f' (lastOf a l) = c →
      PathF f' a l c := by
  intro l
  induction l with
  | nil =>
    intro a c b _ _ _ hlast
    exact hlast
  | cons x xs ih =>
    intro a c b h hnd hagree hlast
    obtain ⟨h1, h2⟩ := h
    have hlx : lastOf a (x :: xs) = lastOf x xs := rfl
    have hmem : lastOf x xs ∈ x :: xs := by
      cases xs with
      | nil => exact List.mem_cons_self x []
      | cons z zs => exact List.mem_cons_of_mem x (lastOf_mem (z :: zs) x (by simp))
    have hane : a ≠ lastOf x xs := by
      intro hcon
      have : a ∈ x :: xs := hcon ▸ hmem
      exact (List.nodup_cons.mp hnd).1 this
    refine ⟨?_, ?_⟩
    · rw [hagree a (List.mem_cons_self a _) (by rw [hlx]; exact hane)]
      exact h1
    · exact ih h2 (List.nodup_cons.mp hnd).2
        (fun z hz hzne => hagree z (List.mem_cons_of_mem a hz) (by rw [hlx]; exact hzne))
        hlast

/-- Removing a node from a cycle: if `f'` agrees with `f` everywhere except
at the predecessor `u` of the removed node `j`, and `f'` sends `u` to `j`'s
old successor, the cycle without `j` is traced by `f'`. -/
theorem pathF_erase {f f' : Nat → Nat} {h j u : Nat} {xs ys : List Nat}
    (hp : PathF f h (xs ++ j :: ys) h)
    (hnd : (h :: (xs ++ j :: ys)).Nodup)
    (hu : u = lastOf h xs)
    (hagree : ∀ x, x ≠ u → f' x = f x)
    (hstep : f' u = f j) :
    PathF f' h (xs ++ ys) h := by
  obtain ⟨p1, p2⟩ := pathF_split hp
  have hndx : (h :: xs).Nodup := by
    have hsub : (h :: xs).Sublist (h :: (xs ++ j :: ys)) := by
      refine List.Sublist.cons₂ h ?_
      exact List.sublist_append_left xs (j :: ys)
    exact hsub.nodup hnd
  have humem : u ∈ h :: xs := by
    rw [hu]
    cases xs with
    | nil => exact List.mem_cons_self h []
    | cons z zs =>
      exact List.mem_cons_of_mem h (lastOf_mem (z :: zs) h (by simp))
  cases ys with
  | nil =>
    have h3 : f j = h := p2
    have h4 : PathF f' h xs h := by
      refine pathF_replace_last p1 hndx ?_ ?_
      · intro x _ hxne
        exact hagree x (by rw [hu]; exact hxne)
      · rw [← hu, hstep, h3]
    simpa using h4
  | cons y ys2 =>
    obtain ⟨h3, h4⟩ := p2
    have hfirst : PathF f' h xs y := by
      refine pathF_replace_last p1 hndx ?_ ?_
      · intro x _ hxne
        exact hagree x (by rw [hu]; exact hxne)
      · rw [← hu, hstep, h3]
    have hsecond : PathF f' y ys2 h := by
      refine pathF_congr h4 ?_
      intro x hxmem
      refine hagree x ?_
      intro hcon
      have hxy : x ∈ y :: ys2 := by
        rcases hxmem with hxm0 | hxm
        · rw [hxm0]; exact List.mem_cons_self y ys2
        · exact List.mem_cons_of_mem y hxm
      have hxin : x ∈ h :: (xs ++ j :: y :: ys2) := by
        refine List.mem_cons_of_mem h ?_
        refine List.mem_append.mpr (Or.inr ?_)
        exact List.mem_cons_of_mem j hxy
      have hdisj : u ∉ j :: y :: ys2 := by
        intro hcon2
        have hnd2 := hnd
        rcases List.mem_cons.mp humem with rfl | humem2
        · exact (List.nodup_cons.mp hnd2).1
            (List.mem_append.mpr (Or.inr hcon2))
        · have hnd3 := (List.nodup_cons.mp hnd2).2
          have := List.disjoint_of_nodup_append hnd3
          exact this humem2 hcon2
      exact hdisj (hcon ▸ List.mem_cons_of_mem j hxy)
    have := pathF_append hfirst hsecond
    simpa using this

/-- Appending a fresh node at the end of a cycle. -/
theorem pathF_snoc_cycle {f f' : Nat → Nat} {h p u : Nat} {D : List Nat}
    (hp : PathF f h D h) (hnd : (h :: D).Nodup) (hu : u = lastOf h D)
    (hagree : ∀ x, x ∈ h :: D → x ≠ u → f' x = f x)
    (hstep1 : f' u = p) (hstep2 : f' p = h) :
    PathF f' h (D ++ [p]) h := by
  have hfirst : PathF f' h D p := by
    refine pathF_replace_last hp hnd ?_ ?_
    · intro x hx hxne
      exact hagree x hx (by rw [hu]; exact hxne)
    · rw [← hu, hstep1]
  have hsecond : PathF f' p [] h := hstep2
  have := pathF_append hfirst hsecond
  simpa using this

/-! ### Pointwise description of the vertical unlink/relink steps -/

theorem DL.ext_all {m m' : DL} (h1 : m.headerKey = m'.headerKey)
    (h2 : m.rows = m'.rows) (h3 : m.columns = m'.columns)
    (h4 : m.headers = m'.headers) (h5 : m.cells = m'.cells) : m = m' := by
  cases m
  cases m'
  simp only at h1 h2 h3 h4 h5
  rw [h1, h2, h3, h4, h5]

theorem DL.cells_eq_of_cellAt {m m' : DL}
    (hlen : m.cells.length = m'.cells.length)
    (h : ∀ k, k < m.cells.length → m.cellAt k = m'.cellAt k) :
    m.cells = m'.cells := by
  apply List.ext_getElem hlen
  intro i h1 h2
  have h3 := h i h1
  unfold DL.cellAt at h3
  rw [List.getD_eq_getElem?_getD, List.getD_eq_getElem?_getD,
    List.getElem?_eq_getElem h1, List.getElem?_eq_getElem h2] at h3
  simpa using h3

theorem DL.headers_eq_of_headerAt {m m' : DL}
    (hlen : m.headers.length = m'.headers.length)
    (h : ∀ k, k < m.headers.length → m.headerAt k = m'.headerAt k) :
    m.headers = m'.headers := by
  apply List.ext_getElem hlen
  intro i h1 h2
  have h3 := h i h1
  unfold DL.headerAt at h3
  rw [List.getD_eq_getElem?_getD, List.getD_eq_getElem?_getD,
    List.getElem?_eq_getElem h1, List.getElem?_eq_getElem h2] at h3
  simpa using h3

theorem unlinkVert_headerKey (m : DL) (j : Nat) :
    (unlinkVert m j).headerKey = m.headerKey := rfl

theorem unlinkVert_rows (m : DL) (j : Nat) :
    (unlinkVert m j).rows = m.rows := rfl

theorem unlinkVert_columns (m : DL) (j : Nat) :
    (unlinkVert m j).columns = m.columns := rfl

theorem unlinkVert_cells_length (m : DL) (j : Nat) :
    (unlinkVert m j).cells.length = m.cells.length := by
  simp [unlinkVert, DL.setHeader, DL.setCell]

theorem unlinkVert_headers_length (m : DL) (j : Nat) :
    (unlinkVert m j).headers.length = m.headers.length := by
  simp [unlinkVert, DL.setHeader, DL.setCell]

theorem unlinkVert_cellAt_other {m : DL} {j k : Nat}
    (hkd : k ≠ (m.cellAt j).down) (hku : k ≠ (m.cellAt j).up) :
    (unlinkVert m j).cellAt k = m.cellAt k := by
  show (((m.setCell _ _).setCell _ _).setHeader _ _).cellAt k = _
  rw [DL.cellAt_setHeader, DL.cellAt_setCell_ne _ _ hku,
    DL.cellAt_setCell_ne _ _ hkd]

theorem unlinkVert_cellAt_d {m : DL} {j : Nat}
    (hdu : (m.cellAt j).down ≠ (m.cellAt j).up)
    (hdlen : (m.cellAt j).down < m.cells.length) :
    (unlinkVert m j).cellAt ((m.cellAt j).down) =
      { m.cellAt ((m.cellAt j).down) with up := (m.cellAt j).up } := by
  show (((m.setCell _ _).setCell _ _).setHeader _ _).cellAt _ = _
  rw [DL.cellAt_setHeader, DL.cellAt_setCell_ne _ _ hdu,
    DL.cellAt_setCell_self _ _ _ hdlen]

theorem unlinkVert_cellAt_u {m : DL} {j : Nat}
    (hud : (m.cellAt j).up ≠ (m.cellAt j).down)
    (hulen : (m.cellAt j).up < m.cells.length) :
    (unlinkVert m j).cellAt ((m.cellAt j).up) =
      { m.cellAt ((m.cellAt j).up) with down := (m.cellAt j).down } := by
  show (((m.setCell _ _).setCell _ _).setHeader _ _).cellAt _ = _
  rw [DL.cellAt_setHeader,
    DL.cellAt_setCell_self _ _ _ (by
      rw [DL.cells_length_setCell]
      exact hulen),
    DL.cellAt_setCell_ne _ _ hud]

theorem unlinkVert_cellAt_dd {m : DL} {j : Nat}
    (hdu : (m.cellAt j).down = (m.cellAt j).up)
    (hdlen : (m.cellAt j).down < m.cells.length) :
    (unlinkVert m j).cellAt ((m.cellAt j).down) =
      { m.cellAt ((m.cellAt j).down) with
          up := (m.cellAt j).up, down := (m.cellAt j).down } := by
  show (((m.setCell _ _).setCell _ _).setHeader _ _).cellAt _ = _
  rw [DL.cellAt_setHeader]
  rw [show (m.cellAt j).up = (m.cellAt j).down from hdu.symm]
  rw [DL.cellAt_setCell_self _ _ _ (by
    rw [DL.cells_length_setCell]
    exact hdlen)]
  rw [DL.cellAt_setCell_self _ _ _ hdlen]

theorem unlinkVert_headerAt_h {m : DL} {j : Nat}
    (hhlen : (m.cellAt j).header < m.headers.length) :
    (unlinkVert m j).headerAt ((m.cellAt j).header) =
      { m.headerAt ((m.cellAt j).header) with
          size := (m.headerAt ((m.cellAt j).header)).size - 1 } := by
  show (((m.setCell _ _).setCell _ _).setHeader _ _).headerAt _ = _
  rw [DL.headerAt_setHeader_self _ _ _ (by exact hhlen)]
  rfl

theorem unlinkVert_headerAt_ne {m : DL} {j i : Nat}
    (hne : i ≠ (m.cellAt j).header) :
    (unlinkVert m j).headerAt i = m.headerAt i := by
  show (((m.setCell _ _).setCell _ _).setHeader _ _).headerAt i = _
  rw [DL.headerAt_setHeader_ne _ _ hne]
  rfl

theorem relinkVert_headerKey (m : DL) (j : Nat) :
    (relinkVert m j).headerKey = m.headerKey := rfl

theorem relinkVert_rows (m : DL) (j : Nat) :
    (relinkVert m j).rows = m.rows := rfl

theorem relinkVert_columns (m : DL) (j : Nat) :
    (relinkVert m j).columns = m.columns := rfl

theorem relinkVert_cells_length (m : DL) (j : Nat) :
    (relinkVert m j).cells.length = m.cells.length := by
  simp [relinkVert, DL.setHeader, DL.setCell]

theorem relinkVert_headers_length (m : DL) (j : Nat) :
    (relinkVert m j).headers.length = m.headers.length := by
  simp [relinkVert, DL.setHeader, DL.setCell]

theorem relinkVert_cellAt_other {m : DL} {j k : Nat}
    (hkd : k ≠ (m.cellAt j).down) (hku : k ≠ (m.cellAt j).up) :
    (relinkVert m j).cellAt k = m.cellAt k := by
  show (((m.setCell _ _).setCell _ _).setHeader _ _).cellAt k = _
  rw [DL.cellAt_setHeader, DL.cellAt_setCell_ne _ _ hku,
    DL.cellAt_setCell_ne _ _ hkd]

theorem relinkVert_cellAt_d {m : DL} {j : Nat}
    (hdu : (m.cellAt j).down ≠ (m.cellAt j).up)
    (hdlen : (m.cellAt j).down < m.cells.length) :
    (relinkVert m j).cellAt ((m.cellAt j).down) =
      { m.cellAt ((m.cellAt j).down) with up := (m.cellAt j).index } := by
  show (((m.setCell _ _).setCell _ _).setHeader _ _).cellAt _ = _
  rw [DL.cellAt_setHeader, DL.cellAt_setCell_ne _ _ hdu,
    DL.cellAt_setCell_self _ _ _ hdlen]

theorem relinkVert_cellAt_u {m : DL} {j : Nat}
    (hud : (m.cellAt j).up ≠ (m.cellAt j).down)
    (hulen : (m.cellAt j).up < m.cells.length) :
    (relinkVert m j).cellAt ((m.cellAt j).up) =
      { m.cellAt ((m.cellAt j).up) with down := (m.cellAt j).index } := by
  show (((m.setCell _ _).setCell _ _).setHeader _ _).cellAt _ = _
  rw [DL.cellAt_setHeader,
    DL.cellAt_setCell_self _ _ _ (by
      rw [DL.cells_length_setCell]
      exact hulen),
    DL.cellAt_setCell_ne _ _ hud]

theorem relinkVert_cellAt_dd {m : DL} {j : Nat}
    (hdu : (m.cellAt j).down = (m.cellAt j).up)
    (hdlen : (m.cellAt j).down < m.cells.length) :
    (relinkVert m j).cellAt ((m.cellAt j).down) =
      { m.cellAt ((m.cellAt j).down) with
          up := (m.cellAt j).index, down := (m.cellAt j).index } := by
  show (((m.setCell _ _).setCell _ _).setHeader _ _).cellAt _ = _
  rw [DL.cellAt_setHeader]
  rw [show (m.cellAt j).up = (m.cellAt j).down from hdu.symm]
  rw [DL.cellAt_setCell_self _ _ _ (by
    rw [DL.cells_length_setCell]
    exact hdlen)]
  rw [DL.cellAt_setCell_self _ _ _ hdlen]

theorem relinkVert_headerAt_h {m : DL} {j : Nat}
    (hhlen : (m.cellAt j).header < m.headers.length) :
    (relinkVert m j).headerAt ((m.cellAt j).header) =
      { m.headerAt ((m.cellAt j).header) with
          size := (m.headerAt ((m.cellAt j).header)).size + 1 } := by
  show (((m.setCell _ _).setCell _ _).setHeader _ _).headerAt _ = _
  rw [DL.headerAt_setHeader_self _ _ _ (by exact hhlen)]
  rfl

theorem relinkVert_headerAt_ne {m : DL} {j i : Nat}
    (hne : i ≠ (m.cellAt j).header) :
    (relinkVert m j).headerAt i = m.headerAt i := by
  show (((m.setCell _ _).setCell _ _).setHeader _ _).headerAt i = _
  rw [DL.headerAt_setHeader_ne _ _ hne]
  rfl

theorem cellWithUp_eq (c : MCell) {v : Nat} (h : c.up = v) :
    ({ c with up := v } : MCell) = c := by
  rw [← h]

theorem cellWithDown_eq (c : MCell) {v : Nat} (h : c.down = v) :
    ({ c with down := v } : MCell) = c := by
  rw [← h]

theorem cellWithUpDown_eq (c : MCell) {v w : Nat} (hv : c.up = v)
    (hw : c.down = w) : ({ c with up := v, down := w } : MCell) = c := by
  rw [← hv, ← hw]

theorem colWithSize_eq (c : MColumn) {v : Nat} (h : c.size = v) :
    ({ c with size := v } : MColumn) = c := by
  rw [← h]

/-- One vertical unlink followed by its relink restores the state exactly,
provided the unlinked cell is properly linked (its neighbours point back),
self-indexed, in bounds, and its column size is positive. -/
theorem relinkVert_unlinkVert {m : DL} {j : Nat}
    (hidx : (m.cellAt j).index = j)
    (hdlen : (m.cellAt j).down < m.cells.length)
    (hulen : (m.cellAt j).up < m.cells.length)
    (hhlen : (m.cellAt j).header < m.headers.length)
    (hbd : (m.cellAt ((m.cellAt j).down)).up = j)
    (hbu : (m.cellAt ((m.cellAt j).up)).down = j)
    (hsz : 1 ≤ (m.headerAt ((m.cellAt j).header)).size) :
    relinkVert (unlinkVert m j) j = m := by
  have hM1j : (unlinkVert m j).cellAt j = m.cellAt j := by
    by_cases hjd : (m.cellAt j).down = j
    · have hju : (m.cellAt j).up = j := by rw [hjd] at hbd; exact hbd
      have hdu : (m.cellAt j).down = (m.cellAt j).up := by rw [hjd, hju]
      have h1 := unlinkVert_cellAt_dd hdu hdlen
      rw [hjd] at h1
      rw [h1]
      exact cellWithUpDown_eq _ rfl hjd
    · have hju : (m.cellAt j).up ≠ j := by
        intro hcon
        rw [hcon] at hbu
        exact hjd hbu
      exact unlinkVert_cellAt_other (fun hc => hjd hc.symm) (fun hc => hju hc.symm)
  apply DL.ext_all
  · rfl
  · rfl
  · rfl
  · apply DL.headers_eq_of_headerAt
    · rw [relinkVert_headers_length, unlinkVert_headers_length]
    · intro i _
      by_cases hih : i = (m.cellAt j).header
      · subst hih
        have h2 := relinkVert_headerAt_h (m := unlinkVert m j) (j := j) (by
          rw [hM1j, unlinkVert_headers_length]
          exact hhlen)
        rw [hM1j] at h2
        rw [h2]
        have h3 := unlinkVert_headerAt_h (m := m) (j := j) hhlen
        rw [h3]
        show ({ m.headerAt ((m.cellAt j).header) with
          size := (m.headerAt ((m.cellAt j).header)).size - 1 + 1 } : MColumn) =
          m.headerAt ((m.cellAt j).header)
        rw [Nat.sub_add_cancel hsz]
      · have h2 := relinkVert_headerAt_ne (m := unlinkVert m j) (j := j)
          (i := i) (by rw [hM1j]; exact hih)
        rw [h2, unlinkVert_headerAt_ne hih]
  · apply DL.cells_eq_of_cellAt
    · rw [relinkVert_cells_length, unlinkVert_cells_length]
    · intro k _
      by_cases hjd : (m.cellAt j).down = j
      · have hju : (m.cellAt j).up = j := by rw [hjd] at hbd; exact hbd
        have hdu : (m.cellAt j).down = (m.cellAt j).up := by rw [hjd, hju]
        by_cases hkj : k = j
        · rw [hkj]
          have h2 := relinkVert_cellAt_dd (m := unlinkVert m j) (j := j)
            (by rw [hM1j]; exact hdu)
            (by rw [hM1j, unlinkVert_cells_length]; exact hdlen)
          rw [hM1j, hidx] at h2
          rw [hjd] at h2
          rw [hM1j] at h2
          rw [h2]
          exact cellWithUpDown_eq _ hju hjd
        · have h2 := relinkVert_cellAt_other (m := unlinkVert m j) (j := j)
            (k := k) (by rw [hM1j, hjd]; exact hkj)
            (by rw [hM1j, hju]; exact hkj)
          rw [h2]
          exact unlinkVert_cellAt_other (by rw [hjd]; exact hkj)
            (by rw [hju]; exact hkj)
      · have hju : (m.cellAt j).up ≠ j := by
          intro hcon
          rw [hcon] at hbu
          exact hjd hbu
        by_cases hdu : (m.cellAt j).down = (m.cellAt j).up
        · by_cases hkd : k = (m.cellAt j).down
          · subst hkd
            have h2 := relinkVert_cellAt_dd (m := unlinkVert m j) (j := j)
              (by rw [hM1j]; exact hdu)
              (by rw [hM1j, unlinkVert_cells_length]; exact hdlen)
            rw [hM1j, hidx] at h2
            rw [h2]
            rw [unlinkVert_cellAt_dd hdu hdlen]
            show ({ m.cellAt ((m.cellAt j).down) with up := j, down := j } :
              MCell) = m.cellAt ((m.cellAt j).down)
            refine cellWithUpDown_eq _ hbd ?_
            rw [← hdu] at hbu
            exact hbu
          · have hku : k ≠ (m.cellAt j).up := by rw [← hdu]; exact hkd
            have h2 := relinkVert_cellAt_other (m := unlinkVert m j) (j := j)
              (k := k) (by rw [hM1j]; exact hkd) (by rw [hM1j]; exact hku)
            rw [h2]
            exact unlinkVert_cellAt_other hkd hku
        · by_cases hkd : k = (m.cellAt j).down
          · subst hkd
            have h2 := relinkVert_cellAt_d (m := unlinkVert m j) (j := j)
              (by rw [hM1j]; exact hdu)
              (by rw [hM1j, unlinkVert_cells_length]; exact hdlen)
            rw [hM1j, hidx] at h2
            rw [h2]
            rw [unlinkVert_cellAt_d hdu hdlen]
            show ({ m.cellAt ((m.cellAt j).down) with up := j } : MCell) =
              m.cellAt ((m.cellAt j).down)
            exact cellWithUp_eq _ hbd
          · by_cases hku : k = (m.cellAt j).up
            · subst hku
              have h2 := relinkVert_cellAt_u (m := unlinkVert m j) (j := j)
                (by rw [hM1j]; exact fun hc => hdu hc.symm)
                (by rw [hM1j, unlinkVert_cells_length]; exact hulen)
              rw [hM1j, hidx] at h2
              rw [h2]
              rw [unlinkVert_cellAt_u (fun hc => hdu hc.symm) hulen]
              show ({ m.cellAt ((m.cellAt j).up) with down := j } : MCell) =
                m.cellAt ((m.cellAt j).up)
              exact cellWithDown_eq _ hbu
            · have h2 := relinkVert_cellAt_other (m := unlinkVert m j)
                (j := j) (k := k) (by rw [hM1j]; exact hkd)
                (by rw [hM1j]; exact hku)
              rw [h2]
              exact unlinkVert_cellAt_other hkd hku

/-- The per-step precondition under which a vertical unlink is invertible. -/
def VertP (m : DL) (j : Nat) : Prop :=
  (m.cellAt j).index = j ∧
  (m.cellAt j).down < m.cells.length ∧
  (m.cellAt j).up < m.cells.length ∧
  (m.cellAt j).header < m.headers.length ∧
  (m.cellAt ((m.cellAt j).down)).up = j ∧
  (m.cellAt ((m.cellAt j).up)).down = j ∧
  1 ≤ (m.headerAt ((m.cellAt j).header)).size

/-- The whole unlink sequence is invertible step by step. -/
def VertOk (m : DL) : List Nat → Prop
  | [] => True
  | j :: rest => VertP m j ∧ VertOk (unlinkVert m j) rest

/-- Relinking in reverse order undoes the unlink fold. -/
theorem vertFold_inv : ∀ (v : List Nat) (m : DL), VertOk m v →
    v.reverse.foldl relinkVert (v.foldl unlinkVert m) = m := by
  intro v
  induction v with
  | nil => intro m _; rfl
  | cons j rest ih =>
    intro m hok
    obtain ⟨hp, hrest⟩ := hok
    obtain ⟨h1, h2, h3, h4, h5, h6, h7⟩ := hp
    rw [List.reverse_cons, List.foldl_cons, List.foldl_append]
    rw [ih (unlinkVert m j) hrest]
    simp only [List.foldl_cons, List.foldl_nil]
    exact relinkVert_unlinkVert h1 h2 h3 h4 h5 h6 h7

/-! ### Column cell lists and well-formedness (for C2) -/

/-- Whether a cell is a data cell (not a header-row cell). -/
def MCell.isData (c : MCell) : Bool :=
  match c.row with
  | CellRow.header => false
  | CellRow.data _ => true

/-- The keys of the data cells of column `i`, in slab order (which is the
order the builder appended them, i.e. top-to-bottom in the column ring). -/
def colCells (m : DL) (i : Nat) : List Nat :=
  (List.range m.cells.length).filter fun j =>
    (m.cellAt j).isData && ((m.cellAt j).header == i)

theorem colCells_mem {m : DL} {i j : Nat} :
    j ∈ colCells m i ↔ j < m.cells.length ∧ (m.cellAt j).isData = true ∧
      (m.cellAt j).header = i := by
  unfold colCells
  rw [List.mem_filter, List.mem_range]
  simp [Bool.and_eq_true, beq_iff_eq, and_assoc]

theorem colCells_nodup (m : DL) (i : Nat) : (colCells m i).Nodup :=
  (List.nodup_range _).filter _

theorem colCells_congr {m m' : DL} {i : Nat}
    (hlen : m.cells.length = m'.cells.length)
    (h : ∀ j, (m.cellAt j).row = (m'.cellAt j).row ∧
      (m.cellAt j).header = (m'.cellAt j).header) :
    colCells m i = colCells m' i := by
  unfold colCells
  rw [hlen]
  apply List.filter_congr
  intro j _
  rw [show (m.cellAt j).isData = (m'.cellAt j).isData by
    unfold MCell.isData; rw [(h j).1], (h j).2]

/-- Length of a duplicate-free list of naturals below a bound. -/
theorem nodup_length_le {l : List Nat} {n : Nat} (hnd : l.Nodup)
    (hb : ∀ x ∈ l, x < n) : l.length ≤ n := by
  have h1 : l.toFinset.card = l.length := List.toFinset_card_of_nodup hnd
  have h2 : l.toFinset ⊆ Finset.range n := by
    intro x hx
    rw [Finset.mem_range]
    exact hb x (List.mem_toFinset.mp hx)
  have h3 := Finset.card_le_card h2
  rw [h1, Finset.card_range] at h3
  exact h3

theorem cellWithLeft_eq (c : MCell) {v : Nat} (h : c.left = v) :
    ({ c with left := v } : MCell) = c := by
  rw [← h]

theorem cellWithRight_eq (c : MCell) {v : Nat} (h : c.right = v) :
    ({ c with right := v } : MCell) = c := by
  rw [← h]

theorem DL.setCell_self (m : DL) (k : Nat) :
    m.setCell k (m.cellAt k) = m := by
  refine DL.ext_all rfl rfl rfl rfl ?_
  by_cases hk : k < m.cells.length
  · show (m.cells.set k _) = m.cells
    have : m.cellAt k = m.cells[k] := by
      unfold DL.cellAt
      rw [List.getD_eq_getElem?_getD, List.getElem?_eq_getElem hk]
      rfl
    rw [this]
    apply List.ext_getElem (by simp)
    intro i h1 h2
    rw [List.getElem_set]
    split
    · rename_i hik
      subst hik
      rfl
    · rfl
  · show (m.cells.set k _) = m.cells
    exact List.set_eq_of_length_le (by omega)

theorem cellHor_unlinkVert {m : DL} {j : Nat}
    (hdb : (m.cellAt j).down < m.cells.length)
    (hub : (m.cellAt j).up < m.cells.length) :
    ∀ k, cellHor ((unlinkVert m j).cellAt k) = cellHor (m.cellAt k) := by
  intro k
  by_cases hkd : k = (m.cellAt j).down
  · by_cases hdu : (m.cellAt j).down = (m.cellAt j).up
    · rw [hkd, unlinkVert_cellAt_dd hdu hdb]
      rfl
    · rw [hkd, unlinkVert_cellAt_d hdu hdb]
      rfl
  · by_cases hku : k = (m.cellAt j).up
    · have hud : (m.cellAt j).up ≠ (m.cellAt j).down := by
        intro hc
        exact hkd (hku.trans hc)
      rw [hku, unlinkVert_cellAt_u hud hub]
      rfl
    · rw [unlinkVert_cellAt_other hkd hku]

theorem colProj_unlinkVert {m : DL} {j : Nat}
    (hhb : (m.cellAt j).header < m.headers.length) :
    ∀ i, colProj ((unlinkVert m j).headerAt i) = colProj (m.headerAt i) := by
  intro i
  by_cases hih : i = (m.cellAt j).header
  · rw [hih, unlinkVert_headerAt_h hhb]
    rfl
  · rw [unlinkVert_headerAt_ne hih]

theorem downF_unlinkVert_ne {m : DL} {j x : Nat}
    (hdb : (m.cellAt j).down < m.cells.length)
    (hx : x ≠ (m.cellAt j).up) :
    downF (unlinkVert m j) x = downF m x := by
  by_cases hxd : x = (m.cellAt j).down
  · by_cases hdu : (m.cellAt j).down = (m.cellAt j).up
    · exact absurd (hxd.trans hdu) hx
    · show ((unlinkVert m j).cellAt x).down = (m.cellAt x).down
      rw [hxd, unlinkVert_cellAt_d hdu hdb]
  · show ((unlinkVert m j).cellAt x).down = (m.cellAt x).down
    rw [unlinkVert_cellAt_other hxd hx]

theorem downF_unlinkVert_u {m : DL} {j : Nat}
    (hub : (m.cellAt j).up < m.cells.length) :
    downF (unlinkVert m j) ((m.cellAt j).up) = (m.cellAt j).down := by
  by_cases hdu : (m.cellAt j).down = (m.cellAt j).up
  · show ((unlinkVert m j).cellAt _).down = _
    rw [← hdu, unlinkVert_cellAt_dd hdu (by rw [hdu]; exact hub)]
  · show ((unlinkVert m j).cellAt _).down = _
    rw [unlinkVert_cellAt_u (fun hc => hdu hc.symm) hub]

theorem upF_unlinkVert_ne {m : DL} {j x : Nat}
    (hub : (m.cellAt j).up < m.cells.length)
    (hx : x ≠ (m.cellAt j).down) :
    upF (unlinkVert m j) x = upF m x := by
  by_cases hxu : x = (m.cellAt j).up
  · by_cases hdu : (m.cellAt j).down = (m.cellAt j).up
    · exact absurd (hxu.trans hdu.symm) hx
    · show ((unlinkVert m j).cellAt x).up = (m.cellAt x).up
      rw [hxu, unlinkVert_cellAt_u (fun hc => hdu hc.symm) hub]
  · show ((unlinkVert m j).cellAt x).up = (m.cellAt x).up
    rw [unlinkVert_cellAt_other hx hxu]

theorem upF_unlinkVert_d {m : DL} {j : Nat}
    (hdb : (m.cellAt j).down < m.cells.length) :
    upF (unlinkVert m j) ((m.cellAt j).down) = (m.cellAt j).up := by
  by_cases hdu : (m.cellAt j).down = (m.cellAt j).up
  · show ((unlinkVert m j).cellAt _).up = _
    rw [unlinkVert_cellAt_dd hdu hdb]
  · show ((unlinkVert m j).cellAt _).up = _
    rw [unlinkVert_cellAt_d hdu hdb]

theorem filter_decide_append {l procd : List Nat} {j : Nat} :
    (l.filter fun x => decide (x ∉ procd ++ [j])) =
      (l.filter fun x => decide (x ∉ procd)).filter fun x => decide (x ≠ j) := by
  rw [List.filter_filter]
  apply List.filter_congr
  intro x _
  simp [and_comm]

theorem filter_ne_of_not_mem {l : List Nat} {j : Nat} (h : j ∉ l) :
    (l.filter fun x => decide (x ≠ j)) = l := by
  apply List.filter_eq_self.mpr
  intro x hx
  simp only [decide_eq_true_eq]
  intro hcon
  exact h (hcon ▸ hx)

theorem filter_not_mem_of_disjoint {l v : List Nat}
    (h : ∀ x ∈ l, x ∉ v) :
    (l.filter fun x => decide (x ∉ v)) = l := by
  apply List.filter_eq_self.mpr
  intro x hx
  simp only [decide_eq_true_eq]
  exact h x hx

theorem filter_ne_of_split {xs ys : List Nat} {j : Nat}
    (hnd : (xs ++ j :: ys).Nodup) :
    ((xs ++ j :: ys).filter fun x => decide (x ≠ j)) = xs ++ ys := by
  rw [List.filter_append]
  have h1 : (xs.filter fun x => decide (x ≠ j)) = xs := by
    apply List.filter_eq_self.mpr
    intro x hx
    simp only [decide_eq_true_eq]
    intro hcon
    have hdisj := List.disjoint_of_nodup_append hnd
    exact hdisj (hcon ▸ hx) (List.mem_cons_self j ys)
  have hys := (List.nodup_append.mp hnd).2.1
  have h2 : ((j :: ys).filter fun x => decide (x ≠ j)) = ys := by
    have hhead : (decide (j ≠ j)) = false := by simp
    rw [List.filter_cons, hhead]
    simp only [Bool.false_eq_true, if_false, ite_false]
    exact filter_ne_of_not_mem (List.nodup_cons.mp hys).1
  rw [h1, h2]

theorem reverse_flatMap_reverse {f : Nat → List Nat} :
    ∀ (l : List Nat),
      (l.reverse.flatMap fun x => (f x).reverse) = (l.flatMap f).reverse := by
  intro l
  induction l with
  | nil => rfl
  | cons x xs ih =>
    rw [List.reverse_cons, List.flatMap_append, ih, List.flatMap_cons,
      List.flatMap_cons, List.flatMap_nil, List.append_nil,
      List.reverse_append]

/-- Backlinks at every node of a pair of mutually reverse rings. -/
theorem ring_backlinks {m : DL} {h : Nat} {D : List Nat}
    (hd : PathF (downF m) h D h) (hu : PathF (upF m) h D.reverse h) :
    ∀ x, x = h ∨ x ∈ D →
      upF m (downF m x) = x ∧ downF m (upF m x) = x := by
  intro x hx
  constructor
  · exact pathF_cycle_backlink hd hu x hx
  · refine pathF_cycle_backlink (f := upF m) (g := downF m) hu ?_ x ?_
    · simpa using hd
    · rcases hx with rfl | hx
      · exact Or.inl rfl
      · exact Or.inr (by simpa using hx)

/-- The state invariant maintained by the unlink loop of `cover`, relative
to the pre-loop matrix `M` and the list `procd` of already unlinked cells:
horizontal fields are untouched, every column ring consists of its
not-yet-unlinked cells, and every column's size matches its live ring. -/
structure CoverInv (M : DL) (procd : List Nat) (mt : DL) : Prop where
  len : mt.cells.length = M.cells.length
  hlen : mt.headers.length = M.headers.length
  hor : ∀ k, cellHor (mt.cellAt k) = cellHor (M.cellAt k)
  ring : ∀ i, i < M.headers.length →
    PathF (downF mt) i ((colCells M i).filter fun x => decide (x ∉ procd)) i ∧
    PathF (upF mt) i
      (((colCells M i).filter fun x => decide (x ∉ procd)).reverse) i
  size : ∀ i, i < M.headers.length →
    (mt.headerAt i).size =
      ((colCells M i).filter fun x => decide (x ∉ procd)).length
  hdrs : ∀ i, colProj (mt.headerAt i) = colProj (M.headerAt i)

/-- Running the unlink loop over a duplicate-free list of live data cells
keeps the invariant and is step-by-step invertible. -/
theorem coverFold_ok (M : DL)
    (hlenle : M.headers.length ≤ M.cells.length)
    (hhdr : ∀ i, i < M.headers.length → (M.cellAt i).isData = false)
    (idxM : ∀ k, k < M.cells.length → (M.cellAt k).index = k) :
    ∀ (v procd : List Nat) (mt : DL),
      CoverInv M procd mt →
      (∀ j ∈ v, j ∉ procd ∧ j < M.cells.length ∧
        (M.cellAt j).isData = true ∧
        (M.cellAt j).header < M.headers.length) →
      v.Nodup →
      VertOk mt v ∧ CoverInv M (procd ++ v) (v.foldl unlinkVert mt) := by
  intro v
  induction v with
  | nil =>
    intro procd mt hinv _ _
    refine ⟨trivial, ?_⟩
    simpa using hinv
  | cons j rest ih =>
    intro procd mt hinv hv hnd
    obtain ⟨hjp, hjlen, hjdata, hjhb⟩ := hv j (List.mem_cons_self j rest)
    set c2 := (M.cellAt j).header with hc2
    have hmtj_hor := hinv.hor j
    have hhdr_eq : (mt.cellAt j).header = c2 := by
      have h1 := congrArg (fun p => p.2.2.1) hmtj_hor
      simpa [cellHor] using h1
    have hidx_eq : (mt.cellAt j).index = j := by
      have h1 := congrArg (fun p => p.2.2.2.1) hmtj_hor
      simp only [cellHor] at h1
      rw [h1]
      exact idxM j hjlen
    set live := (colCells M c2).filter (fun x => decide (x ∉ procd))
      with hlive
    have hjcol : j ∈ colCells M c2 := colCells_mem.mpr ⟨hjlen, hjdata, rfl⟩
    have hjlive : j ∈ live := by
      rw [hlive, List.mem_filter]
      exact ⟨hjcol, by simpa using hjp⟩
    obtain ⟨hringD, hringU⟩ := hinv.ring c2 hjhb
    have hliveb : ∀ x ∈ live, x < M.cells.length := fun x hx =>
      (colCells_mem.mp (List.mem_filter.mp hx).1).1
    have hlivehdr : ∀ x ∈ live, (M.cellAt x).header = c2 := fun x hx =>
      (colCells_mem.mp (List.mem_filter.mp hx).1).2.2
    have hlivedata : ∀ x ∈ live, (M.cellAt x).isData = true := fun x hx =>
      (colCells_mem.mp (List.mem_filter.mp hx).1).2.1
    have hlive_nd : live.Nodup := (colCells_nodup M c2).filter _
    have hc2nlive : c2 ∉ live := by
      intro hc
      have h1 := hlivedata c2 hc
      have h2 := hhdr c2 hjhb
      rw [h1] at h2
      simp at h2
    obtain ⟨xs, ys, hsplit⟩ := List.mem_iff_append.mp hjlive
    have hback := ring_backlinks hringD hringU
    have hbd_mt : upF mt (downF mt j) = j := (hback j (Or.inr hjlive)).1
    have hbu_mt : downF mt (upF mt j) = j := (hback j (Or.inr hjlive)).2
    have hdownmem : downF mt j ∈ live ∨ downF mt j = c2 :=
      pathF_values hringD j (Or.inr hjlive)
    have hupmem : upF mt j ∈ live.reverse ∨ upF mt j = c2 :=
      pathF_values hringU j (Or.inr (List.mem_reverse.mpr hjlive))
    have hdownb : (mt.cellAt j).down < mt.cells.length := by
      rw [hinv.len]
      rcases hdownmem with hm | hm
      · exact hliveb _ hm
      · rw [show (mt.cellAt j).down = c2 from hm]
        omega
    have hupb : (mt.cellAt j).up < mt.cells.length := by
      rw [hinv.len]
      rcases hupmem with hm | hm
      · exact hliveb _ (by simpa using hm)
      · rw [show (mt.cellAt j).up = c2 from hm]
        omega
    have hszlive : 1 ≤ live.length :=
      List.length_pos.mpr (List.ne_nil_of_mem hjlive)
    have hVertP : VertP mt j := by
      refine ⟨hidx_eq, hdownb, hupb, ?_, hbd_mt, hbu_mt, ?_⟩
      · rw [hhdr_eq, hinv.hlen]
        exact hjhb
      · rw [hhdr_eq, hinv.size c2 hjhb]
        exact hszlive
    -- the predecessor of j in the down ring and in the up ring
    have hsplit_path : PathF (downF mt) c2 (xs ++ j :: ys) c2 := by
      rw [← hsplit]
      exact hringD
    obtain ⟨hpx, hpy⟩ := pathF_split hsplit_path
    have hlastxs_mem : lastOf c2 xs ∈ c2 :: live := by
      cases hxs : xs with
      | nil => exact List.mem_cons_self c2 live
      | cons z zs =>
        refine List.mem_cons_of_mem c2 ?_
        rw [hsplit]
        refine List.mem_append.mpr (Or.inl ?_)
        exact hxs ▸ lastOf_mem (z :: zs) c2 (by simp)
    have hu_eq : (mt.cellAt j).up = lastOf c2 xs := by
      have h1 : downF mt (lastOf c2 xs) = j := pathF_lastOf hpx
      have h2 := (hback (lastOf c2 xs) (by
        rcases List.mem_cons.mp hlastxs_mem with hx | hx
        · exact Or.inl hx
        · exact Or.inr hx)).1
      rw [h1] at h2
      exact h2
    have hrevshape : live.reverse = ys.reverse ++ j :: xs.reverse := by
      rw [hsplit]
      simp
    have hsplit_pathU : PathF (upF mt) c2 (ys.reverse ++ j :: xs.reverse) c2 := by
      rw [← hrevshape]
      exact hringU
    obtain ⟨hpyU, hpxU⟩ := pathF_split hsplit_pathU
    have hlastys_mem : lastOf c2 ys.reverse ∈ c2 :: live := by
      cases hys : ys.reverse with
      | nil => exact List.mem_cons_self c2 live
      | cons z zs =>
        refine List.mem_cons_of_mem c2 ?_
        have h1 : lastOf c2 (z :: zs) ∈ z :: zs :=
          lastOf_mem (z :: zs) c2 (by simp)
        nth_rewrite 1 [← hys] at h1
        have h2 : lastOf c2 (z :: zs) ∈ ys := List.mem_reverse.mp h1
        rw [hsplit]
        refine List.mem_append.mpr (Or.inr ?_)
        exact List.mem_cons_of_mem j h2
    have hd_eq : (mt.cellAt j).down = lastOf c2 ys.reverse := by
      have h1 : upF mt (lastOf c2 ys.reverse) = j := pathF_lastOf hpyU
      have h2 := (hback (lastOf c2 ys.reverse) (by
        rcases List.mem_cons.mp hlastys_mem with hx | hx
        · exact Or.inl hx
        · exact Or.inr hx)).2
      rw [h1] at h2
      exact h2
    have hndfull : (c2 :: (xs ++ j :: ys)).Nodup := by
      rw [← hsplit]
      exact List.nodup_cons.mpr ⟨hc2nlive, hlive_nd⟩
    have hndfullU : (c2 :: (ys.reverse ++ j :: xs.reverse)).Nodup := by
      rw [← hrevshape]
      refine List.nodup_cons.mpr ⟨?_, by simpa using hlive_nd⟩
      simpa using hc2nlive
    have hlist : (colCells M c2).filter (fun x => decide (x ∉ procd ++ [j])) =
        xs ++ ys := by
      rw [filter_decide_append, ← hlive, hsplit,
        filter_ne_of_split (by rw [← hsplit]; exact hlive_nd)]
    -- disjointness helper: nodes of other columns differ from the two
    -- modified cells (which lie in column c2's ring)
    have hother : ∀ i, i < M.headers.length → i ≠ c2 →
        ∀ x, x = i ∨ x ∈ (colCells M i).filter (fun y => decide (y ∉ procd)) →
        ∀ w, w ∈ c2 :: live → x ≠ w := by
      intro i hi hic x hx w hw hxw
      rcases List.mem_cons.mp hw with rfl | hw2
      · -- w = c2
        rcases hx with rfl | hx2
        · exact hic hxw
        · have h1 := (colCells_mem.mp (List.mem_filter.mp hx2).1).2.1
          rw [hxw] at h1
          have h2 := hhdr c2 hjhb
          rw [h1] at h2
          simp at h2
      · rcases hx with rfl | hx2
        · have h1 := hlivedata w hw2
          have h2 := hhdr x hi
          rw [hxw] at h2
          rw [h1] at h2
          simp at h2
        · have h1 := hlivehdr w hw2
          have h2 := (colCells_mem.mp (List.mem_filter.mp hx2).1).2.2
          rw [hxw, h1] at h2
          exact hic h2.symm
    have hu_mem : (mt.cellAt j).up ∈ c2 :: live := by
      rw [hu_eq]
      exact hlastxs_mem
    have hd_mem : (mt.cellAt j).down ∈ c2 :: live := by
      rw [hd_eq]
      exact hlastys_mem
    have hinv2 : CoverInv M (procd ++ [j]) (unlinkVert mt j) := by
      refine ⟨?_, ?_, ?_, ?_, ?_, ?_⟩
      · rw [unlinkVert_cells_length, hinv.len]
      · rw [unlinkVert_headers_length, hinv.hlen]
      · intro k
        rw [cellHor_unlinkVert hdownb hupb k, hinv.hor k]
      · intro i hi
        by_cases hic : i = c2
        · rw [hic, hlist]
          constructor
          · refine pathF_erase (j := j) hsplit_path hndfull hu_eq
              (fun x hxu => downF_unlinkVert_ne hdownb
                (fun hc => hxu hc)) ?_
            exact downF_unlinkVert_u hupb
          · have h1 : PathF (upF (unlinkVert mt j)) c2
                (ys.reverse ++ xs.reverse) c2 := by
              refine pathF_erase (j := j) hsplit_pathU hndfullU hd_eq
                (fun x hxd => upF_unlinkVert_ne hupb
                  (fun hc => hxd hc)) ?_
              exact upF_unlinkVert_d hdownb
            rw [List.reverse_append]
            exact h1
        · have hlist2 : (colCells M i).filter
              (fun x => decide (x ∉ procd ++ [j])) =
              (colCells M i).filter (fun x => decide (x ∉ procd)) := by
            rw [filter_decide_append]
            refine filter_ne_of_not_mem ?_
            intro hc
            have h1 := (colCells_mem.mp (List.mem_filter.mp hc).1).2.2
            exact hic h1.symm
          obtain ⟨hrD, hrU⟩ := hinv.ring i hi
          rw [hlist2]
          constructor
          · refine pathF_congr hrD ?_
            intro x hx
            exact downF_unlinkVert_ne hdownb
              (fun hc => hother i hi hic x hx _ hu_mem hc)
          · refine pathF_congr hrU ?_
            intro x hx
            refine upF_unlinkVert_ne hupb ?_
            refine fun hc => hother i hi hic x ?_ _ hd_mem hc
            rcases hx with hx | hx
            · exact Or.inl hx
            · exact Or.inr (by simpa using hx)
      · intro i hi
        by_cases hic : i = c2
        · rw [hic, hlist]
          have h1 := unlinkVert_headerAt_h (m := mt) (j := j)
            (by rw [hhdr_eq, hinv.hlen]; exact hjhb)
          rw [hhdr_eq] at h1
          rw [h1]
          show (mt.headerAt c2).size - 1 = (xs ++ ys).length
          rw [hinv.size c2 hjhb, ← hlive, hsplit]
          simp only [List.length_append, List.length_cons]
          omega
        · have hlist2 : (colCells M i).filter
              (fun x => decide (x ∉ procd ++ [j])) =
              (colCells M i).filter (fun x => decide (x ∉ procd)) := by
            rw [filter_decide_append]
            refine filter_ne_of_not_mem ?_
            intro hc
            have h1 := (colCells_mem.mp (List.mem_filter.mp hc).1).2.2
            exact hic h1.symm
          rw [hlist2]
          have h1 := unlinkVert_headerAt_ne (m := mt) (j := j) (i := i)
            (by rw [hhdr_eq]; exact hic)
          rw [h1]
          exact hinv.size i hi
      · intro i
        rw [colProj_unlinkVert (by rw [hhdr_eq, hinv.hlen]; exact hjhb) i,
          hinv.hdrs i]
    have hrest := ih (procd ++ [j]) (unlinkVert mt j) hinv2
      (by
        intro k hk
        obtain ⟨hk1, hk2, hk3, hk4⟩ := hv k (List.mem_cons_of_mem j hk)
        refine ⟨?_, hk2, hk3, hk4⟩
        intro hc
        rcases List.mem_append.mp hc with hc2m | hc2m
        · exact hk1 hc2m
        · have hkj : k = j := by simpa using hc2m
          exact (List.nodup_cons.mp hnd).1 (hkj ▸ hk))
      (List.nodup_cons.mp hnd).2
    refine ⟨⟨hVertP, hrest.1⟩, ?_⟩
    have h2 := hrest.2
    rw [show procd ++ j :: rest = (procd ++ [j]) ++ rest by simp]
    simpa using h2

/-- The vertical projection of a cell (everything except left/right). -/
def cellVert (c : MCell) : Nat × Nat × Nat × Nat × CellRow :=
  (c.up, c.down, c.header, c.index, c.row)

/-- Structural well-formedness of a dancing-links matrix: self-owned header
cells, self-indexed cells, closed column rings matching the sizes, closed
data-row rings, and horizontal backlinks among the header cells. -/
structure WS (m : DL) : Prop where
  hlenle : m.headers.length ≤ m.cells.length
  hdrcell : ∀ i, i < m.headers.length → (m.headerAt i).cell = i
  idx : ∀ j, j < m.cells.length → (m.cellAt j).index = j
  hdrNotData : ∀ i, i < m.headers.length → (m.cellAt i).isData = false
  hdrBound : ∀ j, j < m.cells.length → (m.cellAt j).header < m.headers.length
  hdrHorBound : ∀ i, i < m.headers.length →
    (m.cellAt i).right < m.headers.length ∧
    (m.cellAt i).left < m.headers.length
  hdrBacklink : ∀ i, i < m.headers.length →
    (m.cellAt ((m.cellAt i).right)).left = i ∧
    (m.cellAt ((m.cellAt i).left)).right = i
  colDown : ∀ i, i < m.headers.length → PathF (downF m) i (colCells m i) i
  colUp : ∀ i, i < m.headers.length →
    PathF (upF m) i (colCells m i).reverse i
  sizes : ∀ i, i < m.headers.length →
    (m.headerAt i).size = (colCells m i).length
  rowRing : ∀ j, j < m.cells.length → (m.cellAt j).isData = true →
    ∃ R, PathF (rightF m) j R j ∧ PathF (leftF m) j R.reverse j ∧
      (j :: R).Nodup ∧
      ∀ k ∈ R, k < m.cells.length ∧
        (m.cellAt k).row = (m.cellAt j).row ∧
        (m.cellAt k).header ≠ (m.cellAt j).header ∧
        (m.cellAt k).isData = true
  rowColUnique : ∀ j k, j < m.cells.length → k < m.cells.length →
    (m.cellAt j).isData = true → (m.cellAt k).isData = true →
    (m.cellAt j).row = (m.cellAt k).row →
    (m.cellAt j).header = (m.cellAt k).header → j = k

/-- The horizontal unlink of `cover`, at an explicit header-cell key. -/
def hUnlinkAt (m : DL) (hci : Nat) : DL :=
  let hr := (m.cellAt hci).right
  let hl := (m.cellAt hci).left
  let m1 := m.setCell hr { m.cellAt hr with left := hl }
  m1.setCell hl { m1.cellAt hl with right := hr }

/-- The horizontal relink of `uncover`, at an explicit header-cell key. -/
def hRelinkAt (m : DL) (hci : Nat) : DL :=
  let cr := (m.cellAt hci).right
  let cl := (m.cellAt hci).left
  let m5 := m.setCell cr { m.cellAt cr with left := hci }
  m5.setCell cl { m5.cellAt cl with right := hci }

/-- `cover` at an explicit header-cell key. -/
def coverAt (m : DL) (hci : Nat) : DL :=
  let m2 := hUnlinkAt m hci
  let v := (m2.iterateCells hci (·.down) false).flatMap
    (fun i => m2.iterateCells i (·.right) false)
  v.foldl unlinkVert m2

/-- `uncover` at an explicit header-cell key. -/
def uncoverAt (m : DL) (hci : Nat) : DL :=
  let v := (m.iterateCells hci (·.up) false).flatMap
    (fun i => m.iterateCells i (·.left) false)
  let m1 := v.foldl relinkVert m
  hRelinkAt m1 hci

theorem cover_eq (m : DL) (c : Nat) :
    cover m c = coverAt m ((m.headerAt c).cell) := rfl

theorem uncover_eq (m : DL) (c : Nat) :
    uncover m c = uncoverAt m ((m.headerAt c).cell) := rfl

theorem hUnlinkAt_headers (m : DL) (hci : Nat) :
    (hUnlinkAt m hci).headers = m.headers := rfl

theorem hUnlinkAt_headerKey (m : DL) (hci : Nat) :
    (hUnlinkAt m hci).headerKey = m.headerKey := rfl

theorem hUnlinkAt_rows (m : DL) (hci : Nat) :
    (hUnlinkAt m hci).rows = m.rows := rfl

theorem hUnlinkAt_columns (m : DL) (hci : Nat) :
    (hUnlinkAt m hci).columns = m.columns := rfl

theorem hUnlinkAt_cells_length (m : DL) (hci : Nat) :
    (hUnlinkAt m hci).cells.length = m.cells.length := by
  simp [hUnlinkAt, DL.setCell]

theorem hRelinkAt_headers (m : DL) (hci : Nat) :
    (hRelinkAt m hci).headers = m.headers := rfl

theorem hRelinkAt_cells_length (m : DL) (hci : Nat) :
    (hRelinkAt m hci).cells.length = m.cells.length := by
  simp [hRelinkAt, DL.setCell]

theorem hUnlinkAt_cellAt_other {m : DL} {hci k : Nat}
    (hkr : k ≠ (m.cellAt hci).right) (hkl : k ≠ (m.cellAt hci).left) :
    (hUnlinkAt m hci).cellAt k = m.cellAt k := by
  show ((m.setCell _ _).setCell _ _).cellAt k = _
  rw [DL.cellAt_setCell_ne _ _ hkl, DL.cellAt_setCell_ne _ _ hkr]

theorem hUnlinkAt_cellAt_r {m : DL} {hci : Nat}
    (hrl : (m.cellAt hci).right ≠ (m.cellAt hci).left)
    (hrb : (m.cellAt hci).right < m.cells.length) :
    (hUnlinkAt m hci).cellAt ((m.cellAt hci).right) =
      { m.cellAt ((m.cellAt hci).right) with left := (m.cellAt hci).left } := by
  show ((m.setCell _ _).setCell _ _).cellAt _ = _
  rw [DL.cellAt_setCell_ne _ _ hrl, DL.cellAt_setCell_self _ _ _ hrb]

theorem hUnlinkAt_cellAt_l {m : DL} {hci : Nat}
    (hlr : (m.cellAt hci).left ≠ (m.cellAt hci).right)
    (hlb : (m.cellAt hci).left < m.cells.length) :
    (hUnlinkAt m hci).cellAt ((m.cellAt hci).left) =
      { m.cellAt ((m.cellAt hci).left) with right := (m.cellAt hci).right } := by
  show ((m.setCell _ _).setCell _ _).cellAt _ = _
  rw [DL.cellAt_setCell_self _ _ _ (by
    rw [DL.cells_length_setCell]
    exact hlb),
    DL.cellAt_setCell_ne _ _ hlr]

theorem hUnlinkAt_cellAt_rl {m : DL} {hci : Nat}
    (hrl : (m.cellAt hci).right = (m.cellAt hci).left)
    (hrb : (m.cellAt hci).right < m.cells.length) :
    (hUnlinkAt m hci).cellAt ((m.cellAt hci).right) =
      { m.cellAt ((m.cellAt hci).right) with
          left := (m.cellAt hci).left, right := (m.cellAt hci).right } := by
  show ((m.setCell _ _).setCell _ _).cellAt _ = _
  rw [show (m.cellAt hci).left = (m.cellAt hci).right from hrl.symm]
  rw [DL.cellAt_setCell_self _ _ _ (by
    rw [DL.cells_length_setCell]
    exact hrb)]
  rw [DL.cellAt_setCell_self _ _ _ hrb]

theorem hRelinkAt_cellAt_other {m : DL} {hci k : Nat}
    (hkr : k ≠ (m.cellAt hci).right) (hkl : k ≠ (m.cellAt hci).left) :
    (hRelinkAt m hci).cellAt k = m.cellAt k := by
  show ((m.setCell _ _).setCell _ _).cellAt k = _
  rw [DL.cellAt_setCell_ne _ _ hkl, DL.cellAt_setCell_ne _ _ hkr]

theorem hRelinkAt_cellAt_r {m : DL} {hci : Nat}
    (hrl : (m.cellAt hci).right ≠ (m.cellAt hci).left)
    (hrb : (m.cellAt hci).right < m.cells.length) :
    (hRelinkAt m hci).cellAt ((m.cellAt hci).right) =
      { m.cellAt ((m.cellAt hci).right) with left := hci } := by
  show ((m.setCell _ _).setCell _ _).cellAt _ = _
  rw [DL.cellAt_setCell_ne _ _ hrl, DL.cellAt_setCell_self _ _ _ hrb]

theorem hRelinkAt_cellAt_l {m : DL} {hci : Nat}
    (hlr : (m.cellAt hci).left ≠ (m.cellAt hci).right)
    (hlb : (m.cellAt hci).left < m.cells.length) :
    (hRelinkAt m hci).cellAt ((m.cellAt hci).left) =
      { m.cellAt ((m.cellAt hci).left) with right := hci } := by
  show ((m.setCell _ _).setCell _ _).cellAt _ = _
  rw [DL.cellAt_setCell_self _ _ _ (by
    rw [DL.cells_length_setCell]
    exact hlb),
    DL.cellAt_setCell_ne _ _ hlr]

theorem hRelinkAt_cellAt_rl {m : DL} {hci : Nat}
    (hrl : (m.cellAt hci).right = (m.cellAt hci).left)
    (hrb : (m.cellAt hci).right < m.cells.length) :
    (hRelinkAt m hci).cellAt ((m.cellAt hci).right) =
      { m.cellAt ((m.cellAt hci).right) with left := hci, right := hci } := by
  show ((m.setCell _ _).setCell _ _).cellAt _ = _
  rw [show (m.cellAt hci).left = (m.cellAt hci).right from hrl.symm]
  rw [DL.cellAt_setCell_self _ _ _ (by
    rw [DL.cells_length_setCell]
    exact hrb)]
  rw [DL.cellAt_setCell_self _ _ _ hrb]

theorem cellWithLeftRight_eq (c : MCell) {v w : Nat} (hv : c.left = v)
    (hw : c.right = w) : ({ c with left := v, right := w } : MCell) = c := by
  rw [← hv, ← hw]

/-- The horizontal unlink of a header cell followed by its relink restores
the state exactly, provided the ring neighbours point back. -/
theorem hRelinkAt_hUnlinkAt {m : DL} {c : Nat}
    (hrb : (m.cellAt c).right < m.cells.length)
    (hlb : (m.cellAt c).left < m.cells.length)
    (hbr : (m.cellAt ((m.cellAt c).right)).left = c)
    (hbl : (m.cellAt ((m.cellAt c).left)).right = c) :
    hRelinkAt (hUnlinkAt m c) c = m := by
  have hM1j : (hUnlinkAt m c).cellAt c = m.cellAt c := by
    by_cases hjd : (m.cellAt c).right = c
    · have hju : (m.cellAt c).left = c := by rw [hjd] at hbr; exact hbr
      have hdu : (m.cellAt c).right = (m.cellAt c).left := by rw [hjd, hju]
      have h1 := hUnlinkAt_cellAt_rl hdu hrb
      rw [hjd] at h1
      rw [h1]
      exact cellWithLeftRight_eq _ rfl hjd
    · have hju : (m.cellAt c).left ≠ c := by
        intro hcon
        rw [hcon] at hbl
        exact hjd hbl
      exact hUnlinkAt_cellAt_other (fun hc => hjd hc.symm)
        (fun hc => hju hc.symm)
  apply DL.ext_all
  · rfl
  · rfl
  · rfl
  · rfl
  · apply DL.cells_eq_of_cellAt
    · rw [hRelinkAt_cells_length, hUnlinkAt_cells_length]
    · intro k _
      by_cases hjd : (m.cellAt c).right = c
      · have hju : (m.cellAt c).left = c := by rw [hjd] at hbr; exact hbr
        have hdu : (m.cellAt c).right = (m.cellAt c).left := by rw [hjd, hju]
        by_cases hkj : k = c
        · rw [hkj]
          have h2 := @hRelinkAt_cellAt_rl (hUnlinkAt m c) c
            (by rw [hM1j]; exact hdu)
            (by rw [hM1j, hUnlinkAt_cells_length]; exact hrb)
          rw [hM1j] at h2
          rw [hjd] at h2
          rw [hM1j] at h2
          rw [h2]
          exact cellWithLeftRight_eq _ hju hjd
        · have h2 := @hRelinkAt_cellAt_other (hUnlinkAt m c) c
            k (by rw [hM1j, hjd]; exact hkj)
            (by rw [hM1j, hju]; exact hkj)
          rw [h2]
          exact hUnlinkAt_cellAt_other (by rw [hjd]; exact hkj)
            (by rw [hju]; exact hkj)
      · have hju : (m.cellAt c).left ≠ c := by
          intro hcon
          rw [hcon] at hbl
          exact hjd hbl
        by_cases hdu : (m.cellAt c).right = (m.cellAt c).left
        · by_cases hkd : k = (m.cellAt c).right
          · subst hkd
            have h2 := @hRelinkAt_cellAt_rl (hUnlinkAt m c) c
              (by rw [hM1j]; exact hdu)
              (by rw [hM1j, hUnlinkAt_cells_length]; exact hrb)
            rw [hM1j] at h2
            rw [h2]
            rw [hUnlinkAt_cellAt_rl hdu hrb]
            show ({ m.cellAt ((m.cellAt c).right) with left := c, right := c } :
              MCell) = m.cellAt ((m.cellAt c).right)
            refine cellWithLeftRight_eq _ hbr ?_
            rw [← hdu] at hbl
            exact hbl
          · have hku : k ≠ (m.cellAt c).left := by rw [← hdu]; exact hkd
            have h2 := @hRelinkAt_cellAt_other (hUnlinkAt m c) c
              k (by rw [hM1j]; exact hkd) (by rw [hM1j]; exact hku)
            rw [h2]
            exact hUnlinkAt_cellAt_other hkd hku
        · by_cases hkd : k = (m.cellAt c).right
          · subst hkd
            have h2 := @hRelinkAt_cellAt_r (hUnlinkAt m c) c
              (by rw [hM1j]; exact hdu)
              (by rw [hM1j, hUnlinkAt_cells_length]; exact hrb)
            rw [hM1j] at h2
            rw [h2]
            rw [hUnlinkAt_cellAt_r hdu hrb]
            show ({ m.cellAt ((m.cellAt c).right) with left := c } : MCell) =
              m.cellAt ((m.cellAt c).right)
            exact cellWithLeft_eq _ hbr
          · by_cases hku : k = (m.cellAt c).left
            · subst hku
              have h2 := @hRelinkAt_cellAt_l (hUnlinkAt m c) c
                (by rw [hM1j]; exact fun hc => hdu hc.symm)
                (by rw [hM1j, hUnlinkAt_cells_length]; exact hlb)
              rw [hM1j] at h2
              rw [h2]
              rw [hUnlinkAt_cellAt_l (fun hc => hdu hc.symm) hlb]
              show ({ m.cellAt ((m.cellAt c).left) with right := c } : MCell) =
                m.cellAt ((m.cellAt c).left)
              exact cellWithRight_eq _ hbl
            · have h2 := @hRelinkAt_cellAt_other (hUnlinkAt m c)
                c k (by rw [hM1j]; exact hkd)
                (by rw [hM1j]; exact hku)
              rw [h2]
              exact hUnlinkAt_cellAt_other hkd hku

theorem hUnlinkAt_cellVert {m : DL} {hci : Nat}
    (hrb : (m.cellAt hci).right < m.cells.length)
    (hlb : (m.cellAt hci).left < m.cells.length) :
    ∀ k, cellVert ((hUnlinkAt m hci).cellAt k) = cellVert (m.cellAt k) := by
  intro k
  by_cases hkr : k = (m.cellAt hci).right
  · by_cases hrl : (m.cellAt hci).right = (m.cellAt hci).left
    · rw [hkr, hUnlinkAt_cellAt_rl hrl hrb]
      rfl
    · rw [hkr, hUnlinkAt_cellAt_r hrl hrb]
      rfl
  · by_cases hkl : k = (m.cellAt hci).left
    · have hlr : (m.cellAt hci).left ≠ (m.cellAt hci).right := by
        intro hcon
        exact hkr (hkl.trans hcon)
      rw [hkl, hUnlinkAt_cellAt_l hlr hlb]
      rfl
    · rw [hUnlinkAt_cellAt_other hkr hkl]

/-- `cover(c)` followed by `uncover(c)` is the identity on every
well-formed matrix. -/
theorem uncover_cover_of_WS {m : DL} (hws : WS m) {c : Nat}
    (hc : c < m.headers.length) :
    uncover (cover m c) c = m := by
  have hcell := hws.hdrcell c hc
  obtain ⟨hrhb, hlhb⟩ := hws.hdrHorBound c hc
  have hrb : (m.cellAt c).right < m.cells.length :=
    lt_of_lt_of_le hrhb hws.hlenle
  have hlb : (m.cellAt c).left < m.cells.length :=
    lt_of_lt_of_le hlhb hws.hlenle
  obtain ⟨hbr, hbl⟩ := hws.hdrBacklink c hc
  set M2 := hUnlinkAt m c with hM2def
  have hM2len : M2.cells.length = m.cells.length := hUnlinkAt_cells_length m c
  have hM2vert : ∀ k, cellVert (M2.cellAt k) = cellVert (m.cellAt k) :=
    hUnlinkAt_cellVert hrb hlb
  have hM2up : ∀ k, (M2.cellAt k).up = (m.cellAt k).up := fun k =>
    congrArg (fun p => p.1) (hM2vert k)
  have hM2down : ∀ k, (M2.cellAt k).down = (m.cellAt k).down := fun k =>
    congrArg (fun p => p.2.1) (hM2vert k)
  have hM2hdr : ∀ k, (M2.cellAt k).header = (m.cellAt k).header := fun k =>
    congrArg (fun p => p.2.2.1) (hM2vert k)
  have hM2idx : ∀ k, (M2.cellAt k).index = (m.cellAt k).index := fun k =>
    congrArg (fun p => p.2.2.2.1) (hM2vert k)
  have hM2row : ∀ k, (M2.cellAt k).row = (m.cellAt k).row := fun k =>
    congrArg (fun p => p.2.2.2.2) (hM2vert k)
  have hM2data : ∀ k, (M2.cellAt k).isData = (m.cellAt k).isData := fun k => by
    unfold MCell.isData
    rw [hM2row k]
  have hM2col : ∀ i, colCells M2 i = colCells m i := fun i =>
    colCells_congr hM2len (fun j => ⟨hM2row j, hM2hdr j⟩)
  set D := colCells m c with hDdef
  have hDnd : D.Nodup := colCells_nodup m c
  have hDmem : ∀ j ∈ D, j < m.cells.length ∧ (m.cellAt j).isData = true ∧
      (m.cellAt j).header = c := fun j hj => colCells_mem.mp hj
  have hcD : c ∉ D := by
    intro hcc
    have h1 := (hDmem c hcc).2.1
    have h2 := hws.hdrNotData c hc
    rw [h1] at h2
    simp at h2
  have hDlen : D.length < m.cells.length := by
    have h1 : (c :: D).Nodup := List.nodup_cons.mpr ⟨hcD, hDnd⟩
    have h2 := nodup_length_le h1 (by
      intro x hx
      rcases List.mem_cons.mp hx with rfl | hx2
      · exact lt_of_lt_of_le hc hws.hlenle
      · exact (hDmem x hx2).1)
    simpa using h2
  have hDataNotHdr : ∀ x, (m.cellAt x).isData = true →
      ¬ x < m.headers.length := by
    intro x hx hcon
    have h2 := hws.hdrNotData x hcon
    rw [hx] at h2
    simp at h2
  have hDpath2 : PathF (downF M2) c D c := by
    refine pathF_congr (hws.colDown c hc) ?_
    intro x _
    exact hM2down x
  have hDwalk : M2.iterateCells c (·.down) false = D := by
    refine iterateCells_ring _ hDpath2 hcD ?_
    rw [hM2len]
    exact hDlen
  -- per-row right walks
  have hW : ∀ j ∈ D,
      PathF (rightF m) j (M2.iterateCells j (·.right) false) j ∧
      PathF (leftF m) j (M2.iterateCells j (·.right) false).reverse j ∧
      (j :: M2.iterateCells j (·.right) false).Nodup ∧
      ∀ k ∈ M2.iterateCells j (·.right) false, k < m.cells.length ∧
        (m.cellAt k).row = (m.cellAt j).row ∧
        (m.cellAt k).header ≠ c ∧ (m.cellAt k).isData = true := by
    intro j hj
    obtain ⟨hjlen, hjdata, hjhdr⟩ := hDmem j hj
    obtain ⟨R, hR1, hR2, hR3, hR4⟩ := hws.rowRing j hjlen hjdata
    have hRm2 : PathF (rightF M2) j R j := by
      refine pathF_congr hR1 ?_
      intro x hx
      show (M2.cellAt x).right = (m.cellAt x).right
      have hxdata : (m.cellAt x).isData = true := by
        rcases hx with rfl | hx2
        · exact hjdata
        · exact (hR4 x hx2).2.2.2
      refine congrArg MCell.right (hUnlinkAt_cellAt_other ?_ ?_)
      · intro hcon
        exact hDataNotHdr x hxdata (hcon ▸ hrhb)
      · intro hcon
        exact hDataNotHdr x hxdata (hcon ▸ hlhb)
    have hRwalk : M2.iterateCells j (·.right) false = R := by
      refine iterateCells_ring _ hRm2 (List.nodup_cons.mp hR3).1 ?_
      rw [hM2len]
      have h2 := nodup_length_le hR3 (by
        intro x hx
        rcases List.mem_cons.mp hx with rfl | hx2
        · exact hjlen
        · exact (hR4 x hx2).1)
      simpa using h2
    rw [hRwalk]
    refine ⟨hR1, hR2, hR3, ?_⟩
    intro k hk
    obtain ⟨h1, h2, h3, h4⟩ := hR4 k hk
    exact ⟨h1, h2, by rw [← hjhdr]; exact h3, h4⟩
  set v := D.flatMap (fun j => M2.iterateCells j (·.right) false) with hvdef
  have hcover : cover m c = v.foldl unlinkVert M2 := by
    rw [cover_eq, hcell]
    show (((hUnlinkAt m c).iterateCells c (·.down) false).flatMap fun i =>
      (hUnlinkAt m c).iterateCells i (·.right) false).foldl unlinkVert
      (hUnlinkAt m c) = v.foldl unlinkVert M2
    rw [← hM2def, hDwalk, ← hvdef]
  have hvhdrne : ∀ k ∈ v, (m.cellAt k).header ≠ c := by
    intro k hk
    obtain ⟨j, hj, hkj⟩ := List.mem_flatMap.mp hk
    exact ((hW j hj).2.2.2 k hkj).2.2.1
  have hvmem : ∀ k ∈ v, k ∉ ([] : List Nat) ∧ k < M2.cells.length ∧
      (M2.cellAt k).isData = true ∧
      (M2.cellAt k).header < M2.headers.length := by
    intro k hk
    obtain ⟨j, hj, hkj⟩ := List.mem_flatMap.mp hk
    obtain ⟨h1, h2, h3, h4⟩ := (hW j hj).2.2.2 k hkj
    refine ⟨List.not_mem_nil k, by rw [hM2len]; exact h1, ?_, ?_⟩
    · rw [hM2data]
      exact h4
    · rw [hM2hdr]
      exact hws.hdrBound k h1
  have hvnd : v.Nodup := by
    rw [hvdef]
    refine List.nodup_flatMap.mpr ⟨?_, ?_⟩
    · intro j hj
      exact (List.nodup_cons.mp (hW j hj).2.2.1).2
    · refine List.Pairwise.imp_of_mem ?_ hDnd
      intro j1 j2 hj1 hj2 hne
      intro a ha1 ha2
      obtain ⟨hb1, hr1, hh1, hd1⟩ := (hW j1 hj1).2.2.2 a ha1
      obtain ⟨hb2, hr2, hh2, hd2⟩ := (hW j2 hj2).2.2.2 a ha2
      obtain ⟨hl1, hdt1, hhd1⟩ := hDmem j1 hj1
      obtain ⟨hl2, hdt2, hhd2⟩ := hDmem j2 hj2
      exact hne (hws.rowColUnique j1 j2 hl1 hl2 hdt1 hdt2
        (by rw [← hr1, hr2]) (by rw [hhd1, hhd2]))
  have hbase : CoverInv M2 [] M2 := by
    refine ⟨rfl, rfl, fun k => rfl, ?_, ?_, fun i => rfl⟩
    · intro i hi
      have hmem0 : ∀ x ∈ colCells M2 i, x ∉ ([] : List Nat) :=
        fun x _ => List.not_mem_nil x
      rw [filter_not_mem_of_disjoint hmem0, hM2col]
      have hi2 : i < m.headers.length := hi
      constructor
      · refine pathF_congr (hws.colDown i hi2) ?_
        intro x _
        exact hM2down x
      · refine pathF_congr (hws.colUp i hi2) ?_
        intro x _
        exact hM2up x
    · intro i hi
      have hmem0 : ∀ x ∈ colCells M2 i, x ∉ ([] : List Nat) :=
        fun x _ => List.not_mem_nil x
      rw [filter_not_mem_of_disjoint hmem0, hM2col]
      exact hws.sizes i hi
  obtain ⟨hVertOk, hfinal⟩ := coverFold_ok M2
    (by rw [hM2len]; exact hws.hlenle)
    (by
      intro i hi
      rw [hM2data]
      exact hws.hdrNotData i hi)
    (by
      intro k hk
      rw [hM2idx]
      exact hws.idx k (by rw [← hM2len]; exact hk))
    v [] M2 hbase hvmem hvnd
  rw [List.nil_append] at hfinal
  set m3 := v.foldl unlinkVert M2 with hm3def
  have hm3cell : (m3.headerAt c).cell = c := by
    have h1 := hfinal.hdrs c
    have h2 := congrArg (fun p => p.2.2.1) h1
    simp only [colProj] at h2
    rw [h2]
    exact hcell
  have hlive_c : (colCells M2 c).filter (fun x => decide (x ∉ v)) = D := by
    rw [hM2col]
    refine filter_not_mem_of_disjoint ?_
    intro x hx hxv
    exact hvhdrne x hxv (hDmem x hx).2.2
  obtain ⟨hring3D, hring3U⟩ := hfinal.ring c hc
  rw [hlive_c] at hring3D hring3U
  have hupwalk : m3.iterateCells c (·.up) false = D.reverse := by
    refine iterateCells_ring _ hring3U (by simpa using hcD) ?_
    rw [hfinal.len, hM2len]
    simpa using hDlen
  have hm3left : ∀ k, (m3.cellAt k).left = (M2.cellAt k).left := fun k =>
    congrArg (fun p => p.1) (hfinal.hor k)
  have hleftwalk : ∀ j ∈ D, m3.iterateCells j (·.left) false =
      (M2.iterateCells j (·.right) false).reverse := by
    intro j hj
    obtain ⟨hW1, hW2, hW3, hW4⟩ := hW j hj
    have hjdata := (hDmem j hj).2.1
    have hpath3 : PathF (leftF m3) j
        (M2.iterateCells j (·.right) false).reverse j := by
      refine pathF_congr hW2 ?_
      intro x hx
      have hxdata : (m.cellAt x).isData = true := by
        rcases hx with rfl | hx2
        · exact hjdata
        · exact (hW4 x (List.mem_reverse.mp hx2)).2.2.2
      show (m3.cellAt x).left = (m.cellAt x).left
      rw [hm3left x]
      refine congrArg MCell.left (hUnlinkAt_cellAt_other ?_ ?_)
      · intro hcon
        exact hDataNotHdr x hxdata (hcon ▸ hrhb)
      · intro hcon
        exact hDataNotHdr x hxdata (hcon ▸ hlhb)
    refine iterateCells_ring _ hpath3 ?_ ?_
    · intro hcon
      exact (List.nodup_cons.mp hW3).1 (List.mem_reverse.mp hcon)
    · rw [hfinal.len, hM2len]
      have h2 := nodup_length_le hW3 (by
        intro x hx
        rcases List.mem_cons.mp hx with hxe | hx2
        · rw [hxe]
          exact (hDmem j hj).1
        · exact (hW4 x hx2).1)
      simpa using h2
  have hv2 : (m3.iterateCells c (·.up) false).flatMap
      (fun i => m3.iterateCells i (·.left) false) = v.reverse := by
    rw [hupwalk]
    rw [List.flatMap_congr (fun j hj =>
      hleftwalk j (List.mem_reverse.mp hj))]
    rw [hvdef]
    exact reverse_flatMap_reverse D
  have hm4 : v.reverse.foldl relinkVert m3 = M2 := by
    rw [hm3def]
    exact vertFold_inv v M2 hVertOk
  have hcover2 : cover m c = m3 := hcover
  rw [hcover2, uncover_eq, hm3cell]
  show hRelinkAt (((m3.iterateCells c (·.up) false).flatMap fun i =>
    m3.iterateCells i (·.left) false).foldl relinkVert m3) c = m
  rw [hv2, hm4, hM2def]
  exact hRelinkAt_hUnlinkAt hrb hlb hbr hbl

/-! ### Row blocks and builder vertical invariant -/

/-- `k` consecutive keys starting at `a`. -/
def seqList (a k : Nat) : List Nat := (List.range k).map (a + ·)

theorem seqList_zero (a : Nat) : seqList a 0 = [] := rfl

theorem seqList_succ (a k : Nat) : seqList a (k + 1) = seqList a k ++ [a + k] := by
  unfold seqList
  rw [List.range_succ, List.map_append]
  rfl

theorem mem_seqList {a k x : Nat} : x ∈ seqList a k ↔ a ≤ x ∧ x < a + k := by
  unfold seqList
  rw [List.mem_map]
  constructor
  · rintro ⟨q, hq, rfl⟩
    rw [List.mem_range] at hq
    omega
  · rintro ⟨h1, h2⟩
    exact ⟨x - a, by rw [List.mem_range]; omega, by omega⟩

theorem seqList_nodup (a k : Nat) : (seqList a k).Nodup := by
  unfold seqList
  exact (List.nodup_range k).map (fun q1 q2 h => by omega)

theorem seqList_length (a k : Nat) : (seqList a k).length = k := by
  unfold seqList
  simp

theorem lastOf_of_reverse_path {f : Nat → Nat} {h : Nat} {D : List Nat}
    (hp : PathF f h D.reverse h) : f h = lastOf h D := by
  rcases List.eq_nil_or_concat D with rfl | ⟨D2, x, rfl⟩
  · exact hp
  · rw [List.concat_eq_append] at hp ⊢
    rw [lastOf_append_singleton]
    have h1 : (D2 ++ [x]).reverse = x :: D2.reverse := by simp
    rw [h1] at hp
    exact hp.1

/-- Rotating a two-way ring to any member and reading it leftward. -/
theorem ring_left_rotation {f g : Nat → Nat} {h x : Nat} {t l1 l2 : List Nat}
    (hr : PathF f h t h) (hg : ∀ y, y = h ∨ y ∈ t → g (f y) = y)
    (hsplit : h :: t = l1 ++ x :: l2) : PathF g x (l2 ++ l1).reverse x := by
  have hrot : PathF f x (l2 ++ l1) x := pathF_rotate hr hsplit
  refine pathF_reverse hrot ?_
  intro y hy
  refine hg y ?_
  have hsub : ∀ z, z ∈ x :: (l2 ++ l1) → z = h ∨ z ∈ t := by
    intro z hz
    have hzm : z ∈ h :: t := by
      rw [hsplit]
      rcases List.mem_cons.mp hz with rfl | hz2
      · exact List.mem_append.mpr (Or.inr (List.mem_cons_self z l2))
      · rcases List.mem_append.mp hz2 with hz3 | hz3
        · exact List.mem_append.mpr (Or.inr (List.mem_cons_of_mem x hz3))
        · exact List.mem_append.mpr (Or.inl hz3)
    exact List.mem_cons.mp hzm
  rcases hy with rfl | hy2
  · exact hsub y (List.mem_cons_self y _)
  · exact hsub y (List.mem_cons_of_mem x hy2)

theorem rotation_nodup {h x : Nat} {t l1 l2 : List Nat}
    (hnd : (h :: t).Nodup) (hsplit : h :: t = l1 ++ x :: l2) :
    (x :: (l2 ++ l1)).Nodup := by
  have h1 : (h :: t).Perm (x :: (l2 ++ l1)) := by
    rw [hsplit]
    refine List.Perm.trans List.perm_middle ?_
    exact List.Perm.cons x List.perm_append_comm
  exact h1.nodup hnd

theorem cellVert_linkRight (m : DL) (a b : Nat) :
    ∀ x, cellVert ((m.linkRight a b).cellAt x) = cellVert (m.cellAt x) := by
  intro x
  show cellVert (((m.setCell a _).setCell b _).cellAt x) = _
  have h2 : ∀ (mm : DL) (k : Nat) (c : MCell),
      cellVert c = cellVert (mm.cellAt k) →
      cellVert ((mm.setCell k c).cellAt x) = cellVert (mm.cellAt x) := by
    intro mm k c hc
    by_cases hxk : x = k
    · by_cases hkl : k < mm.cells.length
      · rw [hxk, DL.cellAt_setCell_self _ _ _ hkl]
        exact hc
      · rw [DL.setCell_oob _ (by omega) _]
    · rw [DL.cellAt_setCell_ne _ _ hxk]
  rw [h2 _ _ _ (by rfl)]
  rw [h2 _ _ _ (by rfl)]

theorem getD_nodup_ne {l : List Nat} (hnd : l.Nodup) {q1 q2 : Nat}
    (h1 : q1 < l.length) (h2 : q2 < l.length) (hne : q1 ≠ q2) :
    l.getD q1 0 ≠ l.getD q2 0 := by
  rw [List.getD_eq_getElem?_getD, List.getD_eq_getElem?_getD,
    List.getElem?_eq_getElem h1, List.getElem?_eq_getElem h2]
  simp only [Option.getD_some]
  intro hcon
  exact hne (hnd.getElem_inj_iff.mp hcon)

theorem colCells_linkRight (m : DL) (a b i : Nat) :
    colCells (m.linkRight a b) i = colCells m i :=
  colCells_congr (DL.linkRight_cells_length m a b) (fun j =>
    ⟨congrArg (fun p => p.2.2.2.2) (cellVert_linkRight m a b j),
     congrArg (fun p => p.2.2.1) (cellVert_linkRight m a b j)⟩)

theorem colCells_linkDown (m : DL) (a b i : Nat) :
    colCells (m.linkDown a b) i = colCells m i :=
  colCells_congr (DL.linkDown_cells_length m a b) (fun j =>
    ⟨congrArg (fun p => p.2.2.2.2) (cellHor_linkDown m a b j),
     congrArg (fun p => p.2.2.1) (cellHor_linkDown m a b j)⟩)

theorem colCells_setHeader (m : DL) (k : Nat) (c : MColumn) (i : Nat) :
    colCells (m.setHeader k c) i = colCells m i := rfl

theorem colCells_appendCell (m : DL) (c : MCell) (i : Nat) :
    colCells { m with cells := m.cells ++ [c] } i =
      colCells m i ++
        (if c.isData && (c.header == i) then [m.cells.length] else []) := by
  unfold colCells
  have hlen : ({ m with cells := m.cells ++ [c] } : DL).cells.length =
      m.cells.length + 1 := by simp
  rw [hlen, List.range_succ, List.filter_append]
  congr 1
  · apply List.filter_congr
    intro j hj
    rw [List.mem_range] at hj
    have h1 : ({ m with cells := m.cells ++ [c] } : DL).cellAt j =
        m.cellAt j := by
      show (m.cells ++ [c]).getD j defCell = m.cells.getD j defCell
      exact getD_append_lt _ _ _ _ hj
    rw [h1]
  · have h1 : ({ m with cells := m.cells ++ [c] } : DL).cellAt
        m.cells.length = c := by
      show (m.cells ++ [c]).getD m.cells.length defCell = c
      exact getD_concat_self _ _ _
    rw [List.filter_cons, h1]
    cases hc : c.isData && (c.header == i)
    · simp
    · simp

theorem pathF_cons_cycle {f f' : Nat → Nat} {h p : Nat} {L : List Nat}
    (hp : PathF f h L h) (hagree : ∀ x ∈ L, f' x = f x)
    (hstep1 : f' h = p) (hstep2 : f' p = f h) :
    PathF f' h (p :: L) h := by
  cases L with
  | nil =>
    refine ⟨hstep1, ?_⟩
    show f' p = h
    rw [hstep2]
    exact hp
  | cons l1 tail =>
    refine ⟨hstep1, ?_, ?_⟩
    · rw [hstep2]
      exact hp.1
    · refine pathF_congr hp.2 ?_
      intro x hx
      refine hagree x ?_
      rcases hx with hx1 | hx2
      · rw [hx1]
        exact List.mem_cons_self l1 tail
      · exact List.mem_cons_of_mem l1 hx2

theorem lastOf_seqList (a k : Nat) : lastOf a (seqList (a + 1) k) = a + k := by
  induction k with
  | zero => rfl
  | succ k ih =>
    rw [seqList_succ, lastOf_append_singleton]
    omega

/-- Mid-row invariant of `_add_sorted_row`'s loop: relative to the state
`m0` at the start of the row, with `t` the row number, `q0` the first new
cell key and `done` the already processed column ids. -/
structure MidRow (m0 : DL) (t q0 : Nat) (done : List Nat) (m : DL)
    (prev start : Option Nat) : Prop where
  len : m.cells.length = q0 + done.length
  hlen : m.headers.length = m0.headers.length
  hor : ∀ k, k < q0 → cellHor (m.cellAt k) = cellHor (m0.cellAt k)
  idx : ∀ j, j < m.cells.length → (m.cellAt j).index = j
  newRC : ∀ q, q < done.length →
    (m.cellAt (q0 + q)).row = CellRow.data t ∧
    (m.cellAt (q0 + q)).header = done.getD q 0
  ring : ∀ i, i < m.headers.length →
    PathF (downF m) i (colCells m i) i ∧
    PathF (upF m) i (colCells m i).reverse i
  sizes : ∀ i, i < m.headers.length →
    (m.headerAt i).size = (colCells m i).length
  chain : (done = [] ∧ prev = none ∧ start = none) ∨
    (done ≠ [] ∧ prev = some (q0 + (done.length - 1)) ∧ start = some q0 ∧
      LinkChain m q0 (seqList (q0 + 1) (done.length - 1)))

/-- One iteration of `_add_sorted_row`'s loop, as a state transformer. -/
def rowStep (t : Nat) (m : DL) (prev : Option Nat) (colIndex : Nat) : DL :=
  let newCell := m.cells.length
  let m1 : DL := { m with
    cells := m.cells ++
      [⟨newCell, newCell, newCell, newCell, newCell, colIndex,
        CellRow.data t⟩] }
  let m2 := match prev with
    | some p => m1.linkRight p newCell
    | none => m1
  let m3 := m2.setHeader colIndex
    { m2.headerAt colIndex with size := (m2.headerAt colIndex).size + 1 }
  let last := (m3.cellAt colIndex).up
  let m4 := m3.linkDown newCell colIndex
  m4.linkDown last newCell

theorem addSortedRowLoop_cons_eq {t colIndex : Nat} {rest : List Nat}
    {m : DL} {prev start : Option Nat}
    (hguard : colIndex < m.headers.length) :
    addSortedRowLoop t (colIndex :: rest) m prev start =
      addSortedRowLoop t rest (rowStep t m prev colIndex)
        (some m.cells.length)
        (match prev with | some _ => start | none => some m.cells.length) := by
  cases prev with
  | none =>
    show addSortedRowLoop t (colIndex :: rest) m none start = _
    simp only [addSortedRowLoop]
    rw [if_pos (by exact hguard)]
    rfl
  | some pv =>
    show addSortedRowLoop t (colIndex :: rest) m (some pv) start = _
    simp only [addSortedRowLoop]
    rw [if_pos (by exact hguard)]
    rfl

/-- Full pointwise description of one row-loop iteration. -/
theorem rowStep_facts {t : Nat} {m : DL} {prev : Option Nat} {colIndex : Nat}
    (hidb : colIndex < m.headers.length)
    (hhdrle : m.headers.length ≤ m.cells.length)
    (hLb : (m.cellAt colIndex).up < m.cells.length)
    (hpv : ∀ pv, prev = some pv → pv < m.cells.length ∧ pv ≠ colIndex ∧
      pv ≠ (m.cellAt colIndex).up) :
    (rowStep t m prev colIndex).cells.length = m.cells.length + 1 ∧
    (rowStep t m prev colIndex).headers.length = m.headers.length ∧
    (∀ i, colProj ((rowStep t m prev colIndex).headerAt i) =
      colProj (m.headerAt i)) ∧
    ((rowStep t m prev colIndex).headerAt colIndex).size =
      (m.headerAt colIndex).size + 1 ∧
    (∀ i, i ≠ colIndex →
      (rowStep t m prev colIndex).headerAt i = m.headerAt i) ∧
    (∀ x, x ≠ m.cells.length →
      ((rowStep t m prev colIndex).cellAt x).row = (m.cellAt x).row ∧
      ((rowStep t m prev colIndex).cellAt x).header = (m.cellAt x).header ∧
      ((rowStep t m prev colIndex).cellAt x).index = (m.cellAt x).index) ∧
    (((rowStep t m prev colIndex).cellAt m.cells.length).row =
        CellRow.data t ∧
      ((rowStep t m prev colIndex).cellAt m.cells.length).header = colIndex ∧
      ((rowStep t m prev colIndex).cellAt m.cells.length).index =
        m.cells.length ∧
      ((rowStep t m prev colIndex).cellAt m.cells.length).down = colIndex ∧
      ((rowStep t m prev colIndex).cellAt m.cells.length).up =
        (m.cellAt colIndex).up ∧
      ((rowStep t m prev colIndex).cellAt m.cells.length).right =
        m.cells.length) ∧
    (prev = none →
      ((rowStep t m prev colIndex).cellAt m.cells.length).left =
        m.cells.length) ∧
    (∀ pv, prev = some pv →
      ((rowStep t m prev colIndex).cellAt m.cells.length).left = pv) ∧
    (∀ x, x ≠ m.cells.length → x ≠ (m.cellAt colIndex).up →
      downF (rowStep t m prev colIndex) x = downF m x) ∧
    downF (rowStep t m prev colIndex) ((m.cellAt colIndex).up) =
      m.cells.length ∧
    (∀ x, x ≠ m.cells.length → x ≠ colIndex →
      upF (rowStep t m prev colIndex) x = upF m x) ∧
    upF (rowStep t m prev colIndex) colIndex = m.cells.length ∧
    (∀ x, x ≠ m.cells.length → (∀ pv, prev = some pv → x ≠ pv) →
      cellHor ((rowStep t m prev colIndex).cellAt x) =
        cellHor (m.cellAt x)) ∧
    (∀ pv, prev = some pv →
      ((rowStep t m prev colIndex).cellAt pv).right = m.cells.length ∧
      ((rowStep t m prev colIndex).cellAt pv).left = (m.cellAt pv).left) ∧
    (∀ x, x ≠ m.cells.length →
      ((rowStep t m prev colIndex).cellAt x).left = (m.cellAt x).left) ∧
    (∀ i, colCells (rowStep t m prev colIndex) i =
      colCells m i ++ (if i = colIndex then [m.cells.length] else [])) := by
  have hcb : colIndex < m.cells.length := lt_of_lt_of_le hidb hhdrle
  set p := m.cells.length with hpdef
  set newc : MCell := ⟨p, p, p, p, p, colIndex, CellRow.data t⟩ with hnewc
  set m1 : DL := { m with cells := m.cells ++ [newc] } with hm1
  set m2 := (match prev with
    | some pv => m1.linkRight pv p
    | none => m1) with hm2
  set m3 := m2.setHeader colIndex
    { m2.headerAt colIndex with
      size := (m2.headerAt colIndex).size + 1 } with hm3
  set last := (m3.cellAt colIndex).up with hlastdef
  set m4 := m3.linkDown p colIndex with hm4
  set m5 := m4.linkDown last p with hm5
  have hrs : rowStep t m prev colIndex = m5 := rfl
  rw [hrs]
  have hm1len : m1.cells.length = p + 1 := by
    rw [hm1]
    simp
  have hm1old : ∀ x, x < p → m1.cellAt x = m.cellAt x := by
    intro x hx
    show (m.cells ++ [newc]).getD x defCell = m.cells.getD x defCell
    exact getD_append_lt _ _ _ _ hx
  have hm1any : ∀ x, x ≠ p → m1.cellAt x = m.cellAt x := by
    intro x hx
    rcases Nat.lt_or_ge x p with hlt | hge
    · exact hm1old x hlt
    · show (m.cells ++ [newc]).getD x defCell = m.cells.getD x defCell
      rw [List.getD_eq_getElem?_getD, List.getD_eq_getElem?_getD]
      rw [List.getElem?_eq_none (by
          simp only [List.length_append, List.length_cons, List.length_nil]
          omega),
        List.getElem?_eq_none (by omega)]
  have hm1new : m1.cellAt p = newc := by
    show (m.cells ++ [newc]).getD m.cells.length defCell = newc
    exact getD_concat_self _ _ _
  -- case split facts about m2
  have hm2eq_none : prev = none → m2 = m1 := by
    intro hpe
    rw [hm2, hpe]
  have hm2eq_some : ∀ pv, prev = some pv → m2 = m1.linkRight pv p := by
    intro pv hpe
    rw [hm2, hpe]
  have hm2len : m2.cells.length = p + 1 := by
    cases hpe : prev with
    | none => rw [hm2eq_none hpe]; exact hm1len
    | some pv =>
      rw [hm2eq_some pv hpe, DL.linkRight_cells_length]
      exact hm1len
  have hm2hdrs : m2.headers = m.headers := by
    cases hpe : prev with
    | none => rw [hm2eq_none hpe]
    | some pv => rw [hm2eq_some pv hpe]; rfl
  have hm2vert : ∀ x, cellVert (m2.cellAt x) = cellVert (m1.cellAt x) := by
    intro x
    cases hpe : prev with
    | none => rw [hm2eq_none hpe]
    | some pv => rw [hm2eq_some pv hpe]; exact cellVert_linkRight m1 pv p x
  have hm2old : ∀ x, x ≠ p → (∀ pv, prev = some pv → x ≠ pv) →
      m2.cellAt x = m.cellAt x := by
    intro x hxp hxpv
    cases hpe : prev with
    | none => rw [hm2eq_none hpe]; exact hm1any x hxp
    | some pv =>
      rw [hm2eq_some pv hpe, DL.linkRight_cellAt_ne _ (hxpv pv hpe) hxp]
      exact hm1any x hxp
  have hm2p_none : prev = none → m2.cellAt p = newc := by
    intro hpe
    rw [hm2eq_none hpe]
    exact hm1new
  have hm2p_some : ∀ pv, prev = some pv →
      m2.cellAt p = { newc with left := pv } := by
    intro pv hpe
    obtain ⟨hpvb, -, -⟩ := hpv pv hpe
    rw [hm2eq_some pv hpe,
      DL.linkRight_cellAt_snd _ (by omega) (by rw [hm1len]; omega), hm1new]
  have hm2pgen : ∃ lv, m2.cellAt p = { newc with left := lv } := by
    cases hpe : prev with
    | none =>
      refine ⟨p, ?_⟩
      rw [hm2p_none hpe]
    | some pv => exact ⟨pv, hm2p_some pv hpe⟩
  have hm2pv : ∀ pv, prev = some pv →
      m2.cellAt pv = { m.cellAt pv with right := p } := by
    intro pv hpe
    obtain ⟨hpvb, -, -⟩ := hpv pv hpe
    rw [hm2eq_some pv hpe,
      DL.linkRight_cellAt_fst _ (by omega) (by rw [hm1len]; omega),
      hm1old pv hpvb]
  have hm2hdreq : ∀ i, m2.headerAt i = m.headerAt i := by
    intro i
    cases hpe : prev with
    | none => rw [hm2eq_none hpe]; rfl
    | some pv => rw [hm2eq_some pv hpe]; rfl
  have hm3cell : ∀ x, m3.cellAt x = m2.cellAt x := fun x => rfl
  have hm3hdrne : ∀ i, i ≠ colIndex → m3.headerAt i = m2.headerAt i := by
    intro i hi
    rw [hm3]
    exact DL.headerAt_setHeader_ne _ _ hi
  have hm3hdrc : m3.headerAt colIndex =
      { m2.headerAt colIndex with
        size := (m2.headerAt colIndex).size + 1 } := by
    rw [hm3]
    exact DL.headerAt_setHeader_self _ _ _ (by rw [hm2hdrs]; exact hidb)
  have hcne : ∀ pv, prev = some pv → colIndex ≠ pv := fun pv hpe =>
    fun hc => (hpv pv hpe).2.1 hc.symm
  have hmc : m2.cellAt colIndex = m.cellAt colIndex :=
    hm2old colIndex (by omega) hcne
  have hlastL : last = (m.cellAt colIndex).up := by
    rw [hlastdef, hm3cell, hmc]
  have hlastb : last < p := by
    rw [hlastL]
    exact hLb
  have hm4p : m4.cellAt p = { m3.cellAt p with down := colIndex } := by
    rw [hm4]
    exact DL.linkDown_cellAt_fst _ (by omega) (by
      show p < m2.cells.length
      rw [hm2len]
      omega)
  have hm4c : m4.cellAt colIndex = { m3.cellAt colIndex with up := p } := by
    rw [hm4]
    exact DL.linkDown_cellAt_snd _ (by omega) (by
      show colIndex < m2.cells.length
      rw [hm2len]
      omega)
  have hm4o : ∀ x, x ≠ p → x ≠ colIndex → m4.cellAt x = m3.cellAt x := by
    intro x hxp hxc
    rw [hm4]
    exact DL.linkDown_cellAt_ne _ hxp hxc
  have hm4len : m4.cells.length = p + 1 := by
    rw [hm4, DL.linkDown_cells_length]
    show m2.cells.length = p + 1
    exact hm2len
  have hm5l : m5.cellAt last = { m4.cellAt last with down := p } := by
    rw [hm5]
    exact DL.linkDown_cellAt_fst _ (by omega) (by rw [hm4len]; omega)
  have hm5p : m5.cellAt p = { m4.cellAt p with up := last } := by
    rw [hm5]
    exact DL.linkDown_cellAt_snd _ (by omega) (by rw [hm4len]; omega)
  have hm5o : ∀ x, x ≠ last → x ≠ p → m5.cellAt x = m4.cellAt x := by
    intro x hxl hxp
    rw [hm5]
    exact DL.linkDown_cellAt_ne _ hxl hxp
  have hm5len : m5.cells.length = p + 1 := by
    rw [hm5, DL.linkDown_cells_length]
    exact hm4len
  have hm5hdrne : ∀ i, i ≠ colIndex → m5.headerAt i = m.headerAt i := by
    intro i hi
    rw [hm5, DL.linkDown_headerAt, hm4, DL.linkDown_headerAt, hm3hdrne i hi]
    exact hm2hdreq i
  have hm5hdrc : m5.headerAt colIndex =
      { m2.headerAt colIndex with
        size := (m2.headerAt colIndex).size + 1 } := by
    rw [hm5, DL.linkDown_headerAt, hm4, DL.linkDown_headerAt]
    exact hm3hdrc
  have hm43rhi : ∀ x, x ≠ p →
      (m4.cellAt x).row = (m3.cellAt x).row ∧
      (m4.cellAt x).header = (m3.cellAt x).header ∧
      (m4.cellAt x).index = (m3.cellAt x).index := by
    intro x hxp
    by_cases hxc : x = colIndex
    · rw [hxc, hm4c]
      exact ⟨rfl, rfl, rfl⟩
    · rw [hm4o x hxp hxc]
      exact ⟨rfl, rfl, rfl⟩
  have hm54rhi : ∀ x, x ≠ p →
      (m5.cellAt x).row = (m4.cellAt x).row ∧
      (m5.cellAt x).header = (m4.cellAt x).header ∧
      (m5.cellAt x).index = (m4.cellAt x).index := by
    intro x hxp
    by_cases hxl : x = last
    · rw [hxl, hm5l]
      exact ⟨rfl, rfl, rfl⟩
    · rw [hm5o x hxl hxp]
      exact ⟨rfl, rfl, rfl⟩
  have hrhi : ∀ x, x ≠ p →
      (m5.cellAt x).row = (m.cellAt x).row ∧
      (m5.cellAt x).header = (m.cellAt x).header ∧
      (m5.cellAt x).index = (m.cellAt x).index := by
    intro x hxp
    obtain ⟨h54r, h54h, h54i⟩ := hm54rhi x hxp
    obtain ⟨h43r, h43h, h43i⟩ := hm43rhi x hxp
    have h21r := congrArg (fun q => q.2.2.2.2) (hm2vert x)
    have h21h := congrArg (fun q => q.2.2.1) (hm2vert x)
    have h21i := congrArg (fun q => q.2.2.2.1) (hm2vert x)
    simp only [cellVert] at h21r h21h h21i
    have h10 := hm1any x hxp
    refine ⟨?_, ?_, ?_⟩
    · rw [h54r, h43r, hm3cell, h21r, h10]
    · rw [h54h, h43h, hm3cell, h21h, h10]
    · rw [h54i, h43i, hm3cell, h21i, h10]
  have hm5pfull : ∀ lv, m2.cellAt p = { newc with left := lv } →
      m5.cellAt p =
        { index := p, up := last, down := colIndex, left := lv, right := p,
          header := colIndex, row := CellRow.data t } := by
    intro lv hlv
    rw [hm5p, hm4p, hm3cell, hlv]
  obtain ⟨lv0, hlv0⟩ := hm2pgen
  refine ⟨hm5len, ?_, ?_, ?_, hm5hdrne, ?_, ?_, ?_, ?_, ?_, ?_, ?_, ?_, ?_,
    ?_, ?_, ?_⟩
  · rw [hm5, DL.linkDown_headers, hm4, DL.linkDown_headers, hm3,
      DL.headers_length_setHeader]
    show m2.headers.length = _
    rw [hm2hdrs]
  · intro i
    by_cases hi : i = colIndex
    · rw [hi, hm5hdrc, hm2hdreq]
      rfl
    · rw [hm5hdrne i hi]
  · rw [hm5hdrc, hm2hdreq]
  · exact fun x hx => hrhi x hx
  · rw [hm5pfull lv0 hlv0]
    refine ⟨rfl, rfl, rfl, rfl, ?_, rfl⟩
    rw [← hlastL]
  · intro hpe
    rw [hm5pfull p (hm2p_none hpe)]
  · intro pv hpe
    rw [hm5pfull pv (hm2p_some pv hpe)]
  · intro x hxp hxL
    have hxl : x ≠ last := by rw [hlastL]; exact hxL
    show (m5.cellAt x).down = (m.cellAt x).down
    rw [hm5o x hxl hxp]
    by_cases hxc : x = colIndex
    · rw [hxc, hm4c]
      show (m3.cellAt colIndex).down = _
      rw [hm3cell, hmc]
    · rw [hm4o x hxp hxc, hm3cell]
      have h21 := congrArg (fun q => q.2.1) (hm2vert x)
      simp only [cellVert] at h21
      rw [h21, hm1any x hxp]
  · show (m5.cellAt _).down = p
    rw [← hlastL, hm5l]
  · intro x hxp hxc
    show (m5.cellAt x).up = (m.cellAt x).up
    by_cases hxl : x = last
    · rw [hxl, hm5l]
      show (m4.cellAt last).up = (m.cellAt last).up
      have hlc : last ≠ colIndex := by
        intro hc
        rw [hc] at hxl
        exact hxc hxl
      rw [hm4o last (by omega) hlc, hm3cell]
      have h21 := congrArg (fun q => q.1) (hm2vert last)
      simp only [cellVert] at h21
      rw [h21, hm1any last (by omega)]
    · rw [hm5o x hxl hxp, hm4o x hxp hxc, hm3cell]
      have h21 := congrArg (fun q => q.1) (hm2vert x)
      simp only [cellVert] at h21
      rw [h21, hm1any x hxp]
  · show (m5.cellAt colIndex).up = p
    by_cases hcl : colIndex = last
    · rw [hcl, hm5l]
      show (m4.cellAt last).up = p
      rw [← hcl, hm4c]
    · rw [hm5o colIndex hcl (by omega), hm4c]
  · intro x hxp hxpv
    have h54 : cellHor (m5.cellAt x) = cellHor (m4.cellAt x) := by
      rw [hm5, cellHor_linkDown]
    have h43 : cellHor (m4.cellAt x) = cellHor (m3.cellAt x) := by
      rw [hm4, cellHor_linkDown]
    rw [h54, h43, hm3cell, hm2old x hxp hxpv]
  · intro pv hpe
    obtain ⟨hpvb, hpvc, hpvl⟩ := hpv pv hpe
    have hpvlast : pv ≠ last := by rw [hlastL]; exact hpvl
    have hpvp : pv ≠ p := by omega
    rw [hm5o pv hpvlast hpvp, hm4o pv hpvp hpvc, hm3cell, hm2pv pv hpe]
    exact ⟨rfl, rfl⟩
  · intro x hxp
    by_cases hxl : x = last
    · rw [hxl, hm5l]
      show (m4.cellAt last).left = (m.cellAt last).left
      by_cases hcl : last = colIndex
      · rw [hcl, hm4c]
        show (m3.cellAt colIndex).left = _
        rw [hm3cell, hmc]
      · rw [hm4o last (by omega) hcl, hm3cell]
        have hlpv : ∀ pv, prev = some pv → last ≠ pv := by
          intro pv hpe hc
          have h1 := (hpv pv hpe).2.2
          rw [hlastL] at hc
          exact h1 hc.symm
        rw [hm2old last (by omega) hlpv]
    · rw [hm5o x hxl hxp]
      by_cases hxc : x = colIndex
      · rw [hxc, hm4c]
        show (m3.cellAt colIndex).left = _
        rw [hm3cell, hmc]
      · rw [hm4o x hxp hxc, hm3cell]
        by_cases hxpv : ∀ pv, prev = some pv → x ≠ pv
        · rw [hm2old x hxp hxpv]
        · push_neg at hxpv
          obtain ⟨pv, hpe, hpveq⟩ := hxpv
          rw [hpveq, hm2pv pv hpe]
  · intro i
    have h5 : colCells m5 i = colCells m2 i := by
      rw [hm5, colCells_linkDown, hm4, colCells_linkDown, hm3,
        colCells_setHeader]
    have h2 : colCells m2 i = colCells m1 i := by
      cases hpe : prev with
      | none => rw [hm2eq_none hpe]
      | some pv =>
        rw [hm2eq_some pv hpe]
        exact colCells_linkRight m1 pv p i
    have h1 : colCells m1 i = colCells m i ++
        (if newc.isData && (newc.header == i) then [p] else []) := by
      rw [hm1]
      exact colCells_appendCell m newc i
    rw [h5, h2, h1]
    congr 1
    by_cases hi : i = colIndex
    · rw [hi]
      rw [if_pos rfl, if_pos (by rw [hnewc]; simp [MCell.isData])]
    · rw [if_neg hi, if_neg (by
        rw [hnewc]
        simp [MCell.isData]
        intro hc
        exact hi hc.symm)]

theorem getD_mem_of_lt {l : List Nat} {q : Nat} (h : q < l.length) :
    l.getD q 0 ∈ l := by
  rw [List.getD_eq_getElem?_getD, List.getElem?_eq_getElem h]
  simp only [Option.getD_some]
  exact List.getElem_mem h

theorem MCell.isData_of_header {c : MCell} (h : c.row = CellRow.header) :
    c.isData = false := by
  simp only [MCell.isData, h]

/-- The row loop invariant advances across one processed column id. -/
theorem midRow_step {m0 : DL} {t q0 : Nat} {done : List Nat} {m : DL}
    {prev start : Option Nat} {colIndex : Nat}
    (hlenle0 : m0.headers.length ≤ q0)
    (hhdr0 : ∀ i, i < m0.headers.length →
      (m0.cellAt i).row = CellRow.header)
    (mid : MidRow m0 t q0 done m prev start)
    (hidb : colIndex < m.headers.length)
    (hnotin : colIndex ∉ done)
    (start2 : Option Nat)
    (hs2n : prev = none → start2 = some m.cells.length)
    (hs2s : ∀ pv, prev = some pv → start2 = start) :
    MidRow m0 t q0 (done ++ [colIndex]) (rowStep t m prev colIndex)
      (some m.cells.length) start2 := by
  have hhdrle : m.headers.length ≤ m.cells.length := by
    rw [mid.hlen, mid.len]
    omega
  have hrowHdr : ∀ i, i < m.headers.length →
      (m.cellAt i).row = CellRow.header := by
    intro i hi
    have hi0 : i < m0.headers.length := by rw [← mid.hlen]; exact hi
    have h1 := mid.hor i (lt_of_lt_of_le hi0 hlenle0)
    have h2 := congrArg (fun z => z.2.2.2.2) h1
    simp only [cellHor] at h2
    rw [h2]
    exact hhdr0 i hi0
  have hDataNeHdr : ∀ x i, (m.cellAt x).isData = true →
      i < m.headers.length → x ≠ i := by
    intro x i hx hi hc
    rw [hc, MCell.isData_of_header (hrowHdr i hi)] at hx
    cases hx
  have hcb : colIndex < m.cells.length := lt_of_lt_of_le hidb hhdrle
  have hcnotD : colIndex ∉ colCells m colIndex := by
    intro hmem
    exact hDataNeHdr colIndex colIndex (colCells_mem.mp hmem).2.1 hidb rfl
  have hndD : (colIndex :: colCells m colIndex).Nodup :=
    List.nodup_cons.mpr ⟨hcnotD, colCells_nodup m colIndex⟩
  have huval : (m.cellAt colIndex).up =
      lastOf colIndex (colCells m colIndex) :=
    lastOf_of_reverse_path (mid.ring colIndex hidb).2
  have humem : (m.cellAt colIndex).up = colIndex ∨
      (m.cellAt colIndex).up ∈ colCells m colIndex := by
    cases hD : colCells m colIndex with
    | nil =>
      left
      rw [huval, hD]
      rfl
    | cons b rest =>
      right
      rw [huval, hD]
      exact lastOf_mem (b :: rest) colIndex (by simp)
  have hLb : (m.cellAt colIndex).up < m.cells.length := by
    rcases humem with h1 | h1
    · rw [h1]; exact hcb
    · exact (colCells_mem.mp h1).1
  have hpvge : ∀ pv, prev = some pv → q0 ≤ pv := by
    intro pv hpe
    rcases mid.chain with ⟨hd0, hp0, hs0⟩ | ⟨hdne, hpeq, hseq, hch⟩
    · rw [hp0] at hpe
      exact Option.noConfusion hpe
    · rw [hpeq] at hpe
      have h2 := Option.some.inj hpe
      omega
  have hpv : ∀ pv, prev = some pv → pv < m.cells.length ∧ pv ≠ colIndex ∧
      pv ≠ (m.cellAt colIndex).up := by
    intro pv hpe
    rcases mid.chain with ⟨hd0, hp0, hs0⟩ | ⟨hdne, hpeq, hseq, hch⟩
    · rw [hp0] at hpe
      exact Option.noConfusion hpe
    · rw [hpeq] at hpe
      have hpveq : q0 + (done.length - 1) = pv := Option.some.inj hpe
      have hdl : 1 ≤ done.length := List.length_pos.mpr hdne
      have hcq0 : colIndex < q0 := by
        have h4 : colIndex < m0.headers.length := by
          rw [← mid.hlen]
          exact hidb
        omega
      refine ⟨by rw [mid.len]; omega, by omega, ?_⟩
      have hhdrpv : (m.cellAt pv).header = done.getD (done.length - 1) 0 := by
        rw [← hpveq]
        exact (mid.newRC (done.length - 1) (by omega)).2
      rcases humem with h1 | h1
      · rw [h1]; omega
      · intro hc
        have h2 := (colCells_mem.mp h1).2.2
        rw [← hc, hhdrpv] at h2
        have h3 : done.getD (done.length - 1) 0 ∈ done :=
          getD_mem_of_lt (by omega)
        rw [h2] at h3
        exact hnotin h3
  obtain ⟨f1, f2, f3, f4, f5, f6, f7, f8, f9, f10, f11, f12, f13, f14, f15,
    f16, f17⟩ := rowStep_facts (t := t) hidb hhdrle hLb hpv
  obtain ⟨f7r, f7h, f7i, f7d, f7u, f7rt⟩ := f7
  refine ⟨?_, ?_, ?_, ?_, ?_, ?_, ?_, ?_⟩
  · rw [f1, mid.len]
    simp only [List.length_append, List.length_cons, List.length_nil]
    omega
  · rw [f2, mid.hlen]
  · intro k hk
    have hkp : k ≠ m.cells.length := by
      rw [mid.len]
      omega
    have hkpv : ∀ pw, prev = some pw → k ≠ pw := by
      intro pw hpw
      have := hpvge pw hpw
      omega
    rw [f14 k hkp hkpv]
    exact mid.hor k hk
  · intro j hj
    rw [f1] at hj
    rcases Nat.lt_or_ge j m.cells.length with hlt | hge
    · rw [(f6 j (by omega)).2.2]
      exact mid.idx j hlt
    · have hje : j = m.cells.length := by omega
      rw [hje, f7i]
  · intro q hq
    have hlq : (done ++ [colIndex]).length = done.length + 1 := by simp
    rw [hlq] at hq
    rcases Nat.lt_or_ge q done.length with hlt | hge
    · have hne : q0 + q ≠ m.cells.length := by
        rw [mid.len]
        omega
      have h6 := f6 (q0 + q) hne
      refine ⟨?_, ?_⟩
      · rw [h6.1]
        exact (mid.newRC q hlt).1
      · rw [h6.2.1, (mid.newRC q hlt).2]
        exact (getD_append_lt done [colIndex] 0 q hlt).symm
    · have hqe : q = done.length := by omega
      have hpe : q0 + q = m.cells.length := by
        rw [mid.len]
        omega
      rw [hpe, hqe]
      refine ⟨f7r, ?_⟩
      rw [f7h]
      exact (getD_concat_self done 0 colIndex).symm
  · intro i hi
    rw [f2] at hi
    rw [f17 i]
    by_cases hic : i = colIndex
    · rw [if_pos hic, hic]
      constructor
      · refine pathF_snoc_cycle (mid.ring colIndex hidb).1 hndD huval ?_
          f11 f7d
        intro x hx hxu
        refine f10 x ?_ hxu
        rcases List.mem_cons.mp hx with hxe | hx2
        · omega
        · have := (colCells_mem.mp hx2).1
          omega
      · have h1 : (colCells m colIndex ++ [m.cells.length]).reverse =
            m.cells.length :: (colCells m colIndex).reverse := by simp
        rw [h1]
        refine pathF_cons_cycle (mid.ring colIndex hidb).2 ?_ f13 f7u
        intro x hx
        rw [List.mem_reverse] at hx
        obtain ⟨hxb, hxd, hxh⟩ := colCells_mem.mp hx
        exact f12 x (by omega) (hDataNeHdr x colIndex hxd hidb)
    · rw [if_neg hic, List.append_nil]
      constructor
      · refine pathF_congr (mid.ring i hi).1 ?_
        intro x hx
        have hib : i < m.cells.length := lt_of_lt_of_le hi hhdrle
        refine f10 x ?_ ?_
        · rcases hx with hxe | hx2
          · omega
          · have := (colCells_mem.mp hx2).1
            omega
        · rcases humem with h1 | h1
          · rw [h1]
            rcases hx with hxe | hx2
            · omega
            · exact hDataNeHdr x colIndex (colCells_mem.mp hx2).2.1 hidb
          · obtain ⟨hub, hud, huh⟩ := colCells_mem.mp h1
            rcases hx with hxe | hx2
            · have h4 := (hDataNeHdr _ i hud hi).symm
              omega
            · intro hc
              have h2 := (colCells_mem.mp hx2).2.2
              rw [hc, huh] at h2
              exact hic h2.symm
      · refine pathF_congr (mid.ring i hi).2 ?_
        intro x hx
        have hib : i < m.cells.length := lt_of_lt_of_le hi hhdrle
        have hx2 : x = i ∨ x ∈ colCells m i := by
          rcases hx with hxe | hx3
          · exact Or.inl hxe
          · exact Or.inr (List.mem_reverse.mp hx3)
        refine f12 x ?_ ?_
        · rcases hx2 with hxe | hx3
          · omega
          · have := (colCells_mem.mp hx3).1
            omega
        · rcases hx2 with hxe | hx3
          · omega
          · exact hDataNeHdr x colIndex (colCells_mem.mp hx3).2.1 hidb
  · intro i hi
    rw [f2] at hi
    rw [f17 i]
    by_cases hic : i = colIndex
    · rw [if_pos hic, hic, f4, mid.sizes colIndex hidb]
      simp
    · rw [if_neg hic, List.append_nil, f5 i hic]
      exact mid.sizes i hi
  · right
    have hl1 : (done ++ [colIndex]).length - 1 = done.length := by simp
    refine ⟨by simp, ?_, ?_, ?_⟩
    · rw [hl1, mid.len]
    · rcases mid.chain with ⟨hd0, hp0, hs0⟩ | ⟨hdne, hpeq, hseq, hch⟩
      · rw [hs2n hp0, mid.len, hd0]
        simp
      · rw [hs2s _ hpeq]
        exact hseq
    · rw [hl1]
      rcases mid.chain with ⟨hd0, hp0, hs0⟩ | ⟨hdne, hpeq, hseq, hch⟩
      · rw [hd0]
        trivial
      · have hdl : 1 ≤ done.length := List.length_pos.mpr hdne
        have hstep : done.length = (done.length - 1) + 1 := by omega
        rw [hstep, seqList_succ]
        have hlast0 : q0 + 1 + (done.length - 1) = m.cells.length := by
          rw [mid.len]
          omega
        rw [hlast0]
        have hr1 := (f15 _ hpeq).1
        have hl2 := f9 _ hpeq
        refine linkChain_append (seqList (q0 + 1) (done.length - 1)) q0 hch
          ?_ (seqList_nodup _ _) ?_ ?_ ?_ ?_
        · intro hmem
          rw [mem_seqList] at hmem
          omega
        · rw [lastOf_seqList]
          exact hr1
        · rw [lastOf_seqList]
          exact hl2
        · intro x hx hxne
          rw [lastOf_seqList] at hxne
          have hxb : x ≠ m.cells.length := by
            rcases List.mem_cons.mp hx with rfl | hx2
            · rw [mid.len]
              omega
            · rw [mem_seqList] at hx2
              rw [mid.len]
              omega
          have hxpv : ∀ pw, prev = some pw → x ≠ pw := by
            intro pw hpw
            rw [hpeq] at hpw
            have h2 := Option.some.inj hpw
            omega
          have h14 := f14 x hxb hxpv
          have h15 := congrArg (fun z => z.2.1) h14
          simpa [cellHor] using h15
        · intro x hx
          rw [mem_seqList] at hx
          exact f16 x (by rw [mid.len]; omega)

/-- Running the row loop from a mid-row state: it succeeds, returns the
last and first new cell keys, and the invariant holds for the whole row. -/
theorem addSortedRowLoop_mid {m0 : DL} {t q0 : Nat}
    (hlenle0 : m0.headers.length ≤ q0)
    (hhdr0 : ∀ i, i < m0.headers.length →
      (m0.cellAt i).row = CellRow.header) :
    ∀ (ids done : List Nat) (m : DL) (prev start : Option Nat),
      MidRow m0 t q0 done m prev start →
      (done ++ ids).Nodup →
      (∀ i ∈ ids, i < m0.headers.length) →
      (done = [] → ids ≠ []) →
      ∃ mf, addSortedRowLoop t ids m prev start =
          some (mf, q0 + (done.length + ids.length - 1), q0) ∧
        MidRow m0 t q0 (done ++ ids) mf
          (some (q0 + (done.length + ids.length - 1))) (some q0) := by
  intro ids
  induction ids with
  | nil =>
    intro done m prev start mid hnd hids hne
    rcases mid.chain with ⟨hd0, hp0, hs0⟩ | ⟨hdne, hpeq, hseq, hch⟩
    · exact absurd rfl (hne hd0)
    · refine ⟨m, ?_, ?_⟩
      · simp only [addSortedRowLoop, hpeq, hseq, List.length_nil,
          Nat.add_zero]
      · rw [List.append_nil]
        simp only [List.length_nil, Nat.add_zero]
        rw [← hpeq, ← hseq]
        exact mid
  | cons c rest ih =>
    intro done m prev start mid hnd hids hne
    have hguard : c < m.headers.length := by
      rw [mid.hlen]
      exact hids c (List.mem_cons_self c rest)
    have hnotin : c ∉ done := by
      rcases List.nodup_append.mp hnd with ⟨hnd1, hnd2, hdisj⟩
      intro hc
      exact hdisj hc (List.mem_cons_self c rest)
    have hnd' : ((done ++ [c]) ++ rest).Nodup := by
      rw [List.append_assoc, List.singleton_append]
      exact hnd
    have hids' : ∀ i ∈ rest, i < m0.headers.length := fun i hi =>
      hids i (List.mem_cons_of_mem c hi)
    have hne' : done ++ [c] = [] → rest ≠ [] := by
      intro hcon
      exact absurd hcon (by simp)
    have hl : (done ++ [c]).length + rest.length - 1 =
        done.length + (c :: rest).length - 1 := by
      simp only [List.length_append, List.length_cons, List.length_nil]
      omega
    cases prev with
    | none =>
      have mid' := midRow_step hlenle0 hhdr0 mid hguard hnotin
        (some m.cells.length) (fun _ => rfl) (fun pv h => nomatch h)
      obtain ⟨mf, heq, hmidf⟩ := ih (done ++ [c]) (rowStep t m none c)
        (some m.cells.length) (some m.cells.length) mid' hnd' hids' hne'
      refine ⟨mf, ?_, ?_⟩
      · rw [addSortedRowLoop_cons_eq hguard]
        exact heq.trans (by rw [hl])
      · rw [List.append_assoc, List.singleton_append, hl] at hmidf
        exact hmidf
    | some pv =>
      have mid' := midRow_step hlenle0 hhdr0 mid hguard hnotin
        start (fun h => nomatch h) (fun pw _ => rfl)
      obtain ⟨mf, heq, hmidf⟩ := ih (done ++ [c]) (rowStep t m (some pv) c)
        (some m.cells.length) start mid' hnd' hids' hne'
      refine ⟨mf, ?_, ?_⟩
      · rw [addSortedRowLoop_cons_eq hguard]
        exact heq.trans (by rw [hl])
      · rw [List.append_assoc, List.singleton_append, hl] at hmidf
        exact hmidf

theorem seqList_cons (a k : Nat) (h : 0 < k) :
    seqList a k = a :: seqList (a + 1) (k - 1) := by
  cases k with
  | zero => omega
  | succ k2 =>
    show seqList a (k2 + 1) = a :: seqList (a + 1) k2
    unfold seqList
    rw [List.range_succ_eq_map, List.map_cons, List.map_map]
    congr 1
    apply List.map_congr_left
    intro x _
    simp only [Function.comp]
    omega

theorem seqList_split (q : Nat) : ∀ (a k : Nat), q < k →
    seqList a k = seqList a q ++ (a + q) :: seqList (a + q + 1) (k - q - 1) := by
  induction q with
  | zero =>
    intro a k hk
    rw [seqList_cons a k hk]
    simp [seqList_zero]
  | succ q ih =>
    intro a k hk
    rw [seqList_cons a k (by omega), seqList_cons a (q + 1) (by omega),
      List.cons_append]
    congr 1
    rw [ih (a + 1) (k - 1) (by omega)]
    have e1 : a + 1 + q = a + (q + 1) := by omega
    have e3 : k - 1 - q - 1 = k - (q + 1) - 1 := by omega
    rw [e1, e3]
    rfl

theorem colCells_nil {m : DL} (h : ∀ j, j < m.cells.length →
    (m.cellAt j).isData = false) (i : Nat) : colCells m i = [] := by
  unfold colCells
  rw [List.filter_eq_nil_iff]
  intro j hj
  rw [List.mem_range] at hj
  simp [h j hj]

/-- The invariant of the row phase: everything `add_sorted_row_index` needs
from the current state and everything it re-establishes, for any number of
already added rows. -/
structure RowsPhase (m : DL) : Prop where
  hlenle : m.headers.length ≤ m.cells.length
  hdrRow : ∀ i, i < m.headers.length → (m.cellAt i).row = CellRow.header
  hdrcell : ∀ i, i < m.headers.length → (m.headerAt i).cell = i
  idx : ∀ j, j < m.cells.length → (m.cellAt j).index = j
  hdrBound : ∀ j, j < m.cells.length → (m.cellAt j).header < m.headers.length
  hdrHorBound : ∀ i, i < m.headers.length →
    (m.cellAt i).right < m.headers.length ∧
    (m.cellAt i).left < m.headers.length
  hdrBacklink : ∀ i, i < m.headers.length →
    (m.cellAt ((m.cellAt i).right)).left = i ∧
    (m.cellAt ((m.cellAt i).left)).right = i
  ring : ∀ i, i < m.headers.length →
    PathF (downF m) i (colCells m i) i ∧
    PathF (upF m) i (colCells m i).reverse i
  sizes : ∀ i, i < m.headers.length →
    (m.headerAt i).size = (colCells m i).length
  rowBound : ∀ j, j < m.cells.length → (m.cellAt j).isData = true →
    ∃ s, (m.cellAt j).row = CellRow.data s ∧ s ≤ m.rows
  rowRing : ∀ j, j < m.cells.length → (m.cellAt j).isData = true →
    ∃ R, PathF (rightF m) j R j ∧ PathF (leftF m) j R.reverse j ∧
      (j :: R).Nodup ∧
      ∀ k, k ∈ R → k < m.cells.length ∧
        (m.cellAt k).row = (m.cellAt j).row ∧
        (m.cellAt k).header ≠ (m.cellAt j).header ∧
        (m.cellAt k).isData = true
  rowColUnique : ∀ j k, j < m.cells.length → k < m.cells.length →
    (m.cellAt j).isData = true → (m.cellAt k).isData = true →
    (m.cellAt j).row = (m.cellAt k).row →
    (m.cellAt j).header = (m.cellAt k).header → j = k

/-- The column phase establishes the row-phase invariant. -/
theorem endColumnsCore_rowsPhase (specs : List ColumnSpec) :
    RowsPhase (endColumnsCore specs) := by
  have h := endColumnsCore_colPhase specs
  set m := endColumnsCore specs with hm
  have hhl : m.headers.length = specs.length + 1 := h.hdrLen
  have hcl : m.cells.length = specs.length + 1 := h.cellLen
  have hnoData : ∀ j, j < m.cells.length → (m.cellAt j).isData = false := by
    intro j hj
    exact MCell.isData_of_header (h.cellIdx j (by omega)).2.2
  have hnil := colCells_nil hnoData
  have hprim : ∀ x ∈ primIndices specs, x < m.headers.length := by
    intro x hx
    have := primIndices_pos x hx
    omega
  refine ⟨by omega, ?_, ?_, ?_, ?_, ?_, ?_, ?_, ?_, ?_, ?_, ?_⟩
  · intro i hi
    exact (h.cellIdx i (by omega)).2.2
  · intro i hi
    rw [h.hdr i (by omega)]
  · intro j hj
    exact (h.cellIdx j (by omega)).1
  · intro j hj
    rw [(h.cellIdx j (by omega)).2.1]
    omega
  · intro i hi
    by_cases hmem : i ∈ (0 : Nat) :: primIndices specs
    · constructor
      · have h1 := pathF_values h.ringR i (by
          rcases List.mem_cons.mp hmem with h2 | h2
          · exact Or.inl h2
          · exact Or.inr h2)
        rcases h1 with h2 | h2
        · exact hprim _ h2
        · have h3 : (m.cellAt i).right = 0 := h2
          rw [h3]
          omega
      · have h1 := pathF_values h.ringL i (by
          rcases List.mem_cons.mp hmem with h2 | h2
          · exact Or.inl h2
          · exact Or.inr (List.mem_reverse.mpr h2))
        rcases h1 with h2 | h2
        · exact hprim _ (List.mem_reverse.mp h2)
        · have h3 : (m.cellAt i).left = 0 := h2
          rw [h3]
          omega
    · obtain ⟨hl, hr⟩ := h.secSelf i (by omega) hmem
      rw [hl, hr]
      exact ⟨hi, hi⟩
  · intro i hi
    by_cases hmem : i ∈ (0 : Nat) :: primIndices specs
    · have hsub : i = 0 ∨ i ∈ primIndices specs := List.mem_cons.mp hmem
      constructor
      · exact pathF_cycle_backlink h.ringR h.ringL i hsub
      · have hrr : PathF (rightF m) 0
            ((primIndices specs).reverse).reverse 0 := by
          rw [List.reverse_reverse]
          exact h.ringR
        refine pathF_cycle_backlink h.ringL hrr i ?_
        rcases hsub with h2 | h2
        · exact Or.inl h2
        · exact Or.inr (List.mem_reverse.mpr h2)
    · obtain ⟨hl, hr⟩ := h.secSelf i (by omega) hmem
      rw [hl, hr, hl]
      exact ⟨rfl, rfl⟩
  · intro i hi
    rw [hnil i]
    obtain ⟨hu, hd⟩ := h.cellVert i (by omega)
    constructor
    · exact hd
    · exact hu
  · intro i hi
    rw [hnil i, h.hdr i (by omega)]
    rfl
  · intro j hj hdata
    rw [hnoData j hj] at hdata
    cases hdata
  · intro j hj hdata
    rw [hnoData j hj] at hdata
    cases hdata
  · intro j k hj _ hdata _ _ _
    rw [hnoData j hj] at hdata
    cases hdata

theorem MCell.isData_congr {c d : MCell} (h : c.row = d.row) :
    c.isData = d.isData := by
  unfold MCell.isData
  rw [h]

/-- `add_sorted_row_index` on a well-formed state with a valid nonempty
duplicate-free row succeeds and preserves the row-phase invariant. -/
theorem addSortedRowIds_rowsPhase {m : DL} (hrp : RowsPhase m)
    {ids : List Nat} (hne : ids ≠ []) (hnd : ids.Nodup)
    (hb : ∀ i ∈ ids, i < m.headers.length) :
    ∃ mr, addSortedRowIds m ids = some mr ∧ RowsPhase mr ∧
      mr.headers.length = m.headers.length ∧
      mr.rows = m.rows + 1 := by
  have hk1 : 1 ≤ ids.length := List.length_pos.mpr hne
  have base : MidRow m (m.rows + 1) m.cells.length [] m none none :=
    ⟨rfl, rfl, fun _ _ => rfl, hrp.idx,
      fun q hq => absurd hq (Nat.not_lt_zero q),
      hrp.ring, hrp.sizes, Or.inl ⟨rfl, rfl, rfl⟩⟩
  obtain ⟨mf, heq, hmidf⟩ := addSortedRowLoop_mid hrp.hlenle hrp.hdrRow
    ids [] m none none base hnd hb (fun _ => hne)
  simp only [List.nil_append, List.length_nil, Nat.zero_add] at heq hmidf
  have hmflen : mf.cells.length = m.cells.length + ids.length := hmidf.len
  have hmfhdr : mf.headers.length = m.headers.length := hmidf.hlen
  have pres := addSortedRowLoop_preserves ids m none none
    (mf, m.cells.length + (ids.length - 1), m.cells.length) heq
    (Nat.zero_le _) (fun p hp => nomatch hp) (fun s hs => nomatch hs)
  have hmfrows : mf.rows = m.rows := pres.1
  have hcolproj : ∀ i, colProj (mf.headerAt i) = colProj (m.headerAt i) :=
    pres.2.2.2.2.2.1
  set mr : DL := { mf.linkRight (m.cells.length + (ids.length - 1))
    m.cells.length with rows := mf.rows + 1 } with hmr
  have hvert : ∀ x, cellVert (mr.cellAt x) = cellVert (mf.cellAt x) :=
    fun x => cellVert_linkRight mf (m.cells.length + (ids.length - 1))
      m.cells.length x
  have hfar : ∀ x, x ≠ m.cells.length + (ids.length - 1) →
      x ≠ m.cells.length → mr.cellAt x = mf.cellAt x :=
    fun x h1 h2 => DL.linkRight_cellAt_ne mf h1 h2
  have hmrcl : mr.cells.length = m.cells.length + ids.length := by
    have h1 : mr.cells.length = mf.cells.length :=
      DL.linkRight_cells_length mf _ _
    rw [h1, hmflen]
  have hmrhl : mr.headers.length = m.headers.length := by
    have h1 : mr.headers.length = mf.headers.length := rfl
    rw [h1, hmfhdr]
  have hmrrows : mr.rows = m.rows + 1 := by
    show mf.rows + 1 = m.rows + 1
    rw [hmfrows]
  have hrlast : (mr.cellAt (m.cells.length + (ids.length - 1))).right =
      m.cells.length := by
    rcases Nat.lt_or_ge 1 ids.length with h2 | h2
    · have h3 := DL.linkRight_cellAt_fst mf
        (show m.cells.length + (ids.length - 1) ≠ m.cells.length by omega)
        (show m.cells.length + (ids.length - 1) < mf.cells.length by
          rw [hmflen]; omega)
      have h4 : mr.cellAt (m.cells.length + (ids.length - 1)) =
          { mf.cellAt (m.cells.length + (ids.length - 1)) with
            right := m.cells.length } := h3
      rw [h4]
    · have hL0 : m.cells.length + (ids.length - 1) = m.cells.length := by
        omega
      rw [hL0, hmr, hL0]
      have h3 := DL.linkRight_cellAt_self mf
        (show m.cells.length < mf.cells.length by rw [hmflen]; omega)
      show ((mf.linkRight m.cells.length m.cells.length).cellAt
        m.cells.length).right = m.cells.length
      rw [h3]
  have hL2 : (mr.cellAt m.cells.length).left =
      m.cells.length + (ids.length - 1) := by
    rcases Nat.lt_or_ge 1 ids.length with h2 | h2
    · have h3 := DL.linkRight_cellAt_snd mf
        (show m.cells.length + (ids.length - 1) ≠ m.cells.length by omega)
        (show m.cells.length < mf.cells.length by rw [hmflen]; omega)
      have h4 : mr.cellAt m.cells.length =
          { mf.cellAt m.cells.length with
            left := m.cells.length + (ids.length - 1) } := h3
      rw [h4]
    · have hL0 : m.cells.length + (ids.length - 1) = m.cells.length := by
        omega
      rw [hL0, hmr, hL0]
      have h3 := DL.linkRight_cellAt_self mf
        (show m.cells.length < mf.cells.length by rw [hmflen]; omega)
      show ((mf.linkRight m.cells.length m.cells.length).cellAt
        m.cells.length).left = m.cells.length
      rw [h3]
  have hR1 : ∀ x, x ≠ m.cells.length + (ids.length - 1) →
      (mr.cellAt x).right = (mf.cellAt x).right := by
    intro x hx
    by_cases hxq : x = m.cells.length
    · have hk2 : 1 < ids.length := by
        rcases Nat.lt_or_ge 1 ids.length with h2 | h2
        · exact h2
        · exfalso
          apply hx
          omega
      have h3 := DL.linkRight_cellAt_snd mf
        (show m.cells.length + (ids.length - 1) ≠ m.cells.length by omega)
        (show m.cells.length < mf.cells.length by rw [hmflen]; omega)
      have h4 : mr.cellAt x = { mf.cellAt m.cells.length with
          left := m.cells.length + (ids.length - 1) } := by
        rw [hxq]
        exact h3
      rw [h4, hxq]
    · rw [hfar x hx hxq]
  have hL1 : ∀ x, x ≠ m.cells.length →
      (mr.cellAt x).left = (mf.cellAt x).left := by
    intro x hx
    by_cases hxL : x = m.cells.length + (ids.length - 1)
    · have hk2 : 1 < ids.length := by
        rcases Nat.lt_or_ge 1 ids.length with h2 | h2
        · exact h2
        · exfalso
          apply hx
          omega
      have h3 := DL.linkRight_cellAt_fst mf
        (show m.cells.length + (ids.length - 1) ≠ m.cells.length by omega)
        (show m.cells.length + (ids.length - 1) < mf.cells.length by
          rw [hmflen]; omega)
      have h4 : mr.cellAt x =
          { mf.cellAt (m.cells.length + (ids.length - 1)) with
            right := m.cells.length } := by
        rw [hxL]
        exact h3
      rw [h4, hxL]
    · rw [hfar x hxL hx]
  have hor5 : ∀ x, x < m.cells.length →
      (mf.cellAt x).left = (m.cellAt x).left ∧
      (mf.cellAt x).right = (m.cellAt x).right ∧
      (mf.cellAt x).header = (m.cellAt x).header ∧
      (mf.cellAt x).index = (m.cellAt x).index ∧
      (mf.cellAt x).row = (m.cellAt x).row := by
    intro x hx
    have h1 := hmidf.hor x hx
    exact ⟨congrArg (fun z => z.1) h1, congrArg (fun z => z.2.1) h1,
      congrArg (fun z => z.2.2.1) h1, congrArg (fun z => z.2.2.2.1) h1,
      congrArg (fun z => z.2.2.2.2) h1⟩
  have hvert5 : ∀ x,
      (mr.cellAt x).up = (mf.cellAt x).up ∧
      (mr.cellAt x).down = (mf.cellAt x).down ∧
      (mr.cellAt x).header = (mf.cellAt x).header ∧
      (mr.cellAt x).index = (mf.cellAt x).index ∧
      (mr.cellAt x).row = (mf.cellAt x).row := by
    intro x
    have h1 := hvert x
    exact ⟨congrArg (fun z => z.1) h1, congrArg (fun z => z.2.1) h1,
      congrArg (fun z => z.2.2.1) h1, congrArg (fun z => z.2.2.2.1) h1,
      congrArg (fun z => z.2.2.2.2) h1⟩
  have hnewmr : ∀ q, q < ids.length →
      (mr.cellAt (m.cells.length + q)).row = CellRow.data (m.rows + 1) ∧
      (mr.cellAt (m.cells.length + q)).header = ids.getD q 0 := by
    intro q hq
    have h1 := hmidf.newRC q hq
    exact ⟨((hvert5 _).2.2.2.2).trans h1.1, ((hvert5 _).2.2.1).trans h1.2⟩
  have hcolcells : ∀ i, colCells mr i = colCells mf i :=
    fun i => colCells_linkRight mf _ _ i
  refine ⟨mr, ?_, ?_, hmrhl, hmrrows⟩
  · unfold addSortedRowIds
    rw [heq]
    rfl
  refine ⟨?_, ?_, ?_, ?_, ?_, ?_, ?_, ?_, ?_, ?_, ?_, ?_⟩
  · rw [hmrcl, hmrhl]
    have := hrp.hlenle
    omega
  · intro i hi
    rw [hmrhl] at hi
    have hiq : i < m.cells.length := lt_of_lt_of_le hi hrp.hlenle
    rw [(hvert5 i).2.2.2.2, (hor5 i hiq).2.2.2.2]
    exact hrp.hdrRow i hi
  · intro i hi
    rw [hmrhl] at hi
    have h1 : colProj (mr.headerAt i) = colProj (m.headerAt i) := hcolproj i
    have h2 := congrArg (fun z => z.2.2.1) h1
    simp only [colProj] at h2
    rw [h2]
    exact hrp.hdrcell i hi
  · intro j hj
    rw [(hvert5 j).2.2.2.1]
    refine hmidf.idx j ?_
    rw [hmrcl] at hj
    rw [hmflen]
    exact hj
  · intro j hj
    rw [hmrcl] at hj
    rw [hmrhl, (hvert5 j).2.2.1]
    rcases Nat.lt_or_ge j m.cells.length with h2 | h2
    · rw [(hor5 j h2).2.2.1]
      exact hrp.hdrBound j h2
    · have hq : j - m.cells.length < ids.length := by omega
      have h3 := (hmidf.newRC (j - m.cells.length) hq).2
      have h4 : m.cells.length + (j - m.cells.length) = j := by omega
      rw [h4] at h3
      rw [h3]
      exact hb _ (getD_mem_of_lt hq)
  · intro i hi
    rw [hmrhl] at hi
    have hiq : i < m.cells.length := lt_of_lt_of_le hi hrp.hlenle
    have hif : mr.cellAt i = mf.cellAt i := hfar i (by omega) (by omega)
    rw [hmrhl, hif, (hor5 i hiq).2.1, (hor5 i hiq).1]
    exact hrp.hdrHorBound i hi
  · intro i hi
    rw [hmrhl] at hi
    have hiq : i < m.cells.length := lt_of_lt_of_le hi hrp.hlenle
    have hif : mr.cellAt i = mf.cellAt i := hfar i (by omega) (by omega)
    obtain ⟨hbr, hbl⟩ := hrp.hdrBacklink i hi
    obtain ⟨hrb, hlb⟩ := hrp.hdrHorBound i hi
    constructor
    · have h2 : (mr.cellAt i).right = (m.cellAt i).right := by
        rw [hif, (hor5 i hiq).2.1]
      rw [h2]
      have hrq : (m.cellAt i).right < m.cells.length :=
        lt_of_lt_of_le hrb hrp.hlenle
      have h3 : mr.cellAt ((m.cellAt i).right) =
          mf.cellAt ((m.cellAt i).right) := hfar _ (by omega) (by omega)
      rw [h3, (hor5 _ hrq).1]
      exact hbr
    · have h2 : (mr.cellAt i).left = (m.cellAt i).left := by
        rw [hif, (hor5 i hiq).1]
      rw [h2]
      have hlq : (m.cellAt i).left < m.cells.length :=
        lt_of_lt_of_le hlb hrp.hlenle
      have h3 : mr.cellAt ((m.cellAt i).left) =
          mf.cellAt ((m.cellAt i).left) := hfar _ (by omega) (by omega)
      rw [h3, (hor5 _ hlq).2.1]
      exact hbl
  · intro i hi
    have hi2 : i < mf.headers.length := by
      rw [hmfhdr, ← hmrhl]
      exact hi
    rw [hcolcells i]
    obtain ⟨hd, hu⟩ := hmidf.ring i hi2
    constructor
    · refine pathF_congr hd ?_
      intro x _
      exact (hvert5 x).2.1
    · refine pathF_congr hu ?_
      intro x _
      exact (hvert5 x).1
  · intro i hi
    have hi2 : i < mf.headers.length := by
      rw [hmfhdr, ← hmrhl]
      exact hi
    rw [hcolcells i]
    have h1 : mr.headerAt i = mf.headerAt i := rfl
    rw [h1]
    exact hmidf.sizes i hi2
  · intro j hj hdata
    rw [hmrcl] at hj
    rcases Nat.lt_or_ge j m.cells.length with h2 | h2
    · have h4 : (mr.cellAt j).row = (m.cellAt j).row := by
        rw [(hvert5 j).2.2.2.2, (hor5 j h2).2.2.2.2]
      have h5 : (m.cellAt j).isData = true := by
        rw [← MCell.isData_congr h4]
        exact hdata
      obtain ⟨s, hs1, hs2⟩ := hrp.rowBound j h2 h5
      refine ⟨s, ?_, ?_⟩
      · rw [h4]
        exact hs1
      · rw [hmrrows]
        omega
    · refine ⟨m.rows + 1, ?_, hmrrows.ge⟩
      have hq : j - m.cells.length < ids.length := by omega
      have h3 := (hnewmr (j - m.cells.length) hq).1
      have h4 : m.cells.length + (j - m.cells.length) = j := by omega
      rw [h4] at h3
      exact h3
  · intro j hj hdata
    rw [hmrcl] at hj
    rcases Nat.lt_or_ge j m.cells.length with h2 | h2
    · have h4 : (mr.cellAt j).row = (m.cellAt j).row := by
        rw [(hvert5 j).2.2.2.2, (hor5 j h2).2.2.2.2]
      have h5 : (m.cellAt j).isData = true := by
        rw [← MCell.isData_congr h4]
        exact hdata
      obtain ⟨R, hp1, hp2, hp3, hp4⟩ := hrp.rowRing j h2 h5
      have hmem : ∀ x, x = j ∨ x ∈ R → x < m.cells.length := by
        intro x hx
        rcases hx with hxe | hx2
        · omega
        · exact (hp4 x hx2).1
      have hagreeR : ∀ x, x = j ∨ x ∈ R →
          (mr.cellAt x).right = (m.cellAt x).right := by
        intro x hx
        have hxb := hmem x hx
        have hif : mr.cellAt x = mf.cellAt x := hfar x (by omega) (by omega)
        rw [hif, (hor5 x hxb).2.1]
      have hagreeL : ∀ x, x = j ∨ x ∈ R →
          (mr.cellAt x).left = (m.cellAt x).left := by
        intro x hx
        have hxb := hmem x hx
        have hif : mr.cellAt x = mf.cellAt x := hfar x (by omega) (by omega)
        rw [hif, (hor5 x hxb).1]
      refine ⟨R, ?_, ?_, hp3, ?_⟩
      · exact pathF_congr hp1 (fun x hx => hagreeR x hx)
      · refine pathF_congr hp2 ?_
        intro x hx
        refine hagreeL x ?_
        rcases hx with hxe | hx2
        · exact Or.inl hxe
        · exact Or.inr (List.mem_reverse.mp hx2)
      · intro x hxR
        obtain ⟨hx1, hx2, hx3, hx4⟩ := hp4 x hxR
        have hrowx : (mr.cellAt x).row = (m.cellAt x).row := by
          rw [(hvert5 x).2.2.2.2, (hor5 x hx1).2.2.2.2]
        have hhdx : (mr.cellAt x).header = (m.cellAt x).header := by
          rw [(hvert5 x).2.2.1, (hor5 x hx1).2.2.1]
        have hhdj : (mr.cellAt j).header = (m.cellAt j).header := by
          rw [(hvert5 j).2.2.1, (hor5 j h2).2.2.1]
        refine ⟨?_, ?_, ?_, ?_⟩
        · rw [hmrcl]
          omega
        · rw [hrowx, h4]
          exact hx2
        · rw [hhdx, hhdj]
          exact hx3
        · rw [MCell.isData_congr hrowx]
          exact hx4
    · have hq : j - m.cells.length < ids.length := by omega
      have hjq : m.cells.length + (j - m.cells.length) = j := by omega
      have hchain : LinkChain mf m.cells.length
          (seqList (m.cells.length + 1) (ids.length - 1)) := by
        rcases hmidf.chain with ⟨hd0, -, -⟩ | ⟨-, -, -, hch⟩
        · exact absurd hd0 hne
        · exact hch
      have hq0notin : m.cells.length ∉
          seqList (m.cells.length + 1) (ids.length - 1) := by
        intro hcon
        rw [mem_seqList] at hcon
        omega
      have hlastOf : lastOf m.cells.length
          (seqList (m.cells.length + 1) (ids.length - 1)) =
          m.cells.length + (ids.length - 1) := lastOf_seqList _ _
      have hcycleR : PathF (rightF mr) m.cells.length
          (seqList (m.cells.length + 1) (ids.length - 1))
          m.cells.length := by
        refine linkChain_to_pathF _ _ hchain hq0notin (seqList_nodup _ _)
          ?_ ?_
        · intro x hx hxne
          rw [hlastOf] at hxne
          exact hR1 x hxne
        · rw [hlastOf]
          exact hrlast
      have hback : ∀ y, y = m.cells.length ∨
          y ∈ seqList (m.cells.length + 1) (ids.length - 1) →
          (mr.cellAt ((mr.cellAt y).right)).left = y := by
        intro y hy
        by_cases hyL : y = m.cells.length + (ids.length - 1)
        · rw [hyL, hrlast, hL2]
        · have hy' : y ∈ (m.cells.length : Nat) ::
              seqList (m.cells.length + 1) (ids.length - 1) := by
            rcases hy with hye | hy2
            · rw [hye]
              exact List.mem_cons_self _ _
            · exact List.mem_cons_of_mem _ hy2
          have hyne : y ≠ lastOf m.cells.length
              (seqList (m.cells.length + 1) (ids.length - 1)) := by
            rw [hlastOf]
            exact hyL
          have hsucc := linkChain_succ_mem _ _ hchain y hy' hyne
          have hrw : (mr.cellAt y).right = (mf.cellAt y).right :=
            hR1 y hyL
          rw [hrw]
          have hrnq : (mf.cellAt y).right ≠ m.cells.length := by
            intro hcon
            rw [hcon] at hsucc
            exact hq0notin hsucc
          have h6 : (mr.cellAt ((mf.cellAt y).right)).left =
              (mf.cellAt ((mf.cellAt y).right)).left := hL1 _ hrnq
          rw [h6]
          exact linkChain_inv _ _ hchain y hy' hyne
      have hCnd : ((m.cells.length : Nat) ::
          seqList (m.cells.length + 1) (ids.length - 1)).Nodup :=
        List.nodup_cons.mpr ⟨hq0notin, seqList_nodup _ _⟩
      have hsplit2 : (m.cells.length : Nat) ::
          seqList (m.cells.length + 1) (ids.length - 1) =
          seqList m.cells.length (j - m.cells.length) ++ j ::
            seqList (j + 1) (ids.length - (j - m.cells.length) - 1) := by
        rw [← seqList_cons _ _ (by omega)]
        have h7 := seqList_split (j - m.cells.length) m.cells.length
          ids.length hq
        rw [hjq] at h7
        exact h7
      refine ⟨seqList (j + 1) (ids.length - (j - m.cells.length) - 1) ++
        seqList m.cells.length (j - m.cells.length), ?_, ?_, ?_, ?_⟩
      · exact pathF_rotate hcycleR hsplit2
      · exact ring_left_rotation hcycleR hback hsplit2
      · exact rotation_nodup hCnd hsplit2
      · intro x hxR
        have hxC : x ∈ seqList m.cells.length ids.length := by
          rw [seqList_split (j - m.cells.length) m.cells.length
            ids.length hq, hjq]
          rcases List.mem_append.mp hxR with h7 | h7
          · exact List.mem_append.mpr (Or.inr (List.mem_cons_of_mem j h7))
          · exact List.mem_append.mpr (Or.inl h7)
        have hxj : x ≠ j := by
          have h7 := rotation_nodup hCnd hsplit2
          have h8 := (List.nodup_cons.mp h7).1
          intro hcon
          rw [hcon] at hxR
          exact h8 hxR
        rw [mem_seqList] at hxC
        have hqx : x - m.cells.length < ids.length := by omega
        have hxq0 : m.cells.length + (x - m.cells.length) = x := by omega
        have hnx := hnewmr (x - m.cells.length) hqx
        rw [hxq0] at hnx
        have hnj := hnewmr (j - m.cells.length) hq
        rw [hjq] at hnj
        refine ⟨?_, ?_, ?_, ?_⟩
        · rw [hmrcl]
          omega
        · rw [hnx.1, hnj.1]
        · rw [hnx.2, hnj.2]
          exact getD_nodup_ne hnd hqx hq (by omega)
        · simp only [MCell.isData, hnx.1]
  · intro j j2 hj hj2 hd1 hd2 hrow hhdr
    rw [hmrcl] at hj hj2
    rcases Nat.lt_or_ge j m.cells.length with ho1 | hn1
    · rcases Nat.lt_or_ge j2 m.cells.length with ho2 | hn2
      · have e1 : (mr.cellAt j).row = (m.cellAt j).row := by
          rw [(hvert5 j).2.2.2.2, (hor5 j ho1).2.2.2.2]
        have e2 : (mr.cellAt j2).row = (m.cellAt j2).row := by
          rw [(hvert5 j2).2.2.2.2, (hor5 j2 ho2).2.2.2.2]
        have g1 : (mr.cellAt j).header = (m.cellAt j).header := by
          rw [(hvert5 j).2.2.1, (hor5 j ho1).2.2.1]
        have g2 : (mr.cellAt j2).header = (m.cellAt j2).header := by
          rw [(hvert5 j2).2.2.1, (hor5 j2 ho2).2.2.1]
        refine hrp.rowColUnique j j2 ho1 ho2 ?_ ?_ ?_ ?_
        · rw [← MCell.isData_congr e1]
          exact hd1
        · rw [← MCell.isData_congr e2]
          exact hd2
        · rw [← e1, ← e2]
          exact hrow
        · rw [← g1, ← g2]
          exact hhdr
      · exfalso
        have e1 : (mr.cellAt j).row = (m.cellAt j).row := by
          rw [(hvert5 j).2.2.2.2, (hor5 j ho1).2.2.2.2]
        obtain ⟨s, hs1, hs2⟩ := hrp.rowBound j ho1 (by
          rw [← MCell.isData_congr e1]
          exact hd1)
        have e2 := (hnewmr (j2 - m.cells.length) (by omega)).1
        rw [show m.cells.length + (j2 - m.cells.length) = j2 by omega] at e2
        rw [e1, hs1, e2] at hrow
        simp only [CellRow.data.injEq] at hrow
        omega
    · rcases Nat.lt_or_ge j2 m.cells.length with ho2 | hn2
      · exfalso
        have e2 : (mr.cellAt j2).row = (m.cellAt j2).row := by
          rw [(hvert5 j2).2.2.2.2, (hor5 j2 ho2).2.2.2.2]
        obtain ⟨s, hs1, hs2⟩ := hrp.rowBound j2 ho2 (by
          rw [← MCell.isData_congr e2]
          exact hd2)
        have e1 := (hnewmr (j - m.cells.length) (by omega)).1
        rw [show m.cells.length + (j - m.cells.length) = j by omega] at e1
        rw [e1, e2, hs1] at hrow
        simp only [CellRow.data.injEq] at hrow
        omega
      · have hqx : j - m.cells.length < ids.length := by omega
        have hqy : j2 - m.cells.length < ids.length := by omega
        have e1 := (hnewmr (j - m.cells.length) hqx).2
        rw [show m.cells.length + (j - m.cells.length) = j by omega] at e1
        have e2 := (hnewmr (j2 - m.cells.length) hqy).2
        rw [show m.cells.length + (j2 - m.cells.length) = j2 by omega] at e2
        rw [e1, e2] at hhdr
        by_contra hne2
        exact getD_nodup_ne hnd hqx hqy (by omega) hhdr

/-- The row-phase invariant contains structural well-formedness. -/
theorem rowsPhase_WS {m : DL} (hrp : RowsPhase m) : WS m :=
  ⟨hrp.hlenle, hrp.hdrcell, hrp.idx,
    fun i hi => MCell.isData_of_header (hrp.hdrRow i hi),
    hrp.hdrBound, hrp.hdrHorBound, hrp.hdrBacklink,
    fun i hi => (hrp.ring i hi).1, fun i hi => (hrp.ring i hi).2,
    hrp.sizes, hrp.rowRing, hrp.rowColUnique⟩

/-- Folding `add_sorted_row_index` over valid rows keeps the invariant. -/
theorem foldlM_rowsPhase {H : Nat} :
    ∀ (rows : List (List Nat)) (m : DL), RowsPhase m →
      m.headers.length = H →
      (∀ r ∈ rows, r ≠ [] ∧ r.Nodup ∧ ∀ i ∈ r, i < H) →
      ∃ mfin, rows.foldlM addSortedRowIds m = some mfin ∧
        RowsPhase mfin ∧ mfin.headers.length = H := by
  intro rows
  induction rows with
  | nil =>
    intro m hrp hH _
    exact ⟨m, rfl, hrp, hH⟩
  | cons r rs ih =>
    intro m hrp hH hval
    obtain ⟨h1, h2, h3⟩ := hval r (List.mem_cons_self r rs)
    obtain ⟨mr, heq, hrp2, hhdr, -⟩ := addSortedRowIds_rowsPhase hrp h1 h2
      (fun i hi => by rw [hH]; exact h3 i hi)
    have hH2 : mr.headers.length = H := by rw [hhdr, hH]
    obtain ⟨mfin, heq2, hrp3, hH3⟩ := ih mr hrp2 hH2
      (fun rr hrr => hval rr (List.mem_cons_of_mem r hrr))
    refine ⟨mfin, ?_, hrp3, hH3⟩
    rw [List.foldlM_cons, heq]
    exact heq2

/-- Every matrix built from a nonempty schema and valid rows is
structurally well-formed. -/
theorem buildAll_WS {specs : List ColumnSpec} {rows : List (List Nat)}
    {m : DL} (h : buildAll specs rows = some m)
    (hval : ∀ r ∈ rows, r ≠ [] ∧ r.Nodup ∧ ∀ i ∈ r, i ≤ specs.length) :
    WS m ∧ m.headers.length = specs.length + 1 := by
  unfold buildAll endColumns at h
  by_cases hsp : specs.isEmpty
  · rw [if_pos hsp] at h
    simp at h
  · rw [if_neg hsp] at h
    have h2 : rows.foldlM addSortedRowIds (endColumnsCore specs) =
        some m := h
    have hrp0 := endColumnsCore_rowsPhase specs
    have hH0 : (endColumnsCore specs).headers.length = specs.length + 1 :=
      (endColumnsCore_colPhase specs).hdrLen
    obtain ⟨mfin, heq, hrp, hH⟩ := foldlM_rowsPhase rows
      (endColumnsCore specs) hrp0 hH0
      (fun r hr => ⟨(hval r hr).1, (hval r hr).2.1,
        fun i hi => by have := (hval r hr).2.2 i hi; omega⟩)
    rw [heq] at h2
    have hme : mfin = m := Option.some.inj h2
    rw [← hme]
    exact ⟨rowsPhase_WS hrp, hH⟩

/-- C2: for every matrix built from a column schema and valid rows (each
row nonempty, duplicate-free, with ids in range) and every column key `c`
present in the structure, `cover c` followed by `uncover c` restores the
matrix exactly: every cell link and every column size is as before. -/
theorem cover_uncover_roundtrip {specs : List ColumnSpec}
    {rows : List (List Nat)} {m : DL} (h : buildAll specs rows = some m)
    (hval : ∀ r ∈ rows, r ≠ [] ∧ r.Nodup ∧ ∀ i ∈ r, i ≤ specs.length)
    {c : Nat} (hc : c < m.headers.length) :
    uncover (cover m c) c = m := by
  obtain ⟨hws, -⟩ := buildAll_WS h hval
  exact uncover_cover_of_WS hws hc

def exDL2 : DL :=
  (buildAll [⟨1, true⟩, ⟨2, false⟩] [[1, 2], [2]]).getD (DL.mk 0 0 0 [] [])

theorem cover_uncover_roundtrip_witness :
    uncover (cover exDL2 1) 1 = exDL2 :=
  @cover_uncover_roundtrip [⟨1, true⟩, ⟨2, false⟩] [[1, 2], [2]] exDL2
    (by decide) (by decide) 1 (by decide)

def pathFDecidable (f : Nat → Nat) :
    (a : Nat) → (l : List Nat) → (b : Nat) → Decidable (PathF f a l b)
  | a, [], b => Nat.decEq (f a) b
  | a, x :: xs, b =>
    @instDecidableAnd _ _ (Nat.decEq (f a) x) (pathFDecidable f x xs b)

instance (f : Nat → Nat) (a : Nat) (l : List Nat) (b : Nat) :
    Decidable (PathF f a l b) := pathFDecidable f a l b

/-- The fold inside `min_by_key`, keeping the first minimum. -/
def minFold (x : MColumn) (xs : List MColumn) : MColumn :=
  xs.foldl (fun b a => if a.size < b.size then a else b) x

theorem firstMinBy_minFold (x : MColumn) (xs : List MColumn) :
    firstMinBy (·.size) (x :: xs) = some (minFold x xs) := rfl

/-- `min_by_key` over a list whose indices strictly increase: the result is
a member of minimal size, and any member tying that size has an index at
least the result's (the first minimum wins). -/
theorem minFold_spec : ∀ (xs : List MColumn) (x : MColumn),
    ((x :: xs).Pairwise fun c d => c.index < d.index) →
    (minFold x xs = x ∨ minFold x xs ∈ xs) ∧
    (∀ y, y = x ∨ y ∈ xs → (minFold x xs).size ≤ y.size) ∧
    (∀ y, y = x ∨ y ∈ xs → y.size = (minFold x xs).size →
      (minFold x xs).index ≤ y.index) := by
  intro xs
  induction xs with
  | nil =>
    intro x _
    refine ⟨Or.inl rfl, ?_, ?_⟩
    · intro y hy
      rcases hy with hye | hy2
      · rw [hye]
        exact Nat.le_refl _
      · cases hy2
    · intro y hy _
      rcases hy with hye | hy2
      · rw [hye]
        exact Nat.le_refl _
      · cases hy2
  | cons a as ih =>
    intro x hpw
    rcases List.pairwise_cons.mp hpw with ⟨hx, hpw2⟩
    rcases List.pairwise_cons.mp hpw2 with ⟨ha, hpw3⟩
    by_cases hc : a.size < x.size
    · have hfold : minFold x (a :: as) = minFold a as := by
        show minFold (if a.size < x.size then a else x) as = _
        rw [if_pos hc]
      obtain ⟨ih1, ih2, ih3⟩ := ih a hpw2
      rw [hfold]
      refine ⟨?_, ?_, ?_⟩
      · rcases ih1 with h1 | h1
        · rw [h1]
          exact Or.inr (List.mem_cons_self a as)
        · exact Or.inr (List.mem_cons_of_mem a h1)
      · intro y hy
        rcases hy with hye | hy2
        · have h2 := ih2 a (Or.inl rfl)
          rw [hye]
          omega
        · rcases List.mem_cons.mp hy2 with hya | hyas
          · rw [hya]
            exact ih2 a (Or.inl rfl)
          · exact ih2 y (Or.inr hyas)
      · intro y hy hsz
        rcases hy with hye | hy2
        · exfalso
          have h2 := ih2 a (Or.inl rfl)
          rw [hye] at hsz
          omega
        · rcases List.mem_cons.mp hy2 with hya | hyas
          · rw [hya] at hsz ⊢
            exact ih3 a (Or.inl rfl) hsz
          · exact ih3 y (Or.inr hyas) hsz
    · have hfold : minFold x (a :: as) = minFold x as := by
        show minFold (if a.size < x.size then a else x) as = _
        rw [if_neg hc]
      have hpw' : (x :: as).Pairwise (fun c d => c.index < d.index) :=
        List.pairwise_cons.mpr
          ⟨fun d hd => hx d (List.mem_cons_of_mem a hd), hpw3⟩
      obtain ⟨ih1, ih2, ih3⟩ := ih x hpw'
      rw [hfold]
      refine ⟨?_, ?_, ?_⟩
      · rcases ih1 with h1 | h1
        · exact Or.inl h1
        · exact Or.inr (List.mem_cons_of_mem a h1)
      · intro y hy
        rcases hy with hye | hy2
        · rw [hye]
          exact ih2 x (Or.inl rfl)
        · rcases List.mem_cons.mp hy2 with hya | hyas
          · have h2 := ih2 x (Or.inl rfl)
            rw [hya]
            omega
          · exact ih2 y (Or.inr hyas)
      · intro y hy hsz
        rcases hy with hye | hy2
        · rw [hye] at hsz ⊢
          exact ih3 x (Or.inl rfl) hsz
        · rcases List.mem_cons.mp hy2 with hya | hyas
          · rw [hya] at hsz ⊢
            have h2 := ih2 x (Or.inl rfl)
            have h4 := ih3 x (Or.inl rfl) (by omega)
            have h6 := hx a (List.mem_cons_self a as)
            omega
          · exact ih3 y (Or.inr hyas) hsz

/-- C4: at a choice point whose top ring (the headers reachable rightward
from the sentinel, i.e. the currently uncovered columns) consists of
primary non-sentinel columns in ascending id order, the `choose_min = true`
chooser `min_column` — a pure function of the matrix state — returns a
column of that ring (hence uncovered, primary, and never the sentinel first
column or a secondary column) whose size is minimal, and among the
minimum-size columns it returns the one with the lowest id. -/
theorem min_column_is_min {m : DL} {R : List Nat}
    (hkey : m.headerKey = 0)
    (hpath : PathF (rightF m) 0 R 0)
    (hhdrcell : ∀ x ∈ (0 :: R), (m.headerAt x).cell = x)
    (hcellhdr : ∀ x ∈ (0 :: R), (m.cellAt x).header = x)
    (h0 : 0 ∉ R)
    (hfuel : R.length < m.headers.length)
    (hne : R ≠ [])
    (hprim : ∀ x ∈ R, (m.headerAt x).primary = true)
    (hidx : ∀ x ∈ R, (m.headerAt x).index = x)
    (hsorted : R.Pairwise (· < ·)) :
    ∃ col, m.minColumn = some col ∧
      col.primary = true ∧
      col.index ∈ R ∧ col.index ≠ 0 ∧
      (∀ x ∈ R, col.size ≤ (m.headerAt x).size) ∧
      (∀ x ∈ R, (m.headerAt x).size = col.size → col.index ≤ x) := by
  have hmem0 : ∀ x, x = 0 ∨ x ∈ R → x ∈ (0 :: R) := by
    intro x hx
    rcases hx with h1 | h1
    · rw [h1]
      exact List.mem_cons_self _ _
    · exact List.mem_cons_of_mem _ h1
  have hringEq : m.iterateHeaders m.headerKey (·.right) false = R :=
    iterateHeaders_ring hkey hpath (fun x hx => hhdrcell x (hmem0 x hx))
      (fun x hx => hcellhdr x (hmem0 x hx)) h0 hfuel
  cases R with
  | nil => exact absurd rfl hne
  | cons r rs =>
    have hpw : ((m.headerAt r :: rs.map m.headerAt).Pairwise
        fun c d => c.index < d.index) := by
      have h1 : ((r :: rs).map m.headerAt).Pairwise
          (fun c d => c.index < d.index) := by
        rw [List.pairwise_map]
        refine List.Pairwise.imp_of_mem ?_ hsorted
        intro c d hcm hdm hlt
        rw [hidx c hcm, hidx d hdm]
        exact hlt
      simpa using h1
    obtain ⟨s1, s2, s3⟩ := minFold_spec (rs.map m.headerAt)
      (m.headerAt r) hpw
    have hcolmem : ∃ x, x ∈ r :: rs ∧
        m.headerAt x = minFold (m.headerAt r) (rs.map m.headerAt) := by
      rcases s1 with h1 | h1
      · exact ⟨r, List.mem_cons_self r rs, h1.symm⟩
      · obtain ⟨x, hx1, hx2⟩ := List.mem_map.mp h1
        exact ⟨x, List.mem_cons_of_mem r hx1, hx2⟩
    obtain ⟨w, hw1, hw2⟩ := hcolmem
    have hmemmap : ∀ x ∈ r :: rs,
        m.headerAt x = m.headerAt r ∨ m.headerAt x ∈ rs.map m.headerAt := by
      intro x hx
      rcases List.mem_cons.mp hx with hxr | hxr
      · exact Or.inl (by rw [hxr])
      · exact Or.inr (List.mem_map_of_mem _ hxr)
    refine ⟨minFold (m.headerAt r) (rs.map m.headerAt), ?_, ?_, ?_, ?_,
      ?_, ?_⟩
    · unfold DL.minColumn
      rw [hringEq]
      rfl
    · rw [← hw2]
      exact hprim w hw1
    · rw [← hw2, hidx w hw1]
      exact hw1
    · rw [← hw2, hidx w hw1]
      intro hcon
      rw [hcon] at hw1
      exact h0 hw1
    · intro x hx
      exact s2 (m.headerAt x) (hmemmap x hx)
    · intro x hx hsz
      have h3 := s3 (m.headerAt x) (hmemmap x hx) hsz
      rw [hidx x hx] at h3
      exact h3

/-- C4 witness instance: two primary columns, one row covering column 2,
so column 1 has size 0 and column 2 has size 1. -/
def exDL4 : DL :=
  (buildAll [⟨1, true⟩, ⟨2, true⟩] [[2]]).getD (DL.mk 0 0 0 [] [])

theorem min_column_is_min_witness :
    ∃ col, exDL4.minColumn = some col ∧
      col.primary = true ∧
      col.index ∈ [1, 2] ∧ col.index ≠ 0 ∧
      (∀ x ∈ [1, 2], col.size ≤ (exDL4.headerAt x).size) ∧
      (∀ x ∈ [1, 2], (exDL4.headerAt x).size = col.size → col.index ≤ x) :=
  min_column_is_min (by decide) (by decide) (by decide) (by decide)
    (by decide) (by decide) (by decide) (by decide) (by decide) (by decide)

/-- With `return_first = true`, every terminating run of the solver loop
emits at most one solution: the `return solutions` after the first push
discards the continuation. -/
theorem solveLoop_returnFirst_le_one (ch : DL → Option MColumn) :
    ∀ (fuel : Nat) (stack : List StackElem) (dict : List (Nat × Nat))
      (m : DL) (advance : Bool) (out : List Solution),
      solveLoop ch true fuel stack dict m advance = some out →
      out.length ≤ 1 := by
  intro fuel
  induction fuel with
  | zero =>
    intro stack dict m advance out h
    simp [solveLoop] at h
  | succ fuel ih =>
    intro stack dict m advance out h
    cases stack with
    | nil =>
      simp only [solveLoop] at h
      rw [← Option.some.inj h]
      simp
    | cons elem rest =>
      simp only [solveLoop] at h
      split at h
      · split at h
        · rw [← Option.some.inj h]
          simp
        · rename_i h2
          exact absurd trivial h2
      · split at h
        · exact ih _ _ _ _ _ h
        · split at h
          · exact ih _ _ _ _ _ h
          · exact ih _ _ _ _ _ h
        · split at h
          · exact Option.noConfusion h
          · split at h
            · exact ih _ _ _ _ _ h
            · exact ih _ _ _ _ _ h

/-- `return_first = true` truncates the full enumeration to its first
element: whenever the full run terminates with `outs`, the first-only run
terminates with `outs.take 1` (same fuel, same deterministic order, no
search beyond the first emission). -/
theorem solveLoop_returnFirst_take_one (ch : DL → Option MColumn) :
    ∀ (fuel : Nat) (stack : List StackElem) (dict : List (Nat × Nat))
      (m : DL) (advance : Bool) (outs : List Solution),
      solveLoop ch false fuel stack dict m advance = some outs →
      solveLoop ch true fuel stack dict m advance = some (outs.take 1) := by
  intro fuel
  induction fuel with
  | zero =>
    intro stack dict m advance outs h
    simp [solveLoop] at h
  | succ fuel ih =>
    intro stack dict m advance outs h
    cases stack with
    | nil =>
      simp only [solveLoop] at h ⊢
      rw [← Option.some.inj h]
      rfl
    | cons elem rest =>
      simp only [solveLoop] at h ⊢
      by_cases hre : (m.cellAt ((m.headerAt m.headerKey).cell)).right =
          (m.cellAt ((m.headerAt m.headerKey).cell)).index
      · rw [if_pos hre] at h ⊢
        rw [if_neg (show ¬(false = true) by simp)] at h
        rw [if_pos (by trivial)]
        rw [Option.map_eq_some'] at h
        obtain ⟨more, hmore, houts⟩ := h
        rw [← houts]
        rfl
      · rw [if_neg hre] at h ⊢
        cases elem with
        | root =>
          cases hb : (advance || decide ((m.cellAt
              ((m.headerAt m.headerKey).cell)).right =
              (m.cellAt ((m.headerAt m.headerKey).cell)).index)) with
          | true =>
            rw [hb] at h
            exact ih _ _ _ _ _ h
          | false =>
            rw [hb] at h
            cases hch : ch m with
            | none =>
              rw [hch] at h
              simp only [] at h
              exact Option.noConfusion h
            | some startCol =>
              rw [hch] at h
              simp only [] at h
              by_cases hsz : startCol.size = 0
              · rw [if_pos hsz] at h
                simp only []
                rw [if_pos hsz]
                exact ih _ _ _ _ _ h
              · rw [if_neg hsz] at h
                simp only []
                rw [if_neg hsz]
                exact ih _ _ _ _ _ h
        | iteration ki cur start =>
          cases hb : (advance || decide ((m.cellAt
              ((m.headerAt m.headerKey).cell)).right =
              (m.cellAt ((m.headerAt m.headerKey).cell)).index)) with
          | true =>
            rw [hb] at h
            simp only [] at h
            by_cases hnx : ((uncoverRow m cur).cellAt cur).down = start
            · rw [if_pos hnx] at h
              simp only []
              rw [if_pos hnx]
              exact ih _ _ _ _ _ h
            · rw [if_neg hnx] at h
              simp only []
              rw [if_neg hnx]
              exact ih _ _ _ _ _ h
          | false =>
            rw [hb] at h
            cases hch : ch m with
            | none =>
              rw [hch] at h
              simp only [] at h
              exact Option.noConfusion h
            | some startCol =>
              rw [hch] at h
              simp only [] at h
              by_cases hsz : startCol.size = 0
              · rw [if_pos hsz] at h
                simp only []
                rw [if_pos hsz]
                exact ih _ _ _ _ _ h
              · rw [if_neg hsz] at h
                simp only []
                rw [if_neg hsz]
                exact ih _ _ _ _ _ h

end DancingLinks
